import Mathlib

/-!
# genref1d: reference-data generator for the 1-d transform tests

A shallow embedding of `Tetractic.Dsp.Transforms.Tests/Resources/genref1d.c`
(`randld`, `generate`, `save` and `main`) together with theorems about it.

Conventions of the embedding.

* `long double` is a binary floating-point format with `prec` significand bits,
  largest exponent `emax`, gradual underflow, infinities and NaN, and every
  arithmetic operation rounds its exact result to nearest, ties to even.  The
  format is a parameter (`Format`); `x87` is the 80-bit extended format.  The
  value of an expression (`FP`) does not distinguish the two zeros (the program
  never divides by zero).
* An object in memory (`Cell`) has the sign of its zero and the sign, quiet bit
  and payload of its NaN.  The buffers that the library returns and that `save`
  writes hold such objects.  `double` is IEEE 754 binary64, stored least
  significant byte first; the conversion of a `long double` to `double` is that
  of the x87.
* `RAND_MAX` comes from `<stdlib.h>` and is a parameter.
* The native generator `rand()` is modelled by its state: the stream of the draws
  still to come.  `srand(1415926535)` puts the generator in one such state; the
  theorems hold for every state.
* The FFTW library is external to the repository; the three calls that plan,
  execute and destroy the transform are one parameter of type `Fftw`.
* Loops that C writes as `while (1)` take a fuel argument and return `none` when
  it runs out; accesses outside a buffer return `none`.
* `stdin` is the list of the characters not read yet together with the
  end-of-file indicator; `fscanf(stdin, "%i\n", &n)` follows the C standard
  (`int` has 32 bits; a value that does not fit, and a `0x` that no hexadecimal
  digit follows, have no defined result).  The loop of `main` takes its own fuel
  `iters`; the value that `n` holds when `fscanf` has not assigned it is
  indeterminate and is the parameter `junk`.
-/

namespace Genref1d

/-! ## Floating point -/

/-- A binary floating-point format: `prec` significand bits, exponents up to `emax`. -/
structure Format where
  prec : Nat
  emax : Nat
deriving DecidableEq, Repr

/-- The 80-bit extended format of the x87 (`long double` on x86 with gcc). -/
def x87 : Format := ⟨64, 16383⟩

/-- IEEE-754 double precision. -/
def binary64 : Format := ⟨53, 1023⟩

/-- The smallest exponent of a normal number. -/
def Format.emin (F : Format) : ℤ := 1 - F.emax

/-- A floating-point datum: a finite value, an infinity, or NaN. -/
inductive FP where
  | fin (q : ℚ)
  | pinf
  | ninf
  | nan
deriving DecidableEq, Repr

/-- The power `2 ^ e` of two, for an integer exponent. -/
def pow2 (e : ℤ) : ℚ :=
  if 0 ≤ e then ((2 ^ e.toNat : ℕ) : ℚ) else (((2 ^ (-e).toNat : ℕ) : ℚ))⁻¹

/-- The binary exponent of a non-zero `q`: the `k` with `2 ^ k ≤ |q| < 2 ^ (k + 1)`. -/
def ilog2 (q : ℚ) : ℤ :=
  if pow2 ((q.num.natAbs.log2 : ℤ) - (q.den.log2 : ℤ)) ≤ |q| then
    (q.num.natAbs.log2 : ℤ) - (q.den.log2 : ℤ)
  else (q.num.natAbs.log2 : ℤ) - (q.den.log2 : ℤ) - 1

/-- Nearest integer, ties to the even one. -/
def roundHalfEven (x : ℚ) : ℤ :=
  if x - ⌊x⌋ < 1 / 2 then ⌊x⌋
  else if 1 / 2 < x - ⌊x⌋ then ⌊x⌋ + 1
  else if ⌊x⌋ % 2 = 0 then ⌊x⌋ else ⌊x⌋ + 1

/-- Exponent of the unit in the last place of the binade that holds `q`. -/
def Format.qexp (F : Format) (q : ℚ) : ℤ :=
  max (ilog2 q) F.emin - (F.prec - 1)

/-- The value `q` rounded to the grid of its binade (before the overflow test). -/
def Format.rval (F : Format) (q : ℚ) : ℚ :=
  roundHalfEven (q / pow2 (F.qexp q)) * pow2 (F.qexp q)

/-- Rounding of an exact result into the format: to nearest, ties to even,
overflowing to an infinity. -/
def Format.round (F : Format) (q : ℚ) : FP :=
  if pow2 (F.emax + 1) ≤ |F.rval q| then (if 0 < q then FP.pinf else FP.ninf)
  else FP.fin (F.rval q)

namespace FP

/-- Conversion of an `int` to the format. -/
def ofInt (F : Format) (i : ℤ) : FP := F.round i

/-- Floating-point addition. -/
def add (F : Format) : FP → FP → FP
  | fin a, fin b => F.round (a + b)
  | fin _, pinf => pinf
  | fin _, ninf => ninf
  | pinf, fin _ => pinf
  | pinf, pinf => pinf
  | ninf, fin _ => ninf
  | ninf, ninf => ninf
  | _, _ => nan

/-- Floating-point multiplication. -/
def mul (F : Format) : FP → FP → FP
  | fin a, fin b => F.round (a * b)
  | fin a, pinf => if a = 0 then nan else if 0 < a then pinf else ninf
  | fin a, ninf => if a = 0 then nan else if 0 < a then ninf else pinf
  | pinf, fin b => if b = 0 then nan else if 0 < b then pinf else ninf
  | ninf, fin b => if b = 0 then nan else if 0 < b then ninf else pinf
  | pinf, pinf => pinf
  | ninf, ninf => pinf
  | pinf, ninf => ninf
  | ninf, pinf => ninf
  | _, _ => nan

/-- Floating-point division. -/
def div (F : Format) : FP → FP → FP
  | fin a, fin b =>
    if b = 0 then (if a = 0 then nan else if 0 < a then pinf else ninf)
    else F.round (a / b)
  | fin _, pinf => fin 0
  | fin _, ninf => fin 0
  | pinf, fin b => if 0 ≤ b then pinf else ninf
  | ninf, fin b => if 0 ≤ b then ninf else pinf
  | _, _ => nan

/-- The comparison `==` of C: NaN is equal to nothing. -/
def eq : FP → FP → Bool
  | fin a, fin b => decide (a = b)
  | pinf, pinf => true
  | ninf, ninf => true
  | _, _ => false

end FP

/-! ## The native generator -/

/-- State of the native generator: the draws that `rand()` will return, in order. -/
abbrev RandState := Nat → Nat

/-- One call of `rand()`: the next draw and the advanced state. -/
def rand (s : RandState) : Nat × RandState := (s 0, fun i => s (i + 1))

/-! ## `randld` -/

/-- The loop of `randld`, entered with accumulator `r` and scale `d`. -/
def randldLoop (F : Format) (RAND_MAX : Nat) : Nat → RandState → FP → FP → Option (FP × RandState)
  | 0, _, _, _ => none
  | fuel + 1, s, r, d =>
    let r1 := FP.add F r (FP.div F (FP.ofInt F ((rand s).1 : ℤ)) d)
    if FP.eq (FP.add F r1 (FP.div F (FP.ofInt F 1) d)) r1 then some (r1, (rand s).2)
    else randldLoop F RAND_MAX fuel (rand s).2 r1 (FP.mul F d (FP.ofInt F (RAND_MAX : ℤ)))

/-- The sampler `randld`: `r = 0`, `d = RAND_MAX`, then the loop. -/
def randld (F : Format) (RAND_MAX : Nat) (fuel : Nat) (s : RandState) : Option (FP × RandState) :=
  randldLoop F RAND_MAX fuel s (FP.ofInt F 0) (FP.ofInt F (RAND_MAX : ℤ))

/-! ## Floating-point objects in memory -/

/-- A floating-point object as memory holds it.  The value of an expression
(`FP`) does not say which zero a zero is, nor which NaN a NaN is; an object has
the sign of its zero (`fin 0` is `+0`, `nzero` is `-0`) and, for a NaN, its
sign, its quiet bit and its payload: the fraction bits below the quiet bit, most
significant first. -/
inductive Cell where
  | fin (q : ℚ)
  | nzero
  | pinf
  | ninf
  | nan (neg quiet : Bool) (payload : List Bool)
deriving DecidableEq, Repr

/-- The object that storing the value of an expression leaves in memory.  A
zero is stored as `+0` (no sum, product or quotient of the program has `-0` for
its result), and `FP.nan` as the NaN that an invalid operation delivers on the
x87: negative, quiet, with no payload bit set. -/
def Cell.ofFP : FP → Cell
  | FP.fin q => Cell.fin q
  | FP.pinf => Cell.pinf
  | FP.ninf => Cell.ninf
  | FP.nan => Cell.nan true true []

/-- The first `n` bits of a payload, zeros standing for the bits it has not. -/
def padBits (n : Nat) (p : List Bool) : List Bool := (p ++ List.replicate n false).take n

/-- The number that bits, most significant first, write in base 2. -/
def bitsValue : List Bool → Nat
  | [] => 0
  | b :: t => (if b then 2 ^ t.length else 0) + bitsValue t

/-- The conversion of a `long double` object to `double`: a finite value is
rounded to nearest, ties to even, a negative value that rounds to zero giving
`-0`; a zero and an infinity keep their sign; a NaN keeps its sign, becomes
quiet and keeps the first 51 bits of its payload. -/
def Cell.toDouble : Cell → Cell
  | Cell.fin q =>
    if q < 0 ∧ binary64.rval q = 0 then Cell.nzero else Cell.ofFP (binary64.round q)
  | Cell.nzero => Cell.nzero
  | Cell.pinf => Cell.pinf
  | Cell.ninf => Cell.ninf
  | Cell.nan neg _ p => Cell.nan neg true (padBits 51 p)

/-! ## `generate` -/

/-- One `fftwl_complex` as the value of its two parts: real part, imaginary part. -/
abbrev Sample := FP × FP

/-- One `fftwl_complex` as memory holds it. -/
abbrev Stored := Cell × Cell

/-- The two objects that storing a sample leaves in memory. -/
def store (c : Sample) : Stored := (Cell.ofFP c.1, Cell.ofFP c.2)

/-- The effect of `fftwl_plan_dft_1d(n, in, out, FFTW_FORWARD, FFTW_ESTIMATE)`,
`fftwl_execute` and `fftwl_destroy_plan` on the two buffers; `none` when the
library fails.  FFTW is not part of the repository: what it leaves in the
buffers may be any objects. -/
abbrev Fftw := ℤ → List Stored → List Stored → Option (List Stored × List Stored)

/-- The literal `-0.5L`. -/
def minusHalf (F : Format) : FP := F.round (-1 / 2)

/-- The first loop of `generate`: `k` iterations remain, the index is `i`. -/
def generateFill (F : Format) (RAND_MAX fuel : Nat) :
    Nat → Nat → List Sample → RandState → Option (List Sample × RandState)
  | 0, _, inp, s => some (inp, s)
  | k + 1, i, inp, s =>
    match randld F RAND_MAX fuel s with
    | none => none
    | some (x, s1) =>
      match randld F RAND_MAX fuel s1 with
      | none => none
      | some (y, s2) =>
        if i < inp.length then
          generateFill F RAND_MAX fuel k (i + 1)
            (inp.set i (FP.add F (minusHalf F) x, FP.add F (minusHalf F) y)) s2
        else none

/-- The function `generate`: fill `in` from the sampler, then transform it into
`out`.  The library finds in `in` the objects that the first loop has stored. -/
def generate (F : Format) (RAND_MAX fuel : Nat) (fftw : Fftw) (n : ℤ)
    (inp : List Sample) (out : List Stored) (s : RandState) :
    Option (List Stored × List Stored × RandState) :=
  match generateFill F RAND_MAX fuel n.toNat 0 inp s with
  | none => none
  | some (inp1, s1) =>
    match fftw n (inp1.map store) out with
    | none => none
    | some (inp2, out2) => some (inp2, out2, s1)

/-! ## `save` -/

/-- The 64 bits of a `double` object: sign, 11 exponent bits, 52 fraction bits
(for a NaN: the quiet bit, then 51 payload bits). -/
def doubleBits : Cell → Nat
  | Cell.fin q =>
    if q = 0 then 0
    else
      let e := max (ilog2 q) (-1022)
      let m := (⌊|q| / pow2 (e - 52)⌋).toNat
      (if q < 0 then 2 ^ 63 else 0) + (if m < 2 ^ 52 then m else (e + 1022).toNat * 2 ^ 52 + m)
  | Cell.nzero => 0x8000000000000000
  | Cell.pinf => 0x7FF0000000000000
  | Cell.ninf => 0xFFF0000000000000
  | Cell.nan neg quiet p =>
    (if neg then 2 ^ 63 else 0) + 0x7FF0000000000000 + (if quiet then 2 ^ 51 else 0)
      + bitsValue (padBits 51 p)

/-- The eight bytes of a `double` in memory, least significant first. -/
def encodeDouble (x : Cell) : List Nat :=
  (List.range 8).map fun k => doubleBits x / 256 ^ k % 256

/-- The loop of `save`: `k` iterations remain, the index is `i`, `f` is what has
been written so far.  `double c[2] = { cs[i][0], cs[i][1] }` converts the two
parts, `fwrite` writes the sixteen bytes of `c`. -/
def saveLoop (cs : List Stored) : Nat → Nat → List Nat → Option (List Nat)
  | 0, _, f => some f
  | k + 1, i, f =>
    match cs[i]? with
    | none => none
    | some c =>
      saveLoop cs k (i + 1) (f ++ (encodeDouble c.1.toDouble ++ encodeDouble c.2.toDouble))

/-- The decimal text that `%d` prints. -/
def printInt (n : ℤ) : List Char :=
  if n < 0 then '-' :: (Nat.toDigits 10 n.natAbs) else Nat.toDigits 10 n.natAbs

/-- The name built by `snprintf(s, sizeof(s), "fftw.%d.%s", n, ext)` with `char s[100]`. -/
def fileName (n : ℤ) (ext : String) : String :=
  String.mk (("fftw.".toList ++ printInt n ++ '.' :: ext.toList).take 99)

/-- A file written by the program. -/
structure File where
  name : String
  bytes : List Nat
deriving DecidableEq, Repr

/-- The function `save`: the file it creates (the file is opened with `"wb"`, so
it starts empty), or `none` when it reads outside `cs`.  The call of `fopen` is
taken to succeed. -/
def save (n : ℤ) (ext : String) (cs : List Stored) : Option File :=
  match saveLoop cs n.toNat 0 [] with
  | none => none
  | some bytes => some ⟨fileName n ext, bytes⟩

/-! ## The body of the loop of `main` -/

/-- The buffer returned by `fftwl_malloc(sizeof(fftwl_complex) * n)`: `n` samples
whose contents `mem` are whatever the heap held. -/
def fftwl_malloc (mem : Nat → Sample) (n : ℤ) : List Sample :=
  (List.range n.toNat).map mem

/-- One test case (the body of the loop of `main` after `n` has been read):
allocate, generate, save both buffers.  `mem1` and `mem2` are the previous
contents of the two allocations. -/
def testCase (F : Format) (RAND_MAX fuel : Nat) (fftw : Fftw) (mem1 mem2 : Nat → Sample)
    (n : ℤ) (s : RandState) : Option (File × File × RandState) :=
  match generate F RAND_MAX fuel fftw n (fftwl_malloc mem1 n) ((fftwl_malloc mem2 n).map store)
      s with
  | none => none
  | some (inp, out, s1) =>
    match save n "in" inp with
    | none => none
    | some fileIn =>
      match save n "out" out with
      | none => none
      | some fileOut => some (fileIn, fileOut, s1)

/-! ## Predicates and bounds used in the statements -/

/-- Representable on the grid of its binade: rounding leaves the value as it is. -/
def Format.Rep (F : Format) (y : ℚ) : Prop := F.rval y = y

instance (F : Format) (y : ℚ) : Decidable (F.Rep y) := by
  unfold Format.Rep; infer_instance

/-- The formats covered by the theorems: at least two significand bits and
exponents at least up to 2. -/
def Format.Valid (F : Format) : Prop := 2 ≤ F.prec ∧ 2 ≤ F.emax

instance (F : Format) : Decidable F.Valid := by
  unfold Format.Valid; infer_instance

/-- The platforms covered by the theorems about the sampler: a valid format in
which every draw `0 .. RAND_MAX` is represented exactly, and `RAND_MAX ≥ 2`. -/
def Supported (F : Format) (RAND_MAX : Nat) : Prop :=
  F.Valid ∧ 2 ≤ RAND_MAX ∧ RAND_MAX < 2 ^ F.prec ∧ RAND_MAX < 2 ^ F.emax

instance (F : Format) (RAND_MAX : Nat) : Decidable (Supported F RAND_MAX) := by
  unfold Supported; infer_instance

/-- Every draw of the generator lies in `0 .. RAND_MAX`. -/
def ValidDraws (RAND_MAX : Nat) (s : RandState) : Prop := ∀ i, s i ≤ RAND_MAX

/-- The largest value the sampler can return: `1 + 2 / 2 ^ ⌊log₂ RAND_MAX⌋`. -/
def samplerMax (RAND_MAX : Nat) : ℚ := 1 + 2 / 2 ^ RAND_MAX.log2

/-- Bound on the accumulator of `randld` when iteration `k` starts (`k = 0` is
the first one). -/
def accBound (F : Format) (RAND_MAX : Nat) (k : Nat) : ℚ :=
  if k = 0 then 0
  else if RAND_MAX.log2 * k ≤ F.prec then samplerMax RAND_MAX - 2 / 2 ^ (RAND_MAX.log2 * k)
  else samplerMax RAND_MAX

/-- What holds of the scale `d` of `randld` when iteration `k` starts. -/
def ScaleInv (F : Format) (RAND_MAX : Nat) (k : Nat) (d : FP) : Prop :=
  d = FP.pinf ∨
    ∃ x : ℚ, d = FP.fin x ∧ (RAND_MAX : ℚ) * 2 ^ (RAND_MAX.log2 * k) ≤ x ∧
      x < 2 ^ (F.emax + 1)

/-- What holds of the accumulator `r` of `randld` when iteration `k` starts;
`lo` is a lower bound that the accumulator has reached. -/
def AccInv (F : Format) (RAND_MAX : Nat) (lo : ℚ) (k : Nat) (r : FP) : Prop :=
  ∃ y : ℚ, r = FP.fin y ∧ lo ≤ y ∧ y ≤ accBound F RAND_MAX k ∧ F.Rep y

/-- The result of the `j`-th of the successive calls of the sampler that start
in state `s` (`j = 0` is the first call). -/
def randldNth (F : Format) (RAND_MAX fuel : Nat) : Nat → RandState → Option FP
  | 0, s => (randld F RAND_MAX fuel s).map Prod.fst
  | j + 1, s =>
    match randld F RAND_MAX fuel s with
    | none => none
    | some (_, s1) => randldNth F RAND_MAX fuel j s1

/-- The transform does not look at what the output buffer held before. -/
def Fftw.IgnoresOutput (fftw : Fftw) : Prop :=
  ∀ (n : ℤ) (inp out out' : List Stored), out.length = out'.length →
    fftw n inp out = fftw n inp out'

/-! ## The standard input and `fscanf` -/

/-- The stream `stdin`: the characters not read yet and the end-of-file
indicator, which a read attempted past the last character sets. -/
structure Stdin where
  buf : List Char
  eof : Bool
deriving DecidableEq, Repr

/-- The function `isspace` in the C locale. -/
def isspace (c : Char) : Bool :=
  decide (c = ' ' ∨ c = '\t' ∨ c = '\n' ∨ c = Char.ofNat 11 ∨ c = Char.ofNat 12 ∨ c = '\r')

/-- The value of a digit, in bases up to 16. -/
def digitVal (c : Char) : Option Nat :=
  if '0' ≤ c ∧ c ≤ '9' then some (c.toNat - 48)
  else if 'a' ≤ c ∧ c ≤ 'f' then some (c.toNat - 87)
  else if 'A' ≤ c ∧ c ≤ 'F' then some (c.toNat - 55)
  else none

/-- White space is read up to the first character that is not white space,
which stays unread; running into the end of the input sets the indicator. -/
def skipSpace : List Char → Stdin
  | [] => ⟨[], true⟩
  | c :: cs => if isspace c then skipSpace cs else ⟨c :: cs, false⟩

/-- The longest run of digits of the base at the front of the input, read as
the number that continues `acc`, and the characters after it. -/
def scanDigits (base : Nat) : List Char → Nat → Nat × List Char
  | [], acc => (acc, [])
  | c :: cs, acc =>
    match digitVal c with
    | some v => if v < base then scanDigits base cs (acc * base + v) else (acc, c :: cs)
    | none => (acc, c :: cs)

/-- What a conversion finds at the front of the input: a number and the
characters after it, no number (with the characters left unread), or an input
on which the C standard and the C libraries do not agree. -/
inductive Scan where
  | value (v : ℤ) (rest : List Char)
  | noMatch (rest : List Char)
  | unspecified
deriving DecidableEq, Repr

/-- The digits of the subject sequence of `%i` (that of `strtol` with base 0):
hexadecimal after `0x`, octal after `0`, decimal otherwise.  A `0x` that no
hexadecimal digit follows is left unspecified. -/
def scanMagnitude (cs : List Char) : Scan :=
  match cs with
  | [] => Scan.noMatch []
  | c :: t =>
    if c = '0' then
      match t with
      | [] => Scan.value 0 []
      | x :: u =>
        if x = 'x' ∨ x = 'X' then
          match u with
          | [] => Scan.unspecified
          | h :: _ =>
            if (digitVal h).isSome then Scan.value (scanDigits 16 u 0).1 (scanDigits 16 u 0).2
            else Scan.unspecified
        else Scan.value (scanDigits 8 t 0).1 (scanDigits 8 t 0).2
    else if '1' ≤ c ∧ c ≤ '9' then Scan.value (scanDigits 10 cs 0).1 (scanDigits 10 cs 0).2
    else Scan.noMatch cs

/-- The opposite of the number found. -/
def Scan.neg : Scan → Scan
  | Scan.value v rest => Scan.value (-v) rest
  | s => s

/-- The subject sequence of `%i`: an optional sign, then the digits. -/
def scanInt (cs : List Char) : Scan :=
  match cs with
  | [] => Scan.noMatch []
  | c :: t =>
    if c = '-' then (scanMagnitude t).neg
    else if c = '+' then scanMagnitude t
    else scanMagnitude cs

/-- The call `fscanf(stdin, "%i\n", &n)` with a 32-bit `int`: white space is
skipped, an integer is read and, when there is one, the white space after it is
skipped too.  The result is `some (some n, st)` when `n` is assigned,
`some (none, st)` when it is not (end of input, or no integer at the front), and
`none` when the value does not fit `int` (undefined in C) or the input is
unspecified. -/
def fscanf (st : Stdin) : Option (Option ℤ × Stdin) :=
  match (skipSpace st.buf).buf with
  | [] => some (none, ⟨[], true⟩)
  | c :: cs =>
    match scanInt (c :: cs) with
    | Scan.value v rest =>
      if -2147483648 ≤ v ∧ v ≤ 2147483647 then some (some v, skipSpace rest) else none
    | Scan.noMatch rest => some (none, ⟨rest, rest.isEmpty⟩)
    | Scan.unspecified => none

/-! ## `main` -/

/-- How a run of the loop of `main` stands: the loop has been left, a step had
no defined result (a failed call, an access outside a buffer, undefined
behaviour), or the loop is still running when the fuel is spent. -/
inductive Status where
  | exited
  | failed
  | running
deriving DecidableEq, Repr

/-- What a run has done: the sizes printed by `printf("n = %i\n", n)`, the files
written, both in order, and how the run stands. -/
structure Run where
  log : List ℤ
  files : List File
  status : Status
deriving DecidableEq, Repr

/-- The loop of `main`.  `iters` is the fuel, `c` counts the iterations, `junk c`
is the indeterminate value that `n` holds in iteration `c` when `fscanf` does
not assign it, `mem k` is what the `k`-th allocation held before. -/
def mainLoop (F : Format) (RAND_MAX fuel : Nat) (fftw : Fftw) (mem : Nat → Nat → Sample)
    (junk : Nat → ℤ) : Nat → Nat → Stdin → RandState → Run
  | 0, _, _, _ => ⟨[], [], Status.running⟩
  | iters + 1, c, st, s =>
    if st.eof then ⟨[], [], Status.exited⟩
    else
      match fscanf st with
      | none => ⟨[], [], Status.failed⟩
      | some (r, st1) =>
        match testCase F RAND_MAX fuel fftw (mem (2 * c)) (mem (2 * c + 1)) (r.getD (junk c)) s with
        | none => ⟨[r.getD (junk c)], [], Status.failed⟩
        | some (fi, fo, s1) =>
          ⟨r.getD (junk c) :: (mainLoop F RAND_MAX fuel fftw mem junk iters (c + 1) st1 s1).log,
            fi :: fo :: (mainLoop F RAND_MAX fuel fftw mem junk iters (c + 1) st1 s1).files,
            (mainLoop F RAND_MAX fuel fftw mem junk iters (c + 1) st1 s1).status⟩

/-- The function `main` on the input `input`: `srand(1415926535)`, then the
loop.  `srand` is the seeding function of the C library. -/
def main (F : Format) (RAND_MAX fuel : Nat) (fftw : Fftw) (srand : Nat → RandState)
    (mem : Nat → Nat → Sample) (junk : Nat → ℤ) (iters : Nat) (input : List Char) : Run :=
  mainLoop F RAND_MAX fuel fftw mem junk iters 0 ⟨input, false⟩ (srand 1415926535)

/-! ## Definitions that follow the wording of the claims -/

/-- Test cases of the given sizes processed one after the other, the `c`-th
iteration first: what the claims call processing the cases in input order. -/
def processCases (F : Format) (RAND_MAX fuel : Nat) (fftw : Fftw) (mem : Nat → Nat → Sample) :
    Nat → List ℤ → RandState → Run
  | _, [], _ => ⟨[], [], Status.exited⟩
  | c, n :: ns, s =>
    match testCase F RAND_MAX fuel fftw (mem (2 * c)) (mem (2 * c + 1)) n s with
    | none => ⟨[n], [], Status.failed⟩
    | some (fi, fo, s1) =>
      ⟨n :: (processCases F RAND_MAX fuel fftw mem (c + 1) ns s1).log,
        fi :: fo :: (processCases F RAND_MAX fuel fftw mem (c + 1) ns s1).files,
        (processCases F RAND_MAX fuel fftw mem (c + 1) ns s1).status⟩

/-- An input stream of integers in decimal, each followed by the white space
`w` that separates it from the next. -/
def inputText : List (Nat × List Char) → List Char
  | [] => []
  | (n, w) :: rest => Nat.toDigits 10 n ++ w ++ inputText rest

/-- The white space of `inputText` is white space, and there is some between two
integers. -/
def Separated : List (Nat × List Char) → Prop
  | [] => True
  | [(_, w)] => ∀ c ∈ w, isspace c = true
  | (_, w) :: p :: rest => (∀ c ∈ w, isspace c = true) ∧ w ≠ [] ∧ Separated (p :: rest)

/-- The scale `d` of `randld` after `k` multiplications by `RAND_MAX`, from the
initial value `d`. -/
def scaleFrom (F : Format) (RAND_MAX : Nat) (d : FP) : Nat → FP
  | 0 => d
  | k + 1 => FP.mul F (scaleFrom F RAND_MAX d k) (FP.ofInt F (RAND_MAX : ℤ))

/-- The accumulator of `randld` after `k` terms, from the initial values `r` and
`d`: the `j`-th term is the `j`-th draw over the `j`-th scale. -/
def accFrom (F : Format) (RAND_MAX : Nat) (s : RandState) (r d : FP) : Nat → FP
  | 0 => r
  | k + 1 =>
    FP.add F (accFrom F RAND_MAX s r d k)
      (FP.div F (FP.ofInt F (s k : ℤ)) (scaleFrom F RAND_MAX d k))

/-- The power `RAND_MAX ^ m` computed in the accumulating type (`m ≥ 1`). -/
def randldScale (F : Format) (RAND_MAX : Nat) (m : Nat) : FP :=
  scaleFrom F RAND_MAX (FP.ofInt F (RAND_MAX : ℤ)) (m - 1)

/-- The sum `a_1 / RAND_MAX + ... + a_m / RAND_MAX ^ m` of the first `m` draws of
`s`, every operation performed in the accumulating type. -/
def randldSum (F : Format) (RAND_MAX : Nat) (s : RandState) (m : Nat) : FP :=
  accFrom F RAND_MAX s (FP.ofInt F 0) (FP.ofInt F (RAND_MAX : ℤ)) m

/-- The test of the loop of `randld` in iteration `m`: adding `1 / d` to `r`
leaves `r` unchanged. -/
def randldDone (F : Format) (RAND_MAX : Nat) (s : RandState) (m : Nat) : Bool :=
  FP.eq (FP.add F (randldSum F RAND_MAX s m) (FP.div F (FP.ofInt F 1) (randldScale F RAND_MAX m)))
    (randldSum F RAND_MAX s m)

/-- The samples that `k` iterations of the first loop of `generate` produce
from state `s`, as a list, and the state after them. -/
def generated (F : Format) (RAND_MAX fuel : Nat) : Nat → RandState → Option (List Sample × RandState)
  | 0, s => some ([], s)
  | k + 1, s =>
    match randld F RAND_MAX fuel s with
    | none => none
    | some (x, s1) =>
      match randld F RAND_MAX fuel s1 with
      | none => none
      | some (y, s2) =>
        match generated F RAND_MAX fuel k s2 with
        | none => none
        | some (ys, s3) => some ((FP.add F (minusHalf F) x, FP.add F (minusHalf F) y) :: ys, s3)

/-- The input does not go on with a decimal digit. -/
def NoDigitAhead (rest : List Char) : Prop :=
  ∀ c t, rest = c :: t → ∀ v, digitVal c = some v → ¬ v < 10

/-- The calls of the library succeed on every input and leave the two buffers
with the sizes they had. -/
def Fftw.Succeeds (fftw : Fftw) : Prop :=
  ∀ (n : ℤ) (inp out : List Stored), ∃ inp' out' : List Stored,
    fftw n inp out = some (inp', out') ∧ inp'.length = inp.length ∧ out'.length = out.length

/-- The number that bytes, least significant first, write in base 256. -/
def leValue : List Nat → Nat
  | [] => 0
  | b :: bs => b + 256 * leValue bs

/-- The `n` low bits of `w`, most significant first. -/
def natBits : Nat → Nat → List Bool
  | 0, _ => []
  | n + 1, w => decide (w / 2 ^ n % 2 = 1) :: natBits n w

/-- The datum that IEEE 754 gives to a 64-bit word in the binary64 interchange
format.  Bit 63 is the sign `s`, bits 62 to 52 are the biased exponent `e`, bits
51 to 0 are the fraction `f`.  With `e = 2047` the word is an infinity when
`f = 0` and a NaN otherwise, quiet when bit 51 is set; with `e = 0` it is
`(-1) ^ s * f * 2 ^ (-1074)` (a zero or a subnormal number); otherwise it is
`(-1) ^ s * (2 ^ 52 + f) * 2 ^ (e - 1075)`. -/
def ieeeDouble (w : Nat) : Cell :=
  if w / 2 ^ 52 % 2048 = 2047 then
    if w % 2 ^ 52 = 0 then (if w / 2 ^ 63 % 2 = 1 then Cell.ninf else Cell.pinf)
    else Cell.nan (decide (w / 2 ^ 63 % 2 = 1)) (decide (w / 2 ^ 51 % 2 = 1)) (natBits 51 w)
  else if w / 2 ^ 52 % 2048 = 0 then
    if w % 2 ^ 52 = 0 then (if w / 2 ^ 63 % 2 = 1 then Cell.nzero else Cell.fin 0)
    else Cell.fin ((if w / 2 ^ 63 % 2 = 1 then -1 else 1) * ((w % 2 ^ 52 : ℕ) : ℚ) * pow2 (-1074))
  else
    Cell.fin ((if w / 2 ^ 63 % 2 = 1 then -1 else 1) * ((2 ^ 52 + w % 2 ^ 52 : ℕ) : ℚ)
      * pow2 (((w / 2 ^ 52 % 2048 : ℕ) : ℤ) - 1075))

/-- The bytes `bs` are the 8-byte double encoding of the object `x`: eight
bytes that, least significant first, make the 64-bit word to which IEEE 754
gives the datum that `x` converts to. -/
def IsDoubleEncoding (bs : List Nat) (x : Cell) : Prop :=
  bs.length = 8 ∧ (∀ b ∈ bs, b < 256) ∧ ieeeDouble (leValue bs) = x.toDouble

/-! ## Powers of two and binary exponents -/

theorem pow2_eq (e : ℤ) : pow2 e = (2 : ℚ) ^ e := by
  unfold pow2
  split
  · rename_i h
    have h1 : ((e.toNat : ℕ) : ℤ) = e := Int.toNat_of_nonneg h
    rw [Nat.cast_pow, Nat.cast_ofNat]
    nth_rewrite 2 [← h1]
    rw [zpow_natCast]
  · rename_i h
    have h0 : 0 ≤ -e := by omega
    have h1 : (((-e).toNat : ℕ) : ℤ) = -e := Int.toNat_of_nonneg h0
    have h2 : e = -(((-e).toNat : ℕ) : ℤ) := by omega
    rw [Nat.cast_pow, Nat.cast_ofNat]
    nth_rewrite 2 [h2]
    rw [zpow_neg, zpow_natCast]

theorem two_zpow_pos (e : ℤ) : (0 : ℚ) < 2 ^ e := zpow_pos (by norm_num) e

theorem two_zpow_le {a b : ℤ} (h : a ≤ b) : (2 : ℚ) ^ a ≤ 2 ^ b :=
  zpow_le_zpow_right₀ (by norm_num) h

theorem two_zpow_lt {a b : ℤ} (h : a < b) : (2 : ℚ) ^ a < 2 ^ b :=
  zpow_lt_zpow_right₀ (by norm_num) h

theorem lt_of_two_zpow_lt {a b : ℤ} (h : (2 : ℚ) ^ a < 2 ^ b) : a < b :=
  (zpow_lt_zpow_iff_right₀ (by norm_num : (1 : ℚ) < 2)).1 h

theorem le_of_two_zpow_le {a b : ℤ} (h : (2 : ℚ) ^ a ≤ 2 ^ b) : a ≤ b :=
  (zpow_le_zpow_iff_right₀ (by norm_num : (1 : ℚ) < 2)).1 h

/-- A power of two with a non-negative exponent is an integer. -/
theorem two_zpow_eq_intCast {e : ℤ} (h : 0 ≤ e) : (2 : ℚ) ^ e = (((2 : ℤ) ^ e.toNat : ℤ) : ℚ) := by
  have h1 : ((e.toNat : ℕ) : ℤ) = e := Int.toNat_of_nonneg h
  nth_rewrite 1 [← h1]
  rw [zpow_natCast]
  push_cast
  rfl

theorem abs_eq_natAbs_div_den (q : ℚ) : |q| = (q.num.natAbs : ℚ) / (q.den : ℚ) := by
  have h := Rat.num_div_den q
  have hd : (0 : ℚ) < q.den := by exact_mod_cast q.den_pos
  conv_lhs => rw [← h]
  rw [abs_div, abs_of_pos hd]
  rw [Nat.cast_natAbs, Int.cast_abs]

theorem ilog2_spec {q : ℚ} (hq : q ≠ 0) :
    (2 : ℚ) ^ ilog2 q ≤ |q| ∧ |q| < 2 ^ (ilog2 q + 1) := by
  have ha0 : q.num.natAbs ≠ 0 := by
    simpa using (Rat.num_ne_zero.2 hq)
  have hb0 : q.den ≠ 0 := q.den_nz
  have ha1 : ((2 : ℚ) ^ (q.num.natAbs.log2 : ℤ)) ≤ (q.num.natAbs : ℚ) := by
    rw [zpow_natCast]; exact_mod_cast Nat.log2_self_le ha0
  have ha2 : (q.num.natAbs : ℚ) < (2 : ℚ) ^ ((q.num.natAbs.log2 : ℤ) + 1) := by
    have : (q.num.natAbs : ℚ) < (2 : ℚ) ^ (q.num.natAbs.log2 + 1) := by
      exact_mod_cast (Nat.lt_log2_self (n := q.num.natAbs))
    rw [show ((q.num.natAbs.log2 : ℤ) + 1) = ((q.num.natAbs.log2 + 1 : ℕ) : ℤ) by push_cast; rfl,
      zpow_natCast]
    exact this
  have hb1 : ((2 : ℚ) ^ (q.den.log2 : ℤ)) ≤ (q.den : ℚ) := by
    rw [zpow_natCast]; exact_mod_cast Nat.log2_self_le hb0
  have hb2 : (q.den : ℚ) < (2 : ℚ) ^ ((q.den.log2 : ℤ) + 1) := by
    have : (q.den : ℚ) < (2 : ℚ) ^ (q.den.log2 + 1) := by
      exact_mod_cast (Nat.lt_log2_self (n := q.den))
    rw [show ((q.den.log2 : ℤ) + 1) = ((q.den.log2 + 1 : ℕ) : ℤ) by push_cast; rfl,
      zpow_natCast]
    exact this
  have hd : (0 : ℚ) < q.den := by exact_mod_cast q.den_pos
  have habs := abs_eq_natAbs_div_den q
  have h2 : (2 : ℚ) ≠ 0 := by norm_num
  unfold ilog2
  rw [pow2_eq]
  split
  · rename_i h
    refine ⟨h, ?_⟩
    rw [habs, div_lt_iff₀ hd]
    calc (q.num.natAbs : ℚ) < (2 : ℚ) ^ ((q.num.natAbs.log2 : ℤ) + 1) := ha2
      _ = 2 ^ ((q.num.natAbs.log2 : ℤ) - (q.den.log2 : ℤ) + 1) * 2 ^ (q.den.log2 : ℤ) := by
          rw [← zpow_add₀ h2]; congr 1; ring
      _ ≤ 2 ^ ((q.num.natAbs.log2 : ℤ) - (q.den.log2 : ℤ) + 1) * q.den :=
          mul_le_mul_of_nonneg_left hb1 (two_zpow_pos _).le
  · rename_i h
    push_neg at h
    refine ⟨?_, by simpa using h⟩
    rw [habs, le_div_iff₀ hd]
    calc (2 : ℚ) ^ ((q.num.natAbs.log2 : ℤ) - (q.den.log2 : ℤ) - 1) * q.den
        ≤ 2 ^ ((q.num.natAbs.log2 : ℤ) - (q.den.log2 : ℤ) - 1) * 2 ^ ((q.den.log2 : ℤ) + 1) :=
          mul_le_mul_of_nonneg_left hb2.le (two_zpow_pos _).le
      _ = 2 ^ (q.num.natAbs.log2 : ℤ) := by
          rw [← zpow_add₀ h2]; congr 1; ring
      _ ≤ q.num.natAbs := ha1

theorem le_ilog2 {q : ℚ} {k : ℤ} (hq : q ≠ 0) (h : (2 : ℚ) ^ k ≤ |q|) : k ≤ ilog2 q := by
  have h1 := (ilog2_spec hq).2
  have := lt_of_two_zpow_lt (lt_of_le_of_lt h h1)
  omega

theorem ilog2_lt {q : ℚ} {k : ℤ} (hq : q ≠ 0) (h : |q| < (2 : ℚ) ^ k) : ilog2 q < k := by
  have h1 := (ilog2_spec hq).1
  exact lt_of_two_zpow_lt (lt_of_le_of_lt h1 h)

theorem ilog2_mono {x y : ℚ} (hx : x ≠ 0) (h : |x| ≤ |y|) : ilog2 x ≤ ilog2 y := by
  have hy : y ≠ 0 := by
    intro h0
    rw [h0, abs_zero] at h
    exact hx (abs_eq_zero.1 (le_antisymm h (abs_nonneg x)))
  exact le_ilog2 hy (le_trans (ilog2_spec hx).1 h)

/-! ## Rounding to an integer -/

theorem floor_le_roundHalfEven (x : ℚ) : ⌊x⌋ ≤ roundHalfEven x := by
  unfold roundHalfEven
  split_ifs <;> omega

theorem roundHalfEven_le_floor_add_one (x : ℚ) : roundHalfEven x ≤ ⌊x⌋ + 1 := by
  unfold roundHalfEven
  split_ifs <;> omega

theorem le_roundHalfEven {x : ℚ} {k : ℤ} (h : (k : ℚ) ≤ x) : k ≤ roundHalfEven x :=
  le_trans (Int.le_floor.2 h) (floor_le_roundHalfEven x)

theorem roundHalfEven_le {x : ℚ} {k : ℤ} (h : x ≤ (k : ℚ)) : roundHalfEven x ≤ k := by
  by_cases hx : x = (k : ℚ)
  · subst hx
    unfold roundHalfEven
    simp
  · have h1 : ⌊x⌋ < k := Int.floor_lt.2 (lt_of_le_of_ne h hx)
    have h2 := roundHalfEven_le_floor_add_one x
    omega

theorem roundHalfEven_intCast (k : ℤ) : roundHalfEven (k : ℚ) = k :=
  le_antisymm (roundHalfEven_le le_rfl) (le_roundHalfEven le_rfl)

theorem roundHalfEven_of_lt_half {x : ℚ} {k : ℤ} (h1 : (k : ℚ) ≤ x) (h2 : x < k + 1 / 2) :
    roundHalfEven x = k := by
  have hf : ⌊x⌋ = k := by
    rw [Int.floor_eq_iff]
    exact ⟨h1, by linarith⟩
  unfold roundHalfEven
  rw [hf]
  have h3 : x - (k : ℚ) < 1 / 2 := by linarith
  rw [if_pos h3]

/-! ## Rounding to the grid of a binade -/

theorem Format.rval_eq (F : Format) (x : ℚ) :
    F.rval x = roundHalfEven (x / 2 ^ F.qexp x) * 2 ^ F.qexp x := by
  unfold Format.rval
  rw [pow2_eq]

theorem Format.rval_le {F : Format} {x : ℚ} {k : ℤ} (h : x ≤ k * 2 ^ F.qexp x) :
    F.rval x ≤ k * 2 ^ F.qexp x := by
  rw [F.rval_eq]
  have hp := two_zpow_pos (F.qexp x)
  have h1 : x / 2 ^ F.qexp x ≤ (k : ℚ) := by rw [div_le_iff₀ hp]; exact h
  have h2 : ((roundHalfEven (x / 2 ^ F.qexp x) : ℤ) : ℚ) ≤ (k : ℚ) := by
    exact_mod_cast roundHalfEven_le h1
  exact mul_le_mul_of_nonneg_right h2 hp.le

theorem Format.le_rval {F : Format} {x : ℚ} {k : ℤ} (h : k * 2 ^ F.qexp x ≤ x) :
    k * 2 ^ F.qexp x ≤ F.rval x := by
  rw [F.rval_eq]
  have hp := two_zpow_pos (F.qexp x)
  have h1 : (k : ℚ) ≤ x / 2 ^ F.qexp x := by rw [le_div_iff₀ hp]; exact h
  have h2 : (k : ℚ) ≤ ((roundHalfEven (x / 2 ^ F.qexp x) : ℤ) : ℚ) := by
    exact_mod_cast le_roundHalfEven h1
  exact mul_le_mul_of_nonneg_right h2 hp.le

theorem Format.rval_zero (F : Format) : F.rval 0 = 0 := by
  rw [F.rval_eq]
  simp [roundHalfEven]

theorem Format.rval_nonneg {F : Format} {x : ℚ} (h : 0 ≤ x) : 0 ≤ F.rval x := by
  have := F.le_rval (x := x) (k := 0) (by simpa using h)
  simpa using this

theorem Format.rval_nonpos {F : Format} {x : ℚ} (h : x ≤ 0) : F.rval x ≤ 0 := by
  have := F.rval_le (x := x) (k := 0) (by simpa using h)
  simpa using this

/-- A multiple of the unit of its own binade is representable. -/
theorem Format.rep_of_mul {F : Format} {y : ℚ} {k : ℤ} (h : y = k * 2 ^ F.qexp y) : F.Rep y := by
  unfold Format.Rep
  rw [F.rval_eq]
  have hp := two_zpow_pos (F.qexp y)
  have h1 : y / 2 ^ F.qexp y = (k : ℚ) := by
    rw [div_eq_iff hp.ne']; exact h
  rw [h1, roundHalfEven_intCast]
  exact h.symm

theorem Format.Rep.exists_mul {F : Format} {y : ℚ} (h : F.Rep y) :
    ∃ k : ℤ, y = k * 2 ^ F.qexp y := by
  unfold Format.Rep at h
  rw [F.rval_eq] at h
  exact ⟨_, h.symm⟩

/-- A multiple of `2 ^ e` is a multiple of `2 ^ e'` for every `e' ≤ e`. -/
theorem mul_zpow_of_le {y : ℚ} {k : ℤ} {e e' : ℤ} (h : y = k * 2 ^ e) (he : e' ≤ e) :
    ∃ k' : ℤ, y = k' * 2 ^ e' := by
  refine ⟨k * 2 ^ (e - e').toNat, ?_⟩
  have h0 : 0 ≤ e - e' := by omega
  have h1 : (((2 : ℤ) ^ (e - e').toNat : ℤ) : ℚ) = (2 : ℚ) ^ (e - e') :=
    (two_zpow_eq_intCast h0).symm
  rw [Int.cast_mul, h1, mul_assoc, ← zpow_add₀ (by norm_num : (2 : ℚ) ≠ 0), h]
  congr 2
  ring

theorem Format.qexp_mono {F : Format} {x y : ℚ} (hx : x ≠ 0) (h : |x| ≤ |y|) :
    F.qexp x ≤ F.qexp y := by
  unfold Format.qexp
  have := ilog2_mono hx h
  have : max (ilog2 x) F.emin ≤ max (ilog2 y) F.emin := max_le_max this le_rfl
  omega

/-- An integer below `2 ^ prec` in absolute value, scaled by a power of two not
below the smallest unit, is representable. -/
theorem Format.rep_int_mul {F : Format} {M : ℤ} {e : ℤ} (hM : |(M : ℚ)| < 2 ^ (F.prec : ℤ))
    (he : F.emin - (F.prec - 1) ≤ e) : F.Rep (M * 2 ^ e) := by
  by_cases h0 : (M : ℚ) * 2 ^ e = 0
  · rw [h0]; exact F.rval_zero
  · have hlt : |(M : ℚ) * 2 ^ e| < 2 ^ ((F.prec : ℤ) + e) := by
      rw [abs_mul, abs_of_pos (two_zpow_pos e), zpow_add₀ (by norm_num : (2 : ℚ) ≠ 0)]
      exact mul_lt_mul_of_pos_right hM (two_zpow_pos e)
    have hl := ilog2_lt h0 hlt
    have hq : F.qexp (M * 2 ^ e) ≤ e := by
      unfold Format.qexp
      have : max (ilog2 ((M : ℚ) * 2 ^ e)) F.emin ≤ e + (F.prec - 1) := max_le (by omega) (by omega)
      omega
    obtain ⟨k', hk'⟩ := mul_zpow_of_le (y := (M : ℚ) * 2 ^ e) rfl hq
    exact F.rep_of_mul hk'

theorem Format.round_of_rep {F : Format} {y : ℚ} (h : F.Rep y) (hy : |y| < 2 ^ ((F.emax : ℤ) + 1)) :
    F.round y = FP.fin y := by
  unfold Format.round
  rw [pow2_eq, h, if_neg (not_le.2 hy)]

/-- Rounding does not cross a representable number from below. -/
theorem Format.rval_le_of_le_rep {F : Format} {x y : ℚ} (hxy : x ≤ y) (ha : |x| ≤ |y|)
    (hy : F.Rep y) : F.rval x ≤ y := by
  by_cases hx : x = 0
  · subst hx
    rw [F.rval_zero]; exact hxy
  · obtain ⟨k, hk⟩ := hy.exists_mul
    obtain ⟨k', hk'⟩ := mul_zpow_of_le hk (F.qexp_mono hx ha)
    rw [hk'] at hxy ⊢
    exact F.rval_le hxy

/-- Rounding does not cross a representable number from above. -/
theorem Format.le_rval_of_rep_le {F : Format} {x y : ℚ} (hxy : y ≤ x) (ha : |x| ≤ |y|)
    (hy : F.Rep y) : y ≤ F.rval x := by
  by_cases hx : x = 0
  · subst hx
    rw [F.rval_zero]; exact hxy
  · obtain ⟨k, hk⟩ := hy.exists_mul
    obtain ⟨k', hk'⟩ := mul_zpow_of_le hk (F.qexp_mono hx ha)
    rw [hk'] at hxy ⊢
    exact F.le_rval hxy

theorem Format.qexp_ge (F : Format) (x : ℚ) : F.emin - (F.prec - 1) ≤ F.qexp x := by
  unfold Format.qexp
  have := le_max_right (ilog2 x) F.emin
  omega

theorem Format.qexp_of_le_ilog2 {F : Format} {x : ℚ} (h : F.emin ≤ ilog2 x) :
    F.qexp x = ilog2 x - (F.prec - 1) := by
  unfold Format.qexp
  rw [max_eq_left h]

theorem Format.ilog2_le_qexp (F : Format) (x : ℚ) : ilog2 x ≤ F.qexp x + (F.prec - 1) := by
  unfold Format.qexp
  have := le_max_left (ilog2 x) F.emin
  omega

theorem intCast_two_pow (n : ℕ) : (((2 : ℤ) ^ n : ℤ) : ℚ) = (2 : ℚ) ^ (n : ℤ) := by
  rw [zpow_natCast]; push_cast; rfl

/-- A power of two is representable when its exponent is not below the smallest unit. -/
theorem Format.rep_two_zpow {F : Format} (hF : 1 ≤ F.prec) {j : ℤ}
    (hj : F.emin - (F.prec - 1) ≤ j) : F.Rep ((2 : ℚ) ^ j) := by
  have h := F.rep_int_mul (M := 1) (e := j) (by
    rw [Int.cast_one, abs_one]
    have : (2 : ℚ) ^ (0 : ℤ) < 2 ^ (F.prec : ℤ) := two_zpow_lt (by omega)
    simpa using this) hj
  simpa using h

/-- The result of rounding is representable. -/
theorem Format.rep_rval {F : Format} (hF : 1 ≤ F.prec) (x : ℚ) : F.Rep (F.rval x) := by
  by_cases hx : x = 0
  · subst hx
    rw [F.rval_zero]; exact F.rval_zero
  have hp := two_zpow_pos (F.qexp x)
  have h2 : (2 : ℚ) ≠ 0 := by norm_num
  have hlt : |x| < 2 ^ (F.prec : ℤ) * 2 ^ F.qexp x := by
    rw [← zpow_add₀ h2]
    refine lt_of_lt_of_le (ilog2_spec hx).2 (two_zpow_le ?_)
    have := F.ilog2_le_qexp x
    omega
  have hab := abs_lt.1 hlt
  have hup : x / 2 ^ F.qexp x ≤ (((2 : ℤ) ^ F.prec : ℤ) : ℚ) := by
    rw [intCast_two_pow, div_le_iff₀ hp]; exact hab.2.le
  have hlo : ((-(2 : ℤ) ^ F.prec : ℤ) : ℚ) ≤ x / 2 ^ F.qexp x := by
    rw [Int.cast_neg, intCast_two_pow, le_div_iff₀ hp]; linarith [hab.1]
  have h1 := roundHalfEven_le hup
  have h3 := le_roundHalfEven hlo
  rw [F.rval_eq]
  rcases lt_or_eq_of_le h1 with h1 | h1
  · rcases lt_or_eq_of_le h3 with h3 | h3
    · apply F.rep_int_mul _ (F.qexp_ge x)
      rw [← intCast_two_pow, ← Int.cast_abs]
      exact_mod_cast abs_lt.2 ⟨h3, h1⟩
    · rw [← h3]
      have he : ((-(2 : ℤ) ^ F.prec : ℤ) : ℚ) * 2 ^ F.qexp x
          = ((-(2 : ℤ) ^ (F.prec - 1) : ℤ) : ℚ) * 2 ^ (F.qexp x + 1) := by
        rw [Int.cast_neg, Int.cast_neg, intCast_two_pow, intCast_two_pow, neg_mul, neg_mul,
          ← zpow_add₀ h2, ← zpow_add₀ h2]
        congr 2
        have : ((F.prec - 1 : ℕ) : ℤ) = (F.prec : ℤ) - 1 := by omega
        rw [this]; ring
      rw [he]
      apply F.rep_int_mul _ (by have := F.qexp_ge x; omega)
      rw [Int.cast_neg, abs_neg, intCast_two_pow, abs_of_pos (two_zpow_pos _)]
      exact two_zpow_lt (by omega)
  · rw [h1]
    have he : (((2 : ℤ) ^ F.prec : ℤ) : ℚ) * 2 ^ F.qexp x
        = (((2 : ℤ) ^ (F.prec - 1) : ℤ) : ℚ) * 2 ^ (F.qexp x + 1) := by
      rw [intCast_two_pow, intCast_two_pow, ← zpow_add₀ h2, ← zpow_add₀ h2]
      congr 1
      have : ((F.prec - 1 : ℕ) : ℤ) = (F.prec : ℤ) - 1 := by omega
      rw [this]; ring
    rw [he]
    apply F.rep_int_mul _ (by have := F.qexp_ge x; omega)
    rw [intCast_two_pow, abs_of_pos (two_zpow_pos _)]
    exact two_zpow_lt (by omega)

/-- Rounding does not go below a positive representable number that the exact
value reaches. -/
theorem Format.rep_le_rval {F : Format} (hF : 1 ≤ F.prec) {x y : ℚ} (hy : 0 < y) (hxy : y ≤ x)
    (hr : F.Rep y) : y ≤ F.rval x := by
  have hx : 0 < x := lt_of_lt_of_le hy hxy
  by_cases he : F.qexp x ≤ F.qexp y
  · obtain ⟨k, hk⟩ := hr.exists_mul
    obtain ⟨k', hk'⟩ := mul_zpow_of_le hk he
    rw [hk'] at hxy ⊢
    exact F.le_rval hxy
  · push_neg at he
    have hlx : max (ilog2 y) F.emin < max (ilog2 x) F.emin := by
      unfold Format.qexp at he; omega
    have hm : max (ilog2 x) F.emin = ilog2 x := by
      rcases le_total (ilog2 x) F.emin with h | h
      · rw [max_eq_right h] at hlx
        have := le_max_right (ilog2 y) F.emin
        omega
      · exact max_eq_left h
    have hly : ilog2 y < ilog2 x := by
      have := le_max_left (ilog2 y) F.emin
      omega
    have hqx : F.qexp x = ilog2 x - (F.prec - 1) := by
      unfold Format.qexp; rw [hm]
    have h2 : (2 : ℚ) ≠ 0 := by norm_num
    have hpow : (2 : ℚ) ^ ilog2 x = (((2 : ℤ) ^ (F.prec - 1) : ℤ) : ℚ) * 2 ^ F.qexp x := by
      rw [intCast_two_pow, ← zpow_add₀ h2]
      congr 1
      have : ((F.prec - 1 : ℕ) : ℤ) = (F.prec : ℤ) - 1 := by omega
      rw [this, hqx]; ring
    have h1 : (2 : ℚ) ^ ilog2 x ≤ x := by
      have := (ilog2_spec hx.ne').1
      rwa [abs_of_pos hx] at this
    have h3 : (2 : ℚ) ^ ilog2 x ≤ F.rval x := by
      rw [hpow] at h1 ⊢
      exact F.le_rval h1
    have h4 : y < 2 ^ (ilog2 y + 1) := by
      have := (ilog2_spec hy.ne').2
      rwa [abs_of_pos hy] at this
    have h5 : (2 : ℚ) ^ (ilog2 y + 1) ≤ 2 ^ ilog2 x := two_zpow_le (by omega)
    linarith

/-- Round to nearest: an exact value less than half a unit above a normal
representable number rounds to it. -/
theorem Format.rval_eq_of_lt_half {F : Format} {x B : ℚ} (hB : 0 < B)
    (hn : F.emin ≤ ilog2 B) (hr : F.Rep B) (h1 : B ≤ x) (h2 : x < B + 2 ^ F.qexp B / 2) :
    F.rval x = B := by
  have hx : 0 < x := lt_of_lt_of_le hB h1
  have h20 : (2 : ℚ) ≠ 0 := by norm_num
  have hqB := F.qexp_of_le_ilog2 hn
  have hle : F.qexp B ≤ F.qexp x :=
    F.qexp_mono hB.ne' (by rw [abs_of_pos hB, abs_of_pos hx]; exact h1)
  obtain ⟨k, hk⟩ := hr.exists_mul
  have hp := two_zpow_pos (F.qexp B)
  rcases eq_or_lt_of_le hle with he | he
  · rw [F.rval_eq, ← he]
    have h3 : (k : ℚ) ≤ x / 2 ^ F.qexp B := by
      rw [le_div_iff₀ hp, ← hk]; exact h1
    have h4 : x / 2 ^ F.qexp B < k + 1 / 2 := by
      rw [div_lt_iff₀ hp, add_mul, ← hk]; linarith
    rw [roundHalfEven_of_lt_half h3 h4]
    exact hk.symm
  · exfalso
    have hlx : ilog2 B < ilog2 x := by
      have := F.ilog2_le_qexp x
      have hq : F.qexp x = max (ilog2 x) F.emin - (F.prec - 1) := rfl
      rcases le_total (ilog2 x) F.emin with h | h
      · rw [max_eq_right h] at hq; omega
      · rw [max_eq_left h] at hq; omega
    have h5 : (2 : ℚ) ^ (ilog2 B + 1) ≤ x := by
      have := (ilog2_spec hx.ne').1
      rw [abs_of_pos hx] at this
      exact le_trans (two_zpow_le (by omega)) this
    have h6 : B < 2 ^ (ilog2 B + 1) := by
      have := (ilog2_spec hB.ne').2
      rwa [abs_of_pos hB] at this
    have h7 : (2 : ℚ) ^ (ilog2 B + 1) = (((2 : ℤ) ^ F.prec : ℤ) : ℚ) * 2 ^ F.qexp B := by
      rw [intCast_two_pow, ← zpow_add₀ h20]
      congr 1
      rw [hqB]; ring
    rw [h7] at h5 h6
    have h8 : (k : ℚ) < (((2 : ℤ) ^ F.prec : ℤ) : ℚ) := by
      have h6' : (k : ℚ) * 2 ^ F.qexp B < (((2 : ℤ) ^ F.prec : ℤ) : ℚ) * 2 ^ F.qexp B := by
        rw [← hk]; exact h6
      exact lt_of_mul_lt_mul_right h6' hp.le
    have h9 : k + 1 ≤ (2 : ℤ) ^ F.prec := by
      have : k < (2 : ℤ) ^ F.prec := by exact_mod_cast h8
      omega
    have h10 : ((k : ℚ) + 1) * 2 ^ F.qexp B ≤ (((2 : ℤ) ^ F.prec : ℤ) : ℚ) * 2 ^ F.qexp B := by
      apply mul_le_mul_of_nonneg_right _ hp.le
      exact_mod_cast h9
    rw [add_mul, ← hk] at h10
    linarith

/-! ## Rounding into the format -/

theorem pow2_emax (F : Format) : pow2 ((F.emax : ℤ) + 1) = (2 : ℚ) ^ (F.emax + 1) := by
  rw [pow2_eq, show ((F.emax : ℤ) + 1) = ((F.emax + 1 : ℕ) : ℤ) by push_cast; rfl, zpow_natCast]

theorem Format.round_eq_fin {F : Format} {x : ℚ} (h : |F.rval x| < 2 ^ (F.emax + 1)) :
    F.round x = FP.fin (F.rval x) := by
  unfold Format.round
  rw [pow2_emax, if_neg (not_le.2 h)]

/-- A non-negative exact value below a representable bound rounds to a finite
value between `0` and the bound. -/
theorem Format.round_le_rep {F : Format} {x y : ℚ} (hx : 0 ≤ x) (hxy : x ≤ y) (hy : F.Rep y)
    (hfin : y < 2 ^ (F.emax + 1)) :
    F.round x = FP.fin (F.rval x) ∧ 0 ≤ F.rval x ∧ F.rval x ≤ y := by
  have h0 := F.rval_nonneg hx
  have h1 : F.rval x ≤ y :=
    F.rval_le_of_le_rep hxy (by rw [abs_of_nonneg hx, abs_of_nonneg (le_trans hx hxy)]; exact hxy) hy
  refine ⟨F.round_eq_fin ?_, h0, h1⟩
  rw [abs_of_nonneg h0]
  exact lt_of_le_of_lt h1 hfin

/-- A positive exact value rounds to `+∞` or to a finite value. -/
theorem Format.round_pos_cases {F : Format} {x : ℚ} (hx : 0 < x) :
    F.round x = FP.pinf ∨
      (F.round x = FP.fin (F.rval x) ∧ F.rval x < 2 ^ (F.emax + 1)) := by
  unfold Format.round
  rw [pow2_emax]
  by_cases h : (2 : ℚ) ^ (F.emax + 1) ≤ |F.rval x|
  · left; rw [if_pos h, if_pos hx]
  · right
    rw [if_neg h]
    rw [not_le, abs_of_nonneg (F.rval_nonneg hx.le)] at h
    exact ⟨rfl, h⟩

theorem natCast_lt_two_pow {a n : ℕ} (h : a < 2 ^ n) : ((a : ℤ) : ℚ) < 2 ^ (n : ℤ) := by
  rw [zpow_natCast]
  exact_mod_cast h

/-- A natural number below `2 ^ prec` is representable. -/
theorem Format.rep_natCast {F : Format} (hF : F.Valid) {a : ℕ} (h : a < 2 ^ F.prec) :
    F.Rep (a : ℚ) := by
  have h1 := F.rep_int_mul (M := (a : ℤ)) (e := 0) (by
    rw [abs_of_nonneg (by positivity)]
    exact natCast_lt_two_pow h) (by
    unfold Format.emin
    have := hF.1; have := hF.2
    omega)
  simpa using h1

/-- A natural number below `2 ^ prec`, over a power of two, is representable
as long as the power stays above the smallest unit. -/
theorem Format.rep_nat_div {F : Format} {a n : ℕ} (h : a < 2 ^ F.prec)
    (hn : n + 2 ≤ F.prec + F.emax) : F.Rep ((a : ℚ) / 2 ^ n) := by
  have h1 := F.rep_int_mul (M := (a : ℤ)) (e := -(n : ℤ)) (by
    rw [abs_of_nonneg (by positivity)]
    exact natCast_lt_two_pow h) (by
    unfold Format.emin
    omega)
  rw [zpow_neg, zpow_natCast] at h1
  simpa [div_eq_mul_inv] using h1

/-- The draws are converted exactly. -/
theorem ofInt_draw {F : Format} {RAND_MAX : ℕ} (hS : Supported F RAND_MAX) {a : ℕ}
    (ha : a ≤ RAND_MAX) : FP.ofInt F (a : ℤ) = FP.fin (a : ℚ) := by
  obtain ⟨hF, _, hp, he⟩ := hS
  unfold FP.ofInt
  rw [Int.cast_natCast]
  apply F.round_of_rep (F.rep_natCast hF (lt_of_le_of_lt ha hp))
  rw [abs_of_nonneg (by positivity)]
  have h1 : a < 2 ^ (F.emax + 1) :=
    lt_of_le_of_lt ha (lt_trans he (Nat.pow_lt_pow_right (by norm_num) (by omega)))
  have h2 : (a : ℚ) < (2 : ℚ) ^ (F.emax + 1) := by exact_mod_cast h1
  rw [show ((F.emax : ℤ) + 1) = ((F.emax + 1 : ℕ) : ℤ) by push_cast; rfl, zpow_natCast]
  exact h2

theorem ofInt_one {F : Format} {RAND_MAX : ℕ} (hS : Supported F RAND_MAX) :
    FP.ofInt F 1 = FP.fin 1 := by
  have := ofInt_draw hS (a := 1) (by have := hS.2.1; omega)
  simpa using this

theorem ofInt_zero {F : Format} {RAND_MAX : ℕ} (hS : Supported F RAND_MAX) :
    FP.ofInt F 0 = FP.fin 0 := by
  have := ofInt_draw hS (a := 0) (by omega)
  simpa using this

/-! ## The bound on the accumulator -/

theorem log2_facts {F : Format} {RAND_MAX : ℕ} (hS : Supported F RAND_MAX) :
    1 ≤ RAND_MAX.log2 ∧ 2 ^ RAND_MAX.log2 ≤ RAND_MAX ∧ RAND_MAX.log2 < F.prec ∧
      RAND_MAX.log2 < F.emax := by
  obtain ⟨_, h2, hp, he⟩ := hS
  have h0 : RAND_MAX ≠ 0 := by omega
  refine ⟨(Nat.le_log2 h0).2 (by simpa using h2), Nat.log2_self_le h0,
    (Nat.log2_lt h0).2 hp, (Nat.log2_lt h0).2 he⟩

theorem two_lt_two_pow_emax_succ {F : Format} (hF : F.Valid) : (2 : ℚ) < 2 ^ (F.emax + 1) := by
  have h : (2 : ℚ) ^ 1 < 2 ^ (F.emax + 1) :=
    pow_lt_pow_right₀ (by norm_num) (by have := hF.2; omega)
  simpa using h

/-- The value `1 + 2 / 2 ^ L` is representable when `2 ^ L < 2 ^ prec`. -/
theorem rep_one_add {F : Format} (hF : F.Valid) {L : ℕ} (hL : 1 ≤ L) (hLp : L < F.prec) :
    F.Rep (1 + 2 / 2 ^ L) := by
  obtain ⟨m, rfl⟩ : ∃ m, L = m + 1 := ⟨L - 1, by omega⟩
  have hlt : 2 ^ m + 1 < 2 ^ F.prec := by
    have h1 : 2 ^ (m + 1) ≤ 2 ^ (F.prec - 1) := Nat.pow_le_pow_right (by norm_num) (by omega)
    have h2 : 2 ^ (F.prec - 1) < 2 ^ F.prec := Nat.pow_lt_pow_right (by norm_num) (by omega)
    have h3 : 2 ^ m + 1 ≤ 2 ^ (m + 1) := by
      have : 1 ≤ 2 ^ m := Nat.one_le_two_pow
      rw [pow_succ]; omega
    omega
  have h := F.rep_nat_div (a := 2 ^ m + 1) (n := m) hlt (by have := hF.2; omega)
  have he : (((2 ^ m + 1 : ℕ) : ℚ)) / 2 ^ m = 1 + 2 / 2 ^ (m + 1) := by
    have hp : (0 : ℚ) < 2 ^ m := by positivity
    push_cast
    rw [pow_succ]
    field_simp
    ring
  rwa [he] at h

/-- The value `1 + 2 / 2 ^ L - 2 / 2 ^ (L * j)` is representable while
`L * j ≤ prec`. -/
theorem rep_one_add_sub {F : Format} (hF : F.Valid) {L j : ℕ} (hL : 1 ≤ L) (hj : 1 ≤ j)
    (hLj : L * j ≤ F.prec) : F.Rep (1 + 2 / 2 ^ L - 2 / 2 ^ (L * j)) := by
  obtain ⟨l, rfl⟩ : ∃ l, L = l + 1 := ⟨L - 1, by omega⟩
  obtain ⟨i, rfl⟩ : ∃ i, j = i + 1 := ⟨j - 1, by omega⟩
  -- `t = L * (j - 1)` and `m = L * j - 1 = t + l`
  have hm : (l + 1) * (i + 1) = ((l + 1) * i + l) + 1 := by ring
  have h1 : 1 ≤ 2 ^ ((l + 1) * i) := Nat.one_le_two_pow
  have hLj' : (l + 1) * i + l + 1 ≤ F.prec := by rw [hm] at hLj; exact hLj
  have hlt : 2 ^ ((l + 1) * i + l) + 2 ^ ((l + 1) * i) - 1 < 2 ^ F.prec := by
    have h2 : 2 ^ ((l + 1) * i) ≤ 2 ^ ((l + 1) * i + l) :=
      Nat.pow_le_pow_right (by norm_num) (by omega)
    have h3 : 2 ^ ((l + 1) * i + l + 1) ≤ 2 ^ F.prec :=
      Nat.pow_le_pow_right (by norm_num) hLj'
    calc 2 ^ ((l + 1) * i + l) + 2 ^ ((l + 1) * i) - 1
        < 2 ^ ((l + 1) * i + l) + 2 ^ ((l + 1) * i) :=
          Nat.sub_lt (Nat.add_pos_right _ h1) Nat.one_pos
      _ ≤ 2 ^ ((l + 1) * i + l) + 2 ^ ((l + 1) * i + l) := Nat.add_le_add_left h2 _
      _ = 2 ^ ((l + 1) * i + l + 1) := by rw [pow_succ]; ring
      _ ≤ 2 ^ F.prec := h3
  have h := F.rep_nat_div (a := 2 ^ ((l + 1) * i + l) + 2 ^ ((l + 1) * i) - 1)
    (n := (l + 1) * i + l) hlt (by have := hF.2; omega)
  have he : (((2 ^ ((l + 1) * i + l) + 2 ^ ((l + 1) * i) - 1 : ℕ) : ℚ)) / 2 ^ ((l + 1) * i + l)
      = 1 + 2 / 2 ^ (l + 1) - 2 / 2 ^ ((l + 1) * (i + 1)) := by
    have ha : 1 ≤ 2 ^ ((l + 1) * i + l) + 2 ^ ((l + 1) * i) :=
      le_trans h1 (Nat.le_add_left _ _)
    rw [Nat.cast_sub ha, hm]
    push_cast
    rw [pow_succ, pow_succ, pow_add]
    have hp1 : (0 : ℚ) < 2 ^ ((l + 1) * i) := by positivity
    have hp2 : (0 : ℚ) < 2 ^ l := by positivity
    field_simp
    ring
  rwa [he] at h

theorem samplerMax_rep {F : Format} {RAND_MAX : ℕ} (hS : Supported F RAND_MAX) :
    F.Rep (samplerMax RAND_MAX) := by
  obtain ⟨h1, _, h3, _⟩ := log2_facts hS
  exact rep_one_add hS.1 h1 h3

theorem one_le_samplerMax (RAND_MAX : ℕ) : 1 ≤ samplerMax RAND_MAX := by
  unfold samplerMax
  have : (0 : ℚ) ≤ 2 / 2 ^ RAND_MAX.log2 := by positivity
  linarith

theorem samplerMax_le_two {F : Format} {RAND_MAX : ℕ} (hS : Supported F RAND_MAX) :
    samplerMax RAND_MAX ≤ 2 := by
  obtain ⟨h1, _, _, _⟩ := log2_facts hS
  unfold samplerMax
  have h2 : (2 : ℚ) ^ 1 ≤ 2 ^ RAND_MAX.log2 := pow_le_pow_right₀ (by norm_num) h1
  have h3 : (2 : ℚ) / 2 ^ RAND_MAX.log2 ≤ 1 := by
    rw [div_le_one (by positivity)]
    simpa using h2
  linarith

theorem accBound_le {F : Format} {RAND_MAX : ℕ} (k : ℕ) :
    accBound F RAND_MAX k ≤ samplerMax RAND_MAX := by
  unfold accBound
  split_ifs
  · exact le_trans zero_le_one (one_le_samplerMax _)
  · have : (0 : ℚ) ≤ 2 / 2 ^ (RAND_MAX.log2 * k) := by positivity
    linarith
  · exact le_rfl

theorem accBound_rep {F : Format} {RAND_MAX : ℕ} (hS : Supported F RAND_MAX) (k : ℕ) :
    F.Rep (accBound F RAND_MAX k) := by
  obtain ⟨h1, _, h3, _⟩ := log2_facts hS
  unfold accBound
  split_ifs with hk hLk
  · exact F.rval_zero
  · exact rep_one_add_sub hS.1 h1 (by omega) hLk
  · exact samplerMax_rep hS

/-! ## One iteration of `randld` -/

/-- While the scale is finite, fewer iterations than `emax` have run. -/
theorem ScaleInv.lt_emax {F : Format} {RAND_MAX k : ℕ} (hS : Supported F RAND_MAX) {x : ℚ}
    (h1 : (RAND_MAX : ℚ) * 2 ^ (RAND_MAX.log2 * k) ≤ x) (h2 : x < 2 ^ (F.emax + 1)) :
    RAND_MAX.log2 * k < F.emax ∧ k < F.emax := by
  obtain ⟨hL1, _, _, _⟩ := log2_facts hS
  have hR : (2 : ℚ) ≤ RAND_MAX := by exact_mod_cast hS.2.1
  have hp : (0 : ℚ) < 2 ^ (RAND_MAX.log2 * k) := by positivity
  have h3 : (2 : ℚ) ^ (RAND_MAX.log2 * k + 1) < 2 ^ (F.emax + 1) := by
    calc (2 : ℚ) ^ (RAND_MAX.log2 * k + 1) = 2 * 2 ^ (RAND_MAX.log2 * k) := by rw [pow_succ]; ring
      _ ≤ RAND_MAX * 2 ^ (RAND_MAX.log2 * k) := mul_le_mul_of_nonneg_right hR hp.le
      _ ≤ x := h1
      _ < 2 ^ (F.emax + 1) := h2
  have h4 : RAND_MAX.log2 * k + 1 < F.emax + 1 :=
    (pow_lt_pow_iff_right₀ (by norm_num : (1 : ℚ) < 2)).1 h3
  have h5 : k ≤ RAND_MAX.log2 * k := Nat.le_mul_of_pos_left k (by omega)
  omega

/-- The quotient `a / d` of a draw by the scale. -/
theorem div_draw {F : Format} {RAND_MAX k : ℕ} (hS : Supported F RAND_MAX) {d : FP}
    (hd : ScaleInv F RAND_MAX k d) {a : ℕ} (ha : a ≤ RAND_MAX) :
    ∃ z : ℚ, FP.div F (FP.fin (a : ℚ)) d = FP.fin z ∧ 0 ≤ z ∧
      z ≤ 1 / 2 ^ (RAND_MAX.log2 * k) ∧ (d = FP.pinf → z = 0) := by
  rcases hd with rfl | ⟨x, rfl, hx1, hx2⟩
  · exact ⟨0, rfl, le_rfl, by positivity, fun _ => rfl⟩
  · have hR : (0 : ℚ) < RAND_MAX := by
      have := hS.2.1
      exact_mod_cast (by omega : 0 < RAND_MAX)
    have hp : (0 : ℚ) < 2 ^ (RAND_MAX.log2 * k) := by positivity
    have hx0 : 0 < x := lt_of_lt_of_le (mul_pos hR hp) hx1
    have hk := (ScaleInv.lt_emax hS hx1 hx2).1
    have hq0 : (0 : ℚ) ≤ (a : ℚ) / x := by positivity
    have hq1 : (a : ℚ) / x ≤ 1 / 2 ^ (RAND_MAX.log2 * k) := by
      rw [div_le_div_iff₀ hx0 hp, one_mul]
      calc (a : ℚ) * 2 ^ (RAND_MAX.log2 * k) ≤ RAND_MAX * 2 ^ (RAND_MAX.log2 * k) :=
            mul_le_mul_of_nonneg_right (by exact_mod_cast ha) hp.le
        _ ≤ x := hx1
    have hrep : F.Rep (1 / 2 ^ (RAND_MAX.log2 * k)) := by
      have := F.rep_nat_div (a := 1) (n := RAND_MAX.log2 * k) (Nat.one_lt_two_pow (by
        have := hS.1.1; omega)) (by have := hS.1.1; omega)
      simpa using this
    have hfin : (1 : ℚ) / 2 ^ (RAND_MAX.log2 * k) < 2 ^ (F.emax + 1) := by
      have h1 : (1 : ℚ) / 2 ^ (RAND_MAX.log2 * k) ≤ 1 := by
        rw [div_le_one hp]
        exact one_le_pow₀ (by norm_num)
      have := two_lt_two_pow_emax_succ hS.1
      linarith
    obtain ⟨h1, h2, h3⟩ := F.round_le_rep hq0 hq1 hrep hfin
    refine ⟨F.rval ((a : ℚ) / x), ?_, h2, h3, fun h => by cases h⟩
    simp only [FP.div, if_neg hx0.ne', h1]

/-- The next scale `d * RAND_MAX`. -/
theorem mul_scale {F : Format} {RAND_MAX k : ℕ} (hS : Supported F RAND_MAX) {d : FP}
    (hd : ScaleInv F RAND_MAX k d) :
    ScaleInv F RAND_MAX (k + 1) (FP.mul F d (FP.fin (RAND_MAX : ℚ))) := by
  obtain ⟨hL1, hLR, hLp, _⟩ := log2_facts hS
  have hR : (0 : ℚ) < RAND_MAX := by
    have := hS.2.1
    exact_mod_cast (by omega : 0 < RAND_MAX)
  rcases hd with rfl | ⟨x, rfl, hx1, hx2⟩
  · left
    simp only [FP.mul, if_neg hR.ne', if_pos hR]
  · have hp : (0 : ℚ) < 2 ^ (RAND_MAX.log2 * k) := by positivity
    have hx0 : 0 < x := lt_of_lt_of_le (mul_pos hR hp) hx1
    have hy : (RAND_MAX : ℚ) * 2 ^ (RAND_MAX.log2 * (k + 1)) ≤ x * RAND_MAX := by
      have h1 : (2 : ℚ) ^ RAND_MAX.log2 ≤ RAND_MAX := by exact_mod_cast hLR
      calc (RAND_MAX : ℚ) * 2 ^ (RAND_MAX.log2 * (k + 1))
          = (RAND_MAX * 2 ^ (RAND_MAX.log2 * k)) * 2 ^ RAND_MAX.log2 := by
            rw [Nat.mul_succ, pow_add]; ring
        _ ≤ x * RAND_MAX := mul_le_mul hx1 h1 (by positivity) hx0.le
    have hrep : F.Rep ((RAND_MAX : ℚ) * 2 ^ (RAND_MAX.log2 * (k + 1))) := by
      have := F.rep_int_mul (M := (RAND_MAX : ℤ)) (e := ((RAND_MAX.log2 * (k + 1) : ℕ) : ℤ)) (by
        rw [abs_of_nonneg (by positivity)]
        exact natCast_lt_two_pow hS.2.2.1) (by
        unfold Format.emin
        have := hS.1.1
        omega)
      rw [zpow_natCast] at this
      simpa using this
    have hpos : (0 : ℚ) < RAND_MAX * 2 ^ (RAND_MAX.log2 * (k + 1)) := by positivity
    have hle := F.rep_le_rval (by have := hS.1.1; omega) hpos hy hrep
    show ScaleInv F RAND_MAX (k + 1) (F.round (x * RAND_MAX))
    rcases F.round_pos_cases (mul_pos hx0 hR) with h | ⟨h1, h2⟩
    · left; exact h
    · right
      exact ⟨_, h1, hle, h2⟩

/-- The accumulator after one more term. -/
theorem add_term {F : Format} {RAND_MAX k : ℕ} (hS : Supported F RAND_MAX) {lo : ℚ}
    (hlo : 0 ≤ lo) (hlr : F.Rep lo) {r : FP} (hr : AccInv F RAND_MAX lo k r) {z : ℚ} (hz0 : 0 ≤ z)
    (hz : z ≤ 1 / 2 ^ (RAND_MAX.log2 * k)) :
    ∃ y y' : ℚ, r = FP.fin y ∧ FP.add F r (FP.fin z) = FP.fin y' ∧
      AccInv F RAND_MAX lo (k + 1) (FP.fin y') ∧ (z = 0 → y' = y) := by
  obtain ⟨hL1, hLR, hLp, _⟩ := log2_facts hS
  obtain ⟨y, rfl, hy0, hy1, hyr⟩ := hr
  have hy00 : 0 ≤ y := le_trans hlo hy0
  have hx0 : 0 ≤ y + z := add_nonneg hy00 hz0
  have hB := samplerMax_rep hS
  have hB2 := samplerMax_le_two hS
  have hfin := two_lt_two_pow_emax_succ hS.1
  -- the upper bound
  have hup : F.rval (y + z) ≤ accBound F RAND_MAX (k + 1) := by
    have hgo : ∀ b : ℚ, y + z ≤ b → F.Rep b → F.rval (y + z) ≤ b := fun b hb hbr =>
      F.rval_le_of_le_rep hb (by
        rw [abs_of_nonneg hx0, abs_of_nonneg (le_trans hx0 hb)]; exact hb) hbr
    by_cases hk : k = 0
    · subst hk
      have hy : y ≤ 0 := by simpa [accBound] using hy1
      have hz' : z ≤ 1 := by simpa using hz
      have h1 : accBound F RAND_MAX (0 + 1) = 1 := by
        unfold accBound samplerMax
        rw [if_neg (by omega), if_pos (by omega)]
        simp
      rw [h1]
      have hrep1 : F.Rep (1 : ℚ) := by
        have := F.rep_natCast hS.1 (a := 1) (Nat.one_lt_two_pow (by have := hS.1.1; omega))
        simpa using this
      exact hgo 1 (by linarith) hrep1
    · have hpk : (0 : ℚ) < 2 ^ (RAND_MAX.log2 * k) := by positivity
      have hhalf : (2 : ℚ) / 2 ^ (RAND_MAX.log2 * (k + 1)) ≤ 1 / 2 ^ (RAND_MAX.log2 * k) := by
        rw [Nat.mul_succ, pow_add, div_le_div_iff₀ (by positivity) hpk]
        have h2 : (2 : ℚ) ^ 1 ≤ 2 ^ RAND_MAX.log2 := pow_le_pow_right₀ (by norm_num) hL1
        nlinarith
      by_cases hLk : RAND_MAX.log2 * k ≤ F.prec
      · have hy : y ≤ samplerMax RAND_MAX - 2 / 2 ^ (RAND_MAX.log2 * k) := by
          simpa [accBound, hk, hLk] using hy1
        have hsum : y + z ≤ samplerMax RAND_MAX - 1 / 2 ^ (RAND_MAX.log2 * k) := by
          have : (2 : ℚ) / 2 ^ (RAND_MAX.log2 * k) = 2 * (1 / 2 ^ (RAND_MAX.log2 * k)) := by ring
          linarith
        by_cases hLk1 : RAND_MAX.log2 * (k + 1) ≤ F.prec
        · have h1 : accBound F RAND_MAX (k + 1)
              = samplerMax RAND_MAX - 2 / 2 ^ (RAND_MAX.log2 * (k + 1)) := by
            unfold accBound
            rw [if_neg (by omega), if_pos hLk1]
          have hrep := accBound_rep hS (k + 1)
          rw [h1] at hrep ⊢
          exact hgo _ (by linarith) hrep
        · have h1 : accBound F RAND_MAX (k + 1) = samplerMax RAND_MAX := by
            unfold accBound
            rw [if_neg (by omega), if_neg hLk1]
          rw [h1]
          have : (0 : ℚ) ≤ 1 / 2 ^ (RAND_MAX.log2 * k) := by positivity
          exact hgo _ (by linarith) hB
      · have hy : y ≤ samplerMax RAND_MAX := le_trans hy1 (accBound_le k)
        have hLk1 : ¬ RAND_MAX.log2 * (k + 1) ≤ F.prec := by
          rw [Nat.mul_succ]; omega
        have h1 : accBound F RAND_MAX (k + 1) = samplerMax RAND_MAX := by
          unfold accBound
          rw [if_neg (by omega), if_neg hLk1]
        rw [h1]
        by_cases hle : y + z ≤ samplerMax RAND_MAX
        · exact hgo _ hle hB
        · push_neg at hle
          have hBpos : 0 < samplerMax RAND_MAX := lt_of_lt_of_le zero_lt_one (one_le_samplerMax _)
          have hlog : 0 ≤ ilog2 (samplerMax RAND_MAX) :=
            le_ilog2 hBpos.ne' (by
              rw [abs_of_pos hBpos]; simpa using one_le_samplerMax RAND_MAX)
          have hemin : F.emin ≤ ilog2 (samplerMax RAND_MAX) := by
            unfold Format.emin; have := hS.1.2; omega
          have hq : (1 : ℤ) - F.prec ≤ F.qexp (samplerMax RAND_MAX) := by
            rw [F.qexp_of_le_ilog2 hemin]; omega
          have hzlt : z < 1 / 2 ^ F.prec := by
            refine lt_of_le_of_lt hz ?_
            rw [div_lt_div_iff₀ hpk (by positivity), one_mul, one_mul]
            exact pow_lt_pow_right₀ (by norm_num) (by omega)
          have hulp : (1 : ℚ) / 2 ^ F.prec ≤ 2 ^ F.qexp (samplerMax RAND_MAX) / 2 := by
            have h3 : (2 : ℚ) ^ ((1 : ℤ) - F.prec) ≤ 2 ^ F.qexp (samplerMax RAND_MAX) :=
              two_zpow_le hq
            have h4 : (2 : ℚ) ^ ((1 : ℤ) - F.prec) = 2 / 2 ^ F.prec := by
              rw [zpow_sub₀ (by norm_num), zpow_one, zpow_natCast]
            rw [h4] at h3
            have : (1 : ℚ) / 2 ^ F.prec = (2 / 2 ^ F.prec) / 2 := by ring
            rw [this]
            linarith
          have := F.rval_eq_of_lt_half hBpos hemin hB hle.le (by linarith)
          rw [this]
  have hx1 : F.rval (y + z) ≤ samplerMax RAND_MAX := le_trans hup (accBound_le (k + 1))
  have hround : F.round (y + z) = FP.fin (F.rval (y + z)) := by
    apply F.round_eq_fin
    rw [abs_of_nonneg (F.rval_nonneg hx0)]
    linarith
  have hlow : lo ≤ F.rval (y + z) := by
    rcases eq_or_lt_of_le hlo with h | h
    · rw [← h]; exact F.rval_nonneg hx0
    · exact F.rep_le_rval (by have := hS.1.1; omega) h (by linarith) hlr
  refine ⟨y, F.rval (y + z), rfl, hround, ⟨_, rfl, hlow, hup, F.rep_rval (by
    have := hS.1.1; omega) _⟩, ?_⟩
  intro h0
  rw [h0, add_zero]
  exact hyr

/-! ## The loop of `randld` -/

theorem ValidDraws.tail {RAND_MAX : ℕ} {s : RandState} (hs : ValidDraws RAND_MAX s) (m : ℕ) :
    ValidDraws RAND_MAX (fun i => s (i + m)) := fun i => hs (i + m)

theorem rep_zero (F : Format) : F.Rep 0 := F.rval_zero

theorem rep_one {F : Format} (hF : F.Valid) : F.Rep 1 := by
  have := F.rep_natCast hF (a := 1) (Nat.one_lt_two_pow (by have := hF.1; omega))
  simpa using this

/-- Once the scale is `+∞` the test of the loop succeeds. -/
theorem test_of_pinf {F : Format} {y : ℚ} (hy : F.Rep y) (hfin : |y| < 2 ^ (F.emax + 1)) :
    FP.eq (FP.add F (FP.fin y) (FP.fin 0)) (FP.fin y) = true := by
  have h : F.round (y + 0) = FP.fin y := by
    rw [add_zero]
    have := F.round_eq_fin (x := y) (by rw [hy]; exact hfin)
    rw [this, hy]
  simp only [FP.add, h, FP.eq, decide_True]

/-- The loop of `randld` returns, within `emax + 1` iterations counted from the
first one, a finite value between the lower bound reached so far and
`samplerMax`, and it consumes at least one draw. -/
theorem randldLoop_spec {F : Format} {RAND_MAX : ℕ} (hS : Supported F RAND_MAX) {lo : ℚ}
    (hlo : 0 ≤ lo) (hlr : F.Rep lo) :
    ∀ (fuel k : ℕ) (s : RandState) (r d : FP), ValidDraws RAND_MAX s →
      AccInv F RAND_MAX lo k r → ScaleInv F RAND_MAX k d → 0 < fuel → F.emax < k + fuel →
      ∃ (v : ℚ) (m : ℕ), randldLoop F RAND_MAX fuel s r d = some (FP.fin v, fun i => s (i + m)) ∧
        1 ≤ m ∧ lo ≤ v ∧ v ≤ samplerMax RAND_MAX ∧ F.Rep v := by
  intro fuel
  induction fuel with
  | zero =>
    intro k s r d _ _ _ h0 _
    exact absurd h0 (lt_irrefl 0)
  | succ fuel ih =>
    intro k s r d hs hr hd _ hk
    obtain ⟨z, hz, hz0, hz1, hzinf⟩ := div_draw hS hd (hs 0)
    obtain ⟨y, y', hry, hadd, hacc, hy0⟩ := add_term hS hlo hlr hr hz0 hz1
    obtain ⟨w, hw, hw0, hw1, hwinf⟩ := div_draw hS hd (a := 1) (by have := hS.2.1; omega)
    obtain ⟨y2, hy2, hy2lo, hy2up, hy2rep⟩ := hacc
    have hyy : y2 = y' := by
      have := FP.fin.inj hy2; exact this.symm
    subst hyy
    have hr1 : FP.add F r (FP.div F (FP.ofInt F ((rand s).1 : ℤ)) d) = FP.fin y2 := by
      rw [show (rand s).1 = s 0 from rfl, ofInt_draw hS (hs 0), hz, hadd]
    have hone : FP.div F (FP.ofInt F 1) d = FP.fin w := by
      rw [ofInt_one hS]
      simpa using hw
    have hy2B : y2 ≤ samplerMax RAND_MAX := le_trans hy2up (accBound_le (k + 1))
    have hy2fin : |y2| < 2 ^ (F.emax + 1) := by
      rw [abs_of_nonneg (le_trans hlo hy2lo)]
      have := samplerMax_le_two hS
      have := two_lt_two_pow_emax_succ hS.1
      linarith
    unfold randldLoop
    simp only [hr1, hone]
    by_cases ht : FP.eq (FP.add F (FP.fin y2) (FP.fin w)) (FP.fin y2) = true
    · rw [if_pos ht]
      exact ⟨y2, 1, rfl, le_rfl, hy2lo, hy2B, hy2rep⟩
    · rw [if_neg ht]
      have hfinite : ∃ x : ℚ, d = FP.fin x ∧
          (RAND_MAX : ℚ) * 2 ^ (RAND_MAX.log2 * k) ≤ x ∧ x < 2 ^ (F.emax + 1) := by
        rcases hd with rfl | h
        · exfalso
          apply ht
          rw [hwinf rfl]
          exact test_of_pinf hy2rep hy2fin
        · exact h
      obtain ⟨x, hdx, hx1, hx2⟩ := hfinite
      have hklt := (ScaleInv.lt_emax hS hx1 hx2).2
      have hd' := mul_scale hS hd
      rw [← ofInt_draw hS (le_refl RAND_MAX)] at hd'
      obtain ⟨v, m, hres, hm, hv0, hv1, hvr⟩ :=
        ih (k + 1) (rand s).2 (FP.fin y2) _ (hs.tail 1) ⟨y2, rfl, hy2lo, hy2up, hy2rep⟩ hd'
          (by omega) (by omega)
      exact ⟨v, m + 1, hres, by omega, hv0, hv1, hvr⟩

/-- The sampler returns a finite value in `[0, samplerMax]` whenever the fuel
covers `emax + 1` iterations. -/
theorem randld_spec {F : Format} {RAND_MAX : ℕ} (hS : Supported F RAND_MAX) {fuel : ℕ}
    (hfuel : F.emax + 1 ≤ fuel) {s : RandState} (hs : ValidDraws RAND_MAX s) :
    ∃ (v : ℚ) (m : ℕ), randld F RAND_MAX fuel s = some (FP.fin v, fun i => s (i + m)) ∧
      1 ≤ m ∧ 0 ≤ v ∧ v ≤ samplerMax RAND_MAX ∧ F.Rep v := by
  unfold randld
  rw [ofInt_zero hS, ofInt_draw hS (le_refl RAND_MAX)]
  apply randldLoop_spec hS le_rfl (rep_zero F) fuel 0 s _ _ hs
  · exact ⟨0, rfl, le_rfl, by simp [accBound], rep_zero F⟩
  · right
    refine ⟨_, rfl, by simp, ?_⟩
    have h1 : RAND_MAX < 2 ^ (F.emax + 1) :=
      lt_trans hS.2.2.2 (Nat.pow_lt_pow_right (by norm_num) (by omega))
    exact_mod_cast h1
  · omega
  · omega

theorem samplerMax_le (RAND_MAX : ℕ) (h : 0 < RAND_MAX) :
    samplerMax RAND_MAX ≤ 1 + 4 / RAND_MAX := by
  unfold samplerMax
  have h1 : (RAND_MAX : ℚ) < 2 ^ (RAND_MAX.log2 + 1) := by
    exact_mod_cast (Nat.lt_log2_self (n := RAND_MAX))
  have h2 : (0 : ℚ) < RAND_MAX := by exact_mod_cast h
  have h3 : (2 : ℚ) / 2 ^ RAND_MAX.log2 ≤ 4 / RAND_MAX := by
    rw [div_le_div_iff₀ (by positivity) h2]
    rw [pow_succ] at h1
    linarith
  linarith

/-! ## Successive calls of the sampler -/

theorem randldLoop_fuel_mono (F : Format) (RAND_MAX : ℕ) :
    ∀ (fuel j : ℕ) (s : RandState) (r d : FP) (res : FP × RandState),
      randldLoop F RAND_MAX fuel s r d = some res →
      randldLoop F RAND_MAX (fuel + j) s r d = some res := by
  intro fuel
  induction fuel with
  | zero => intro j s r d res h; simp [randldLoop] at h
  | succ fuel ih =>
    intro j s r d res h
    rw [show fuel + 1 + j = (fuel + j) + 1 by omega]
    unfold randldLoop at h ⊢
    simp only at h ⊢
    split at h
    · rename_i ht
      rw [if_pos ht]; exact h
    · rename_i ht
      rw [if_neg ht]
      exact ih j _ _ _ _ h

theorem randldNth_spec {F : Format} {RAND_MAX : ℕ} (hS : Supported F RAND_MAX) {fuel : ℕ}
    (hfuel : F.emax + 1 ≤ fuel) :
    ∀ (j : ℕ) (s : RandState), ValidDraws RAND_MAX s →
      ∃ v : ℚ, randldNth F RAND_MAX fuel j s = some (FP.fin v) ∧ 0 ≤ v ∧
        v ≤ samplerMax RAND_MAX := by
  intro j
  induction j with
  | zero =>
    intro s hs
    obtain ⟨v, m, h, _, h0, h1, _⟩ := randld_spec hS hfuel hs
    exact ⟨v, by simp [randldNth, h], h0, h1⟩
  | succ j ih =>
    intro s hs
    obtain ⟨v, m, h, _, _, _, _⟩ := randld_spec hS hfuel hs
    obtain ⟨v', h', h0, h1⟩ := ih _ (hs.tail m)
    exact ⟨v', by simp only [randldNth, h, h'], h0, h1⟩

/-! ## The first loop of `generate` -/

/-- The first loop of `generate` returns; it leaves the samples below the
start index alone and stores, at offset `j` from it, the pair built from the
results `2 * j` and `2 * j + 1` of the sampler. -/
theorem generateFill_spec {F : Format} {RAND_MAX : ℕ} (hS : Supported F RAND_MAX) {fuel : ℕ}
    (hfuel : F.emax + 1 ≤ fuel) :
    ∀ (k i : ℕ) (inp : List Sample) (s : RandState), ValidDraws RAND_MAX s →
      i + k ≤ inp.length →
      ∃ (inp' : List Sample) (s' : RandState),
        generateFill F RAND_MAX fuel k i inp s = some (inp', s') ∧
        inp'.length = inp.length ∧ ValidDraws RAND_MAX s' ∧
        (∀ j, j < i → inp'[j]? = inp[j]?) ∧
        (∀ j, j < k → ∃ a b : FP,
          randldNth F RAND_MAX fuel (2 * j) s = some a ∧
          randldNth F RAND_MAX fuel (2 * j + 1) s = some b ∧
          inp'[i + j]? = some (FP.add F (minusHalf F) a, FP.add F (minusHalf F) b)) := by
  intro k
  induction k with
  | zero =>
    intro i inp s hs _
    exact ⟨inp, s, rfl, rfl, hs, fun _ _ => rfl, fun j hj => absurd hj (Nat.not_lt_zero j)⟩
  | succ k ih =>
    intro i inp s hs hlen
    obtain ⟨v1, m1, h1, _, _, _, _⟩ := randld_spec hS hfuel hs
    obtain ⟨v2, m2, h2, _, _, _, _⟩ := randld_spec hS hfuel (hs.tail m1)
    have hi : i < inp.length := by omega
    obtain ⟨inp', s', hres, hl, hs', hframe, hfill⟩ :=
      ih (i + 1) (inp.set i (FP.add F (minusHalf F) (FP.fin v1), FP.add F (minusHalf F) (FP.fin v2)))
        _ ((hs.tail m1).tail m2) (by rw [List.length_set]; omega)
    refine ⟨inp', s', ?_, ?_, hs', ?_, ?_⟩
    · simp only [generateFill, h1, h2, if_pos hi]
      exact hres
    · rw [hl, List.length_set]
    · intro j hj
      rw [hframe j (by omega), List.getElem?_set_ne (by omega)]
    · intro j hj
      cases j with
      | zero =>
        refine ⟨FP.fin v1, FP.fin v2, by simp [randldNth, h1], by simp [randldNth, h1, h2], ?_⟩
        rw [Nat.add_zero, hframe i (by omega), List.getElem?_set_self hi]
      | succ j =>
        obtain ⟨a, b, ha, hb, hab⟩ := hfill j (by omega)
        refine ⟨a, b, ?_, ?_, ?_⟩
        · rw [show 2 * (j + 1) = (2 * j + 1) + 1 by ring]
          simp only [randldNth, h1, h2]
          exact ha
        · rw [show 2 * (j + 1) + 1 = ((2 * j + 1) + 1) + 1 by ring]
          simp only [randldNth, h1, h2]
          exact hb
        · rw [show i + (j + 1) = i + 1 + j by ring]
          exact hab

/-- The first loop of `generate` overwrites every sample it is asked to fill:
its result does not depend on what the buffer held there before. -/
theorem generateFill_congr (F : Format) (RAND_MAX fuel : ℕ) :
    ∀ (k i : ℕ) (inp inp' : List Sample) (s : RandState), inp.length = inp'.length →
      i + k = inp.length → (∀ j, j < i → inp[j]? = inp'[j]?) →
      generateFill F RAND_MAX fuel k i inp s = generateFill F RAND_MAX fuel k i inp' s := by
  intro k
  induction k with
  | zero =>
    intro i inp inp' s hl hk hpre
    have : inp = inp' := by
      apply List.ext_getElem? 
      intro j
      by_cases hj : j < i
      · exact hpre j hj
      · rw [List.getElem?_eq_none (by omega), List.getElem?_eq_none (by omega)]
    simp [generateFill, this]
  | succ k ih =>
    intro i inp inp' s hl hk hpre
    simp only [generateFill]
    cases h1 : randld F RAND_MAX fuel s with
    | none => rfl
    | some p1 =>
      obtain ⟨x, s1⟩ := p1
      simp only
      cases h2 : randld F RAND_MAX fuel s1 with
      | none => rfl
      | some p2 =>
        obtain ⟨y, s2⟩ := p2
        simp only
        have hi : i < inp.length := by omega
        have hi' : i < inp'.length := by omega
        rw [if_pos hi, if_pos hi']
        apply ih
        · rw [List.length_set, List.length_set, hl]
        · rw [List.length_set]; omega
        · intro j hj
          by_cases hji : j = i
          · subst hji
            rw [List.getElem?_set_self hi, List.getElem?_set_self hi']
          · rw [List.getElem?_set_ne (Ne.symm hji), List.getElem?_set_ne (Ne.symm hji)]
            exact hpre j (by omega)

/-! ## The components of the generated samples -/

theorem minusHalf_eq {F : Format} (hF : F.Valid) : minusHalf F = FP.fin (-1 / 2) := by
  have hrep : F.Rep (-1 / 2) := by
    have := F.rep_int_mul (M := -1) (e := -1) (by
      rw [Int.cast_neg, Int.cast_one, abs_neg, abs_one]
      have : (2 : ℚ) ^ (0 : ℤ) < 2 ^ (F.prec : ℤ) := two_zpow_lt (by have := hF.1; omega)
      simpa using this) (by
      unfold Format.emin
      have := hF.1; have := hF.2
      omega)
    have he : ((-1 : ℤ) : ℚ) * 2 ^ (-1 : ℤ) = -1 / 2 := by norm_num
    rwa [he] at this
  unfold minusHalf
  apply F.round_of_rep hrep
  have h1 : (2 : ℚ) ^ (0 : ℤ) ≤ 2 ^ ((F.emax : ℤ) + 1) := two_zpow_le (by omega)
  have h2 : |(-1 / 2 : ℚ)| = 1 / 2 := by norm_num [abs_of_neg]
  rw [h2]
  simp at h1
  linarith

theorem rep_half {F : Format} (hF : F.Valid) : F.Rep (1 / 2) := by
  have := F.rep_int_mul (M := 1) (e := -1) (by
    rw [Int.cast_one, abs_one]
    have : (2 : ℚ) ^ (0 : ℤ) < 2 ^ (F.prec : ℤ) := two_zpow_lt (by have := hF.1; omega)
    simpa using this) (by
    unfold Format.emin
    have := hF.1; have := hF.2
    omega)
  have he : ((1 : ℤ) : ℚ) * 2 ^ (-1 : ℤ) = 1 / 2 := by norm_num
  rwa [he] at this

theorem rep_samplerMax_sub_half {F : Format} {RAND_MAX : ℕ} (hS : Supported F RAND_MAX) :
    F.Rep (samplerMax RAND_MAX - 1 / 2) := by
  obtain ⟨hL1, hLR, hLp, hLe⟩ := log2_facts hS
  unfold samplerMax
  obtain ⟨m, hm⟩ : ∃ m, RAND_MAX.log2 = m + 1 := ⟨RAND_MAX.log2 - 1, by omega⟩
  rw [hm] at hLR hLp hLe ⊢
  have hlt : 2 ^ m + 2 < 2 ^ F.prec := by
    rcases Nat.eq_zero_or_pos m with h0 | h0
    · subst h0
      have h4 : 2 ^ 2 ≤ 2 ^ F.prec := Nat.pow_le_pow_right (by norm_num) hS.1.1
      norm_num at h4 ⊢
      omega
    · have h2 : 2 ^ 1 ≤ 2 ^ m := Nat.pow_le_pow_right (by norm_num) h0
      have h3 : 2 ^ (m + 1) < 2 ^ F.prec := lt_of_le_of_lt hLR hS.2.2.1
      rw [pow_succ] at h3
      norm_num at h2
      omega
  have h := F.rep_nat_div (a := 2 ^ m + 2) (n := m + 1) hlt (by omega)
  have he : (((2 ^ m + 2 : ℕ) : ℚ)) / 2 ^ (m + 1) = 1 + 2 / 2 ^ (m + 1) - 1 / 2 := by
    have hp : (0 : ℚ) < 2 ^ m := by positivity
    push_cast
    rw [pow_succ]
    field_simp
    ring
  rwa [he] at h

/-- The sum `-0.5L + v` for a sampler result `v`. -/
theorem add_minusHalf {F : Format} {RAND_MAX : ℕ} (hS : Supported F RAND_MAX) {v : ℚ}
    (h0 : 0 ≤ v) (h1 : v ≤ samplerMax RAND_MAX) :
    ∃ c : ℚ, FP.add F (minusHalf F) (FP.fin v) = FP.fin c ∧ -1 / 2 ≤ c ∧
      c ≤ 1 / 2 + 4 / RAND_MAX ∧ (1 ≤ v → 1 / 2 ≤ c) := by
  have hB := rep_samplerMax_sub_half hS
  have hB1 := one_le_samplerMax RAND_MAX
  have hB2 := samplerMax_le_two hS
  have hfin := two_lt_two_pow_emax_succ hS.1
  have hF1 : 1 ≤ F.prec := by have := hS.1.1; omega
  have hup : F.rval (-1 / 2 + v) ≤ samplerMax RAND_MAX - 1 / 2 := by
    apply F.rval_le_of_le_rep (by linarith) _ hB
    rw [abs_of_nonneg (by linarith : (0 : ℚ) ≤ samplerMax RAND_MAX - 1 / 2)]
    exact abs_le.2 ⟨by linarith, by linarith⟩
  have hlow : -1 / 2 ≤ F.rval (-1 / 2 + v) := by
    rcases le_total 0 (-1 / 2 + v) with h | h
    · have := F.rval_nonneg h
      linarith
    · have hrep : F.Rep (-1 / 2) := by
        have := minusHalf_eq hS.1
        unfold minusHalf Format.round at this
        split at this
        · split at this <;> cases this
        · exact FP.fin.inj this
      apply F.le_rval_of_rep_le (by linarith) _ hrep
      rw [abs_of_nonpos h, abs_of_neg (by norm_num)]
      linarith
  refine ⟨F.rval (-1 / 2 + v), ?_, hlow, ?_, ?_⟩
  · rw [minusHalf_eq hS.1]
    show F.round (-1 / 2 + v) = _
    apply F.round_eq_fin
    rw [abs_lt]
    constructor <;> linarith
  · have := samplerMax_le RAND_MAX (by have := hS.2.1; omega)
    linarith
  · intro hv
    exact F.rep_le_rval hF1 (by norm_num) (by linarith) (rep_half hS.1)

/-! ## A first draw equal to `RAND_MAX` -/

/-- When the first draw is `RAND_MAX` the sampler returns at least `1`. -/
theorem randld_ge_one {F : Format} {RAND_MAX : ℕ} (hS : Supported F RAND_MAX) {fuel : ℕ}
    (hfuel : F.emax + 1 ≤ fuel) {s : RandState} (hs : ValidDraws RAND_MAX s)
    (h0 : s 0 = RAND_MAX) :
    ∃ (v : ℚ) (m : ℕ), randld F RAND_MAX fuel s = some (FP.fin v, fun i => s (i + m)) ∧
      1 ≤ m ∧ 1 ≤ v ∧ v ≤ samplerMax RAND_MAX := by
  obtain ⟨f, rfl⟩ : ∃ f, fuel = f + 1 := ⟨fuel - 1, by omega⟩
  obtain ⟨hL1, hLR, hLp, hLe⟩ := log2_facts hS
  have hR : (0 : ℚ) < RAND_MAX := by
    have := hS.2.1
    exact_mod_cast (by omega : 0 < RAND_MAX)
  have h1rep := rep_one hS.1
  have h1fin : |(1 : ℚ)| < 2 ^ ((F.emax : ℤ) + 1) := by
    rw [abs_one]
    have : (2 : ℚ) ^ (0 : ℤ) < 2 ^ ((F.emax : ℤ) + 1) := two_zpow_lt (by omega)
    simpa using this
  have hround1 : F.round 1 = FP.fin 1 := F.round_of_rep h1rep h1fin
  have hsc0 : ScaleInv F RAND_MAX 0 (FP.fin (RAND_MAX : ℚ)) := by
    right
    refine ⟨_, rfl, by simp, ?_⟩
    have h1 : RAND_MAX < 2 ^ (F.emax + 1) :=
      lt_trans hS.2.2.2 (Nat.pow_lt_pow_right (by norm_num) (by omega))
    exact_mod_cast h1
  have hr1 : FP.add F (FP.ofInt F 0)
      (FP.div F (FP.ofInt F ((rand s).1 : ℤ)) (FP.ofInt F (RAND_MAX : ℤ))) = FP.fin 1 := by
    rw [show (rand s).1 = s 0 from rfl, h0, ofInt_zero hS, ofInt_draw hS (le_refl RAND_MAX)]
    simp only [FP.div, if_neg hR.ne', div_self hR.ne', hround1, FP.add, zero_add]
  unfold randld randldLoop
  simp only [hr1]
  split
  · exact ⟨1, 1, rfl, le_rfl, le_rfl, one_le_samplerMax _⟩
  · have hacc : AccInv F RAND_MAX 1 1 (FP.fin 1) := by
      refine ⟨1, rfl, le_rfl, ?_, h1rep⟩
      unfold accBound samplerMax
      rw [if_neg (by omega), if_pos (by omega)]
      simp
    have hsc := mul_scale hS hsc0
    rw [← ofInt_draw hS (le_refl RAND_MAX)] at hsc
    obtain ⟨v, m, hres, hm, hv0, hv1, _⟩ :=
      randldLoop_spec hS zero_le_one h1rep f 1 (rand s).2 (FP.fin 1) _ (hs.tail 1) hacc hsc
        (by have := hS.1.2; omega) (by omega)
    exact ⟨v, m + 1, hres, by omega, hv0, hv1⟩

/-! ## The bytes of a `double` -/

theorem length_padBits (n : ℕ) (p : List Bool) : (padBits n p).length = n := by
  simp [padBits]

theorem bitsValue_lt (l : List Bool) : bitsValue l < 2 ^ l.length := by
  induction l with
  | nil => simp [bitsValue]
  | cons b t ih =>
    simp only [bitsValue, List.length_cons, pow_succ]
    split <;> omega

theorem natBits_bitsValue (l : List Bool) :
    ∀ k : ℕ, natBits l.length (bitsValue l + 2 ^ l.length * k) = l := by
  induction l with
  | nil => intro k; rfl
  | cons b t ih =>
    intro k
    have hlt := bitsValue_lt t
    have hpos : 0 < 2 ^ t.length := Nat.pow_pos (by norm_num)
    have hw : bitsValue (b :: t) + 2 ^ (b :: t).length * k
        = bitsValue t + 2 ^ t.length * ((if b then 1 else 0) + 2 * k) := by
      simp only [bitsValue, List.length_cons, pow_succ]
      split <;> ring
    have h1 := ih ((if b then 1 else 0) + 2 * k)
    have h2 : (bitsValue t + 2 ^ t.length * ((if b then 1 else 0) + 2 * k)) / 2 ^ t.length % 2
        = if b then 1 else 0 := by
      rw [Nat.add_mul_div_left _ _ hpos, Nat.div_eq_of_lt hlt, Nat.zero_add]
      cases b <;> simp [Nat.add_mul_mod_self_left]
    rw [hw]
    show decide (_ = 1) :: natBits t.length _ = b :: t
    rw [h1, h2]
    cases b <;> simp

theorem encodeDouble_length (x : Cell) : (encodeDouble x).length = 8 := by
  simp [encodeDouble]

theorem encodeDouble_lt (x : Cell) : ∀ b ∈ encodeDouble x, b < 256 := by
  intro b hb
  simp only [encodeDouble, List.mem_map] at hb
  obtain ⟨k, _, rfl⟩ := hb
  exact Nat.mod_lt _ (by norm_num)

theorem leValue_encodeDouble (x : Cell) (h : doubleBits x < 2 ^ 64) :
    leValue (encodeDouble x) = doubleBits x := by
  have h8 : List.range 8 = [0, 1, 2, 3, 4, 5, 6, 7] := by decide
  simp only [encodeDouble, h8, List.map_cons, List.map_nil, leValue]
  norm_num at h ⊢
  omega

theorem binary64_qexp (r : ℚ) : binary64.qexp r = max (ilog2 r) (-1022) - 52 := by
  unfold Format.qexp Format.emin binary64
  norm_num

theorem word_fields {s E f : ℕ} (hs : s < 2) (hE : E < 2048) (hf : f < 2 ^ 52) :
    (s * 2 ^ 63 + E * 2 ^ 52 + f) / 2 ^ 52 % 2048 = E ∧
    (s * 2 ^ 63 + E * 2 ^ 52 + f) % 2 ^ 52 = f ∧
    (s * 2 ^ 63 + E * 2 ^ 52 + f) / 2 ^ 63 % 2 = s := by
  have h52 : (2 : ℕ) ^ 52 = 4503599627370496 := by norm_num
  have h63 : (2 : ℕ) ^ 63 = 9223372036854775808 := by norm_num
  rw [h52] at hf
  rw [h52, h63]
  omega

theorem ieeeDouble_normal {s E f : ℕ} (hs : s < 2) (hE0 : 0 < E) (hE : E < 2047)
    (hf : f < 2 ^ 52) :
    ieeeDouble (s * 2 ^ 63 + E * 2 ^ 52 + f)
      = Cell.fin ((if s = 1 then -1 else 1) * ((2 ^ 52 + f : ℕ) : ℚ) * pow2 ((E : ℤ) - 1075)) := by
  obtain ⟨a1, a2, a3⟩ := word_fields hs (by omega : E < 2048) hf
  unfold ieeeDouble
  rw [a1, a2, a3, if_neg (by omega), if_neg (by omega)]

theorem ieeeDouble_subnormal {s f : ℕ} (hs : s < 2) (hf0 : f ≠ 0) (hf : f < 2 ^ 52) :
    ieeeDouble (s * 2 ^ 63 + 0 * 2 ^ 52 + f)
      = Cell.fin ((if s = 1 then -1 else 1) * (f : ℚ) * pow2 (-1074)) := by
  obtain ⟨a1, a2, a3⟩ := word_fields hs (by omega : 0 < 2048) hf
  unfold ieeeDouble
  rw [a1, a2, a3, if_neg (by omega), if_pos rfl, if_neg hf0]

theorem ieeeDouble_special {s f : ℕ} (hs : s < 2) (hf : f < 2 ^ 52) :
    ieeeDouble (s * 2 ^ 63 + 2047 * 2 ^ 52 + f)
      = if f = 0 then (if s = 1 then Cell.ninf else Cell.pinf)
        else Cell.nan (decide (s = 1))
          (decide ((s * 2 ^ 63 + 2047 * 2 ^ 52 + f) / 2 ^ 51 % 2 = 1))
          (natBits 51 (s * 2 ^ 63 + 2047 * 2 ^ 52 + f)) := by
  obtain ⟨a1, a2, a3⟩ := word_fields hs (by omega : 2047 < 2048) hf
  unfold ieeeDouble
  rw [a1, a2, a3, if_pos rfl]

/-- The word of a finite non-zero `double` fits 64 bits and IEEE 754 gives it the
value back. -/
theorem doubleBits_fin {r : ℚ} (hr : binary64.Rep r) (h0 : r ≠ 0) (hlt : |r| < 2 ^ (1024 : ℤ)) :
    doubleBits (Cell.fin r) < 2 ^ 64 ∧ ieeeDouble (doubleBits (Cell.fin r)) = Cell.fin r := by
  obtain ⟨k, hk⟩ := hr.exists_mul
  rw [binary64_qexp] at hk
  obtain ⟨hlo, hhi⟩ := ilog2_spec h0
  have hpos : (0 : ℚ) < 2 ^ (max (ilog2 r) (-1022) - 52) := two_zpow_pos _
  have habs : |r| = (k.natAbs : ℚ) * 2 ^ (max (ilog2 r) (-1022) - 52) := by
    conv_lhs => rw [hk]
    rw [abs_mul, abs_of_pos hpos, Nat.cast_natAbs, Int.cast_abs]
  have hfloor : (⌊|r| / pow2 (max (ilog2 r) (-1022) - 52)⌋).toNat = k.natAbs := by
    rw [pow2_eq, habs, mul_div_assoc, div_self hpos.ne', mul_one, Int.floor_natCast,
      Int.toNat_natCast]
  have hk0 : k ≠ 0 := by
    rintro rfl
    apply h0
    rw [hk]
    simp
  have hm0 : 0 < k.natAbs := Int.natAbs_pos.2 hk0
  have he1023 : max (ilog2 r) (-1022) ≤ 1023 := by
    have := ilog2_lt h0 hlt
    exact max_le (by omega) (by norm_num)
  have hbound : ∀ j : ℕ, ilog2 r + 1 ≤ (j : ℤ) + (max (ilog2 r) (-1022) - 52) →
      k.natAbs < 2 ^ j := by
    intro j hj
    have h1 : |r| < 2 ^ (j : ℤ) * 2 ^ (max (ilog2 r) (-1022) - 52) := by
      rw [← zpow_add₀ (by norm_num : (2 : ℚ) ≠ 0)]
      exact lt_of_lt_of_le hhi (two_zpow_le hj)
    rw [habs] at h1
    have h2 := lt_of_mul_lt_mul_right h1 hpos.le
    rw [zpow_natCast] at h2
    exact_mod_cast h2
  have hm53 : k.natAbs < 2 ^ 53 :=
    hbound 53 (by have := le_max_left (ilog2 r) (-1022); push_cast; omega)
  have hsign : r < 0 ↔ k < 0 := by
    rw [hk]
    constructor
    · intro h
      by_contra hn
      have : (0 : ℚ) ≤ k := by exact_mod_cast (not_lt.1 hn)
      have := mul_nonneg this hpos.le
      linarith
    · intro h
      have : (k : ℚ) < 0 := by exact_mod_cast h
      exact mul_neg_of_neg_of_pos this hpos
  have hval : (if (if r < 0 then 1 else 0) = 1 then (-1 : ℚ) else 1) * (k.natAbs : ℚ) = k := by
    rw [Nat.cast_natAbs, Int.cast_abs]
    by_cases hneg : r < 0
    · have : (k : ℚ) < 0 := by exact_mod_cast hsign.1 hneg
      rw [if_pos hneg, if_pos rfl, abs_of_neg this]
      ring
    · have : (0 : ℚ) ≤ k := by exact_mod_cast (not_lt.1 (fun h => hneg (hsign.2 h)))
      rw [if_neg hneg, if_neg (by norm_num), abs_of_nonneg this]
      ring
  have hs2 : (if r < 0 then 1 else 0) < 2 := by split <;> omega
  have hbits : doubleBits (Cell.fin r) = (if r < 0 then 2 ^ 63 else 0) +
      (if k.natAbs < 2 ^ 52 then k.natAbs
        else (max (ilog2 r) (-1022) + 1022).toNat * 2 ^ 52 + k.natAbs) := by
    simp only [doubleBits, if_neg h0, hfloor]
  have hsg : (if r < 0 then 2 ^ 63 else 0) = (if r < 0 then 1 else 0) * 2 ^ 63 := by
    split <;> simp
  rw [hbits, hsg]
  by_cases hsub : ilog2 r < -1022
  · -- a subnormal number
    have he : max (ilog2 r) (-1022) = -1022 := max_eq_right hsub.le
    have hm52 : k.natAbs < 2 ^ 52 := hbound 52 (by rw [he]; push_cast; omega)
    rw [if_pos hm52]
    have hw : (if r < 0 then 1 else 0) * 2 ^ 63 + k.natAbs
        = (if r < 0 then 1 else 0) * 2 ^ 63 + 0 * 2 ^ 52 + k.natAbs := by ring
    rw [hw, ieeeDouble_subnormal hs2 hm0.ne' hm52]
    constructor
    · have h52 : (2 : ℕ) ^ 52 = 4503599627370496 := by norm_num
      have h63 : (2 : ℕ) ^ 63 = 9223372036854775808 := by norm_num
      have h64 : (2 : ℕ) ^ 64 = 18446744073709551616 := by norm_num
      rw [h52] at hm52
      rw [h52, h63, h64]
      split <;> omega
    · congr 1
      rw [hval, pow2_eq]
      conv_rhs => rw [hk, he]
      norm_num
  · -- a normal number
    have he : max (ilog2 r) (-1022) = ilog2 r := max_eq_left (not_lt.1 hsub)
    have hm52 : ¬ k.natAbs < 2 ^ 52 := by
      intro hlt52
      have h1 : (2 : ℚ) ^ (52 : ℤ) * 2 ^ (max (ilog2 r) (-1022) - 52) ≤ |r| := by
        rw [← zpow_add₀ (by norm_num : (2 : ℚ) ≠ 0), he]
        simpa using hlo
      rw [habs] at h1
      have h2 := le_of_mul_le_mul_right h1 hpos
      have h3 : ((2 : ℚ) ^ (52 : ℤ)) = ((2 ^ 52 : ℕ) : ℚ) := by norm_num
      rw [h3] at h2
      have h4 : 2 ^ 52 ≤ k.natAbs := by exact_mod_cast h2
      omega
    rw [if_neg hm52]
    have hE : ((max (ilog2 r) (-1022) + 1022).toNat : ℤ) = max (ilog2 r) (-1022) + 1022 :=
      Int.toNat_of_nonneg (by rw [he]; omega)
    have hE1 : (max (ilog2 r) (-1022) + 1022).toNat + 1 < 2047 := by omega
    have hf : k.natAbs - 2 ^ 52 < 2 ^ 52 := by
      have h52 : (2 : ℕ) ^ 52 = 4503599627370496 := by norm_num
      have h53 : (2 : ℕ) ^ 53 = 9007199254740992 := by norm_num
      rw [h53] at hm53
      rw [h52]
      omega
    have hw : (if r < 0 then 1 else 0) * 2 ^ 63 +
        ((max (ilog2 r) (-1022) + 1022).toNat * 2 ^ 52 + k.natAbs)
        = (if r < 0 then 1 else 0) * 2 ^ 63 +
          ((max (ilog2 r) (-1022) + 1022).toNat + 1) * 2 ^ 52 + (k.natAbs - 2 ^ 52) := by
      have h52 : (2 : ℕ) ^ 52 = 4503599627370496 := by norm_num
      rw [h52] at hm52 ⊢
      omega
    rw [hw, ieeeDouble_normal hs2 (by omega) hE1 hf]
    constructor
    · have h52 : (2 : ℕ) ^ 52 = 4503599627370496 := by norm_num
      have h63 : (2 : ℕ) ^ 63 = 9223372036854775808 := by norm_num
      have h64 : (2 : ℕ) ^ 64 = 18446744073709551616 := by norm_num
      rw [h52] at hf
      rw [h52, h63, h64]
      split <;> omega
    · congr 1
      have hnat : 2 ^ 52 + (k.natAbs - 2 ^ 52) = k.natAbs := by omega
      have hexp : ((((max (ilog2 r) (-1022) + 1022).toNat + 1 : ℕ) : ℤ) - 1075)
          = max (ilog2 r) (-1022) - 52 := by
        push_cast
        rw [hE]
        ring
      rw [hnat, hval, pow2_eq, hexp]
      exact hk.symm

theorem ieeeDouble_zero {s : ℕ} (hs : s < 2) :
    ieeeDouble (s * 2 ^ 63 + 0 * 2 ^ 52 + 0) = if s = 1 then Cell.nzero else Cell.fin 0 := by
  obtain ⟨a1, a2, a3⟩ := word_fields hs (by omega : 0 < 2048) (Nat.pow_pos (by norm_num) : 0 < 2 ^ 52)
  unfold ieeeDouble
  rw [a1, a2, a3, if_neg (by omega), if_pos rfl, if_pos rfl]

theorem padBits_of_length {n : ℕ} {l : List Bool} (h : l.length = n) : padBits n l = l := by
  unfold padBits
  rw [List.take_append_of_le_length (by omega), List.take_of_length_le (by omega)]

theorem ieeeDouble_nan {s v : ℕ} {l : List Bool} (hs : s < 2) (hv : v < 2 ^ 51)
    (hl : natBits 51 (v + 2 ^ 51 * (s * 4096 + 4095)) = l) :
    s * 2 ^ 63 + 2047 * 2 ^ 52 + (2 ^ 51 + v) < 2 ^ 64 ∧
    ieeeDouble (s * 2 ^ 63 + 2047 * 2 ^ 52 + (2 ^ 51 + v)) = Cell.nan (decide (s = 1)) true l := by
  have h63 : (2 : ℕ) ^ 63 = 9223372036854775808 := by norm_num
  have h64 : (2 : ℕ) ^ 64 = 18446744073709551616 := by norm_num
  have h52 : (2 : ℕ) ^ 52 = 4503599627370496 := by norm_num
  have h51 : (2 : ℕ) ^ 51 = 2251799813685248 := by norm_num
  have hf : 2 ^ 51 + v < 2 ^ 52 := by rw [h52, h51]; rw [h51] at hv; omega
  have hf0 : ¬ (2 ^ 51 + v = 0) := by rw [h51]; omega
  have hw2 : s * 2 ^ 63 + 2047 * 2 ^ 52 + (2 ^ 51 + v) = v + 2 ^ 51 * (s * 4096 + 4095) := by
    rw [h63, h52, h51]
    omega
  have hq : (s * 2 ^ 63 + 2047 * 2 ^ 52 + (2 ^ 51 + v)) / 2 ^ 51 % 2 = 1 := by
    rw [h51] at hv
    rw [h63, h52, h51]
    omega
  constructor
  · rw [h51] at hv
    rw [h63, h64, h52, h51]
    omega
  · rw [ieeeDouble_special hs hf, if_neg hf0, hq, hw2, hl]
    simp

/-- The word of a `double` fits 64 bits and IEEE 754 gives it the datum back. -/
theorem ieeeDouble_doubleBits (x : Cell) :
    doubleBits x.toDouble < 2 ^ 64 ∧ ieeeDouble (doubleBits x.toDouble) = x.toDouble := by
  have h63 : (2 : ℕ) ^ 63 = 9223372036854775808 := by norm_num
  have h64 : (2 : ℕ) ^ 64 = 18446744073709551616 := by norm_num
  have h52 : (2 : ℕ) ^ 52 = 4503599627370496 := by norm_num
  have h51 : (2 : ℕ) ^ 51 = 2251799813685248 := by norm_num
  have hnz : doubleBits Cell.nzero < 2 ^ 64 ∧ ieeeDouble (doubleBits Cell.nzero) = Cell.nzero := by
    have hw : doubleBits Cell.nzero = 1 * 2 ^ 63 + 0 * 2 ^ 52 + 0 := by
      rw [h63, h52]; rfl
    rw [hw, ieeeDouble_zero (by omega), if_pos rfl, h63, h64, h52]
    exact ⟨by omega, rfl⟩
  have hpi : doubleBits Cell.pinf < 2 ^ 64 ∧ ieeeDouble (doubleBits Cell.pinf) = Cell.pinf := by
    have hw : doubleBits Cell.pinf = 0 * 2 ^ 63 + 2047 * 2 ^ 52 + 0 := by
      rw [h63, h52]; rfl
    rw [hw, ieeeDouble_special (by omega) (by omega), if_pos rfl, if_neg (by omega), h63, h64,
      h52]
    exact ⟨by omega, rfl⟩
  have hni : doubleBits Cell.ninf < 2 ^ 64 ∧ ieeeDouble (doubleBits Cell.ninf) = Cell.ninf := by
    have hw : doubleBits Cell.ninf = 1 * 2 ^ 63 + 2047 * 2 ^ 52 + 0 := by
      rw [h63, h52]; rfl
    rw [hw, ieeeDouble_special (by omega) (by omega), if_pos rfl, if_pos rfl, h63, h64, h52]
    exact ⟨by omega, rfl⟩
  cases x with
  | nzero => exact hnz
  | pinf => exact hpi
  | ninf => exact hni
  | nan neg quiet p =>
    show doubleBits (Cell.nan neg true (padBits 51 p)) < 2 ^ 64 ∧
      ieeeDouble (doubleBits (Cell.nan neg true (padBits 51 p))) = Cell.nan neg true (padBits 51 p)
    have hv := bitsValue_lt (padBits 51 p)
    rw [length_padBits] at hv
    have hnb := natBits_bitsValue (padBits 51 p) ((if neg then 1 else 0) * 4096 + 4095)
    rw [length_padBits] at hnb
    have hs2 : (if neg then 1 else 0) < 2 := by split <;> omega
    have hw : doubleBits (Cell.nan neg true (padBits 51 p))
        = (if neg then 1 else 0) * 2 ^ 63 + 2047 * 2 ^ 52
          + (2 ^ 51 + bitsValue (padBits 51 p)) := by
      simp only [doubleBits, padBits_of_length (length_padBits 51 p), if_true]
      rw [h63, h52, h51]
      split <;> omega
    obtain ⟨h1, h2⟩ := ieeeDouble_nan hs2 hv hnb
    rw [hw]
    refine ⟨h1, ?_⟩
    rw [h2]
    cases neg <;> simp
  | fin q =>
    show doubleBits (if q < 0 ∧ binary64.rval q = 0 then Cell.nzero
        else Cell.ofFP (binary64.round q)) < 2 ^ 64 ∧
      ieeeDouble (doubleBits (if q < 0 ∧ binary64.rval q = 0 then Cell.nzero
        else Cell.ofFP (binary64.round q)))
        = (if q < 0 ∧ binary64.rval q = 0 then Cell.nzero else Cell.ofFP (binary64.round q))
    by_cases hneg : q < 0 ∧ binary64.rval q = 0
    · rw [if_pos hneg]
      exact hnz
    · rw [if_neg hneg]
      unfold Format.round
      by_cases hov : pow2 ((binary64.emax : ℤ) + 1) ≤ |binary64.rval q|
      · rw [if_pos hov]
        by_cases hq : 0 < q
        · rw [if_pos hq]; exact hpi
        · rw [if_neg hq]; exact hni
      · rw [if_neg hov]
        show doubleBits (Cell.fin (binary64.rval q)) < 2 ^ 64 ∧
          ieeeDouble (doubleBits (Cell.fin (binary64.rval q))) = Cell.fin (binary64.rval q)
        by_cases h0 : binary64.rval q = 0
        · rw [h0]
          have hw : doubleBits (Cell.fin 0) = 0 * 2 ^ 63 + 0 * 2 ^ 52 + 0 := by
            simp [doubleBits]
          rw [hw, ieeeDouble_zero (by omega), if_neg (by omega), h64]
          exact ⟨by omega, rfl⟩
        · refine doubleBits_fin (Format.rep_rval (by decide) q) h0 ?_
          rw [pow2_eq] at hov
          have : ((binary64.emax : ℤ) + 1) = 1024 := by decide
          rw [this] at hov
          exact not_le.1 hov

/-- The eight bytes written for an object are its 8-byte double encoding. -/
theorem isDoubleEncoding_encodeDouble (x : Cell) :
    IsDoubleEncoding (encodeDouble x.toDouble) x :=
  ⟨encodeDouble_length _, encodeDouble_lt _, by
    rw [leValue_encodeDouble _ (ieeeDouble_doubleBits x).1]
    exact (ieeeDouble_doubleBits x).2⟩

/-! ## `save` -/

theorem saveLoop_spec (cs : List Stored) :
    ∀ (k i : ℕ) (f : List ℕ), i + k ≤ cs.length →
      saveLoop cs k i f = some (f ++ (((cs.drop i).take k).map fun c =>
        encodeDouble c.1.toDouble ++ encodeDouble c.2.toDouble).flatten) := by
  intro k
  induction k with
  | zero => intro i f _; simp [saveLoop]
  | succ k ih =>
    intro i f h
    have hi : i < cs.length := by omega
    have hget : cs[i]? = some cs[i] := List.getElem?_eq_getElem hi
    have hd : (cs.drop i).take (k + 1) = cs[i] :: (cs.drop (i + 1)).take k := by
      rw [List.drop_eq_getElem_cons hi, List.take_succ_cons]
    simp only [saveLoop, hget]
    rw [ih (i + 1) _ (by omega), hd, List.map_cons, List.flatten_cons, List.append_assoc,
      List.append_assoc]

theorem bytes_length (cs : List Stored) :
    ((cs.map fun c => encodeDouble c.1.toDouble ++ encodeDouble c.2.toDouble).flatten).length
      = 16 * cs.length := by
  induction cs with
  | nil => rfl
  | cons c cs ih =>
    simp only [List.map_cons, List.flatten_cons, List.length_append, encodeDouble_length, ih,
      List.length_cons]
    omega

/-- Where the bytes of sample `i` lie in the file. -/
theorem bytes_drop (cs : List Stored) :
    ∀ i : ℕ, ((cs.map fun c => encodeDouble c.1.toDouble ++ encodeDouble c.2.toDouble).flatten).drop
        (16 * i)
      = (((cs.drop i).map fun c =>
          encodeDouble c.1.toDouble ++ encodeDouble c.2.toDouble).flatten) := by
  induction cs with
  | nil => intro i; simp
  | cons c cs ih =>
    intro i
    cases i with
    | zero => simp
    | succ i =>
      have hl : (encodeDouble c.1.toDouble ++ encodeDouble c.2.toDouble).length = 16 := by
        simp [encodeDouble_length]
      rw [List.map_cons, List.flatten_cons, List.drop_succ_cons,
        show 16 * (i + 1) = 16 + 16 * i by ring, ← List.drop_drop,
        List.drop_left' hl, ih]

theorem bytes_chunks (cs : List Stored) (i : ℕ) (c : Stored) (h : cs[i]? = some c) :
    (((cs.map fun c => encodeDouble c.1.toDouble ++ encodeDouble c.2.toDouble).flatten).drop
        (16 * i)).take 8 = encodeDouble c.1.toDouble ∧
    (((cs.map fun c => encodeDouble c.1.toDouble ++ encodeDouble c.2.toDouble).flatten).drop
        (16 * i + 8)).take 8 = encodeDouble c.2.toDouble := by
  obtain ⟨hi, hc⟩ := List.getElem?_eq_some_iff.1 h
  have hd : cs.drop i = c :: cs.drop (i + 1) := by
    rw [List.drop_eq_getElem_cons hi, hc]
  have h1 := encodeDouble_length c.1.toDouble
  have h2 := encodeDouble_length c.2.toDouble
  constructor
  · rw [bytes_drop, hd, List.map_cons, List.flatten_cons, List.append_assoc,
      List.take_left' h1]
  · rw [← List.drop_drop, bytes_drop, hd, List.map_cons, List.flatten_cons,
      List.append_assoc, List.drop_left' h1, List.take_left' h2]

/-- The bytes written for `-0.0`: only the sign bit is set. -/
theorem encodeDouble_nzero : encodeDouble Cell.nzero.toDouble = [0, 0, 0, 0, 0, 0, 0, 128] := by
  decide

/-- The bytes written for the NaN of an invalid operation of the x87. -/
theorem encodeDouble_nan :
    encodeDouble (Cell.ofFP FP.nan).toDouble = [0, 0, 0, 0, 0, 0, 248, 255] := by
  decide

/-- A negative value below half the smallest subnormal `double` is written as
`-0.0`. -/
theorem toDouble_neg_underflow {q : ℚ} (hq : q < 0) (hs : -(2 : ℚ) ^ (-1075 : ℤ) < q) :
    (Cell.fin q).toDouble = Cell.nzero := by
  have h0 : q ≠ 0 := hq.ne
  have habs : |q| < 2 ^ (-1075 : ℤ) := by
    rw [abs_of_neg hq]
    linarith
  have hlog : ilog2 q < -1075 := ilog2_lt h0 habs
  have hqe : binary64.qexp q = -1074 := by
    rw [binary64_qexp, max_eq_right (by omega)]
    norm_num
  have hp : (0 : ℚ) < 2 ^ (-1074 : ℤ) := two_zpow_pos _
  have hx1 : q / 2 ^ (-1074 : ℤ) < 0 := div_neg_of_neg_of_pos hq hp
  have hx2 : -(1 / 2 : ℚ) < q / 2 ^ (-1074 : ℤ) := by
    rw [lt_div_iff₀ hp]
    have : (2 : ℚ) ^ (-1075 : ℤ) = 1 / 2 * 2 ^ (-1074 : ℤ) := by
      rw [show (-1075 : ℤ) = -1 + -1074 by norm_num, zpow_add₀ (by norm_num : (2 : ℚ) ≠ 0)]
      norm_num
    rw [this] at hs
    generalize (2 : ℚ) ^ (-1074 : ℤ) = A at hs
    linarith
  have hfl : ⌊q / 2 ^ (-1074 : ℤ)⌋ = -1 := by
    rw [Int.floor_eq_iff]
    constructor
    · push_cast; linarith
    · push_cast; linarith
  have hr : roundHalfEven (q / 2 ^ (-1074 : ℤ)) = 0 := by
    unfold roundHalfEven
    rw [hfl]
    have h1 : ¬ (q / 2 ^ (-1074 : ℤ) - ((-1 : ℤ) : ℚ) < 1 / 2) := by
      push_cast; linarith
    have h2 : (1 / 2 : ℚ) < q / 2 ^ (-1074 : ℤ) - ((-1 : ℤ) : ℚ) := by
      push_cast; linarith
    rw [if_neg h1, if_pos h2]
    norm_num
  have hrv : binary64.rval q = 0 := by
    rw [Format.rval_eq, hqe, hr]
    simp
  show (if q < 0 ∧ binary64.rval q = 0 then Cell.nzero else Cell.ofFP (binary64.round q)) = _
  rw [if_pos ⟨hq, hrv⟩]

/-- C2: for `n ≥ 0` and a buffer `cs` of `n` samples, `save` writes a file of
`16 * n` bytes which are, sample after sample in order, the eight bytes of the
real part followed by the eight bytes of the imaginary part, with nothing
before, between or after them; and the eight bytes of a part are its 8-byte
double encoding: read least significant byte first, they are the 64-bit word to
which IEEE 754 gives the datum that the part converts to. -/
theorem save_bytes (n : ℤ) (ext : String) (cs : List Stored) (hn : 0 ≤ n)
    (hlen : cs.length = n.toNat) :
    ∃ f : File, save n ext cs = some f ∧ f.name = fileName n ext ∧
      (f.bytes.length : ℤ) = 16 * n ∧
      f.bytes = (cs.map fun c => encodeDouble c.1.toDouble ++ encodeDouble c.2.toDouble).flatten ∧
      ∀ (i : ℕ) (c : Stored), cs[i]? = some c →
        IsDoubleEncoding ((f.bytes.drop (16 * i)).take 8) c.1 ∧
        IsDoubleEncoding ((f.bytes.drop (16 * i + 8)).take 8) c.2 := by
  have h := saveLoop_spec cs n.toNat 0 [] (by omega)
  rw [List.drop_zero, ← hlen, List.take_length, List.nil_append] at h
  refine ⟨⟨fileName n ext, _⟩, ?_, rfl, ?_, rfl, ?_⟩
  · unfold save
    rw [← hlen, h]
  · simp only [bytes_length, hlen]
    push_cast
    rw [Int.toNat_of_nonneg hn]
  · intro i c hc
    obtain ⟨h1, h2⟩ := bytes_chunks cs i c hc
    simp only [h1, h2]
    exact ⟨isDoubleEncoding_encodeDouble c.1, isDoubleEncoding_encodeDouble c.2⟩

theorem save_bytes_witness :
    (0 : ℤ) ≤ 2 ∧
    [(Cell.fin 1, Cell.nzero), (Cell.fin (-1 / 3), Cell.nan true true [])].length
      = (2 : ℤ).toNat ∧
    ∃ f : File,
      save 2 "out" [(Cell.fin 1, Cell.nzero), (Cell.fin (-1 / 3), Cell.nan true true [])]
        = some f ∧
      f.name = fileName 2 "out" ∧
      (f.bytes.length : ℤ) = 16 * 2 ∧
      f.bytes = (([(Cell.fin 1, Cell.nzero), (Cell.fin (-1 / 3), Cell.nan true true [])] :
        List Stored).map fun c =>
          encodeDouble c.1.toDouble ++ encodeDouble c.2.toDouble).flatten ∧
      ∀ (i : ℕ) (c : Stored),
        [(Cell.fin 1, Cell.nzero), (Cell.fin (-1 / 3), Cell.nan true true [])][i]? = some c →
        IsDoubleEncoding ((f.bytes.drop (16 * i)).take 8) c.1 ∧
        IsDoubleEncoding ((f.bytes.drop (16 * i + 8)).take 8) c.2 :=
  ⟨by norm_num, rfl, save_bytes 2 "out" _ (by norm_num) rfl⟩

/-! ## The sampler: termination and range -/

/-- C5: on a supported platform, for every stream of draws in `0 .. RAND_MAX`,
the loop of `randld` returns within `emax + 1` iterations (any fuel of at least
`emax + 1` is enough), also when every draw is `0`. -/
theorem randld_terminates (F : Format) (RAND_MAX : ℕ) (hS : Supported F RAND_MAX) (s : RandState)
    (hs : ValidDraws RAND_MAX s) (fuel : ℕ) (hfuel : F.emax + 1 ≤ fuel) :
    ∃ (r : FP) (s' : RandState), randld F RAND_MAX fuel s = some (r, s') ∧
      randld F RAND_MAX (F.emax + 1) s = some (r, s') := by
  obtain ⟨v, m, h, _⟩ := randld_spec hS (le_refl _) hs
  refine ⟨FP.fin v, _, ?_, h⟩
  have := randldLoop_fuel_mono F RAND_MAX (F.emax + 1) (fuel - (F.emax + 1)) s _ _ _ h
  rw [show F.emax + 1 + (fuel - (F.emax + 1)) = fuel by omega] at this
  exact this

theorem supported_x87 : Supported x87 2147483647 := by
  unfold Supported Format.Valid x87
  norm_num

theorem randld_terminates_witness :
    Supported x87 2147483647 ∧ ValidDraws 2147483647 (fun _ => 0) ∧ x87.emax + 1 ≤ 16384 ∧
    ∃ (r : FP) (s' : RandState), randld x87 2147483647 16384 (fun _ => 0) = some (r, s') ∧
      randld x87 2147483647 (x87.emax + 1) (fun _ => 0) = some (r, s') :=
  ⟨supported_x87, fun _ => Nat.zero_le _, le_refl _,
    randld_terminates x87 2147483647 supported_x87 (fun _ => 0) (fun _ => Nat.zero_le _) 16384
      (le_refl _)⟩

/-- C4 (as amended): on a supported platform, for every stream of draws in
`0 .. RAND_MAX`, `randld` returns a finite value `r` with
`0 ≤ r ≤ 1 + 4 / RAND_MAX`. -/
theorem randld_range (F : Format) (RAND_MAX : ℕ) (hS : Supported F RAND_MAX) (s : RandState)
    (hs : ValidDraws RAND_MAX s) (fuel : ℕ) (hfuel : F.emax + 1 ≤ fuel) :
    ∃ (r : ℚ) (s' : RandState), randld F RAND_MAX fuel s = some (FP.fin r, s') ∧
      0 ≤ r ∧ r ≤ 1 + 4 / RAND_MAX := by
  obtain ⟨v, m, h, _, h0, h1, _⟩ := randld_spec hS hfuel hs
  exact ⟨v, _, h, h0, le_trans h1 (samplerMax_le RAND_MAX (by have := hS.2.1; omega))⟩

theorem randld_range_witness :
    Supported x87 2147483647 ∧ ValidDraws 2147483647 (fun _ => 12345) ∧ x87.emax + 1 ≤ 16384 ∧
    ∃ (r : ℚ) (s' : RandState),
      randld x87 2147483647 16384 (fun _ => 12345) = some (FP.fin r, s') ∧
      0 ≤ r ∧ r ≤ 1 + 4 / (2147483647 : ℕ) :=
  ⟨supported_x87, fun _ => by norm_num, le_refl _,
    randld_range x87 2147483647 supported_x87 (fun _ => 12345) (fun _ => by norm_num) 16384
      (le_refl _)⟩

/-- C4 (counterexample): with the x87 format and `RAND_MAX = 2147483647`, when
the first draw is `RAND_MAX` and the following ones are `0`, `randld` returns a
value that is not below `1`. -/
theorem randld_not_lt_one :
    ∃ (r : ℚ) (s' : RandState),
      randld x87 2147483647 16384 (fun i => if i = 0 then 2147483647 else 0)
        = some (FP.fin r, s') ∧ ¬ r < 1 := by
  obtain ⟨v, m, h, _, h1, _⟩ :=
    randld_ge_one supported_x87 (show x87.emax + 1 ≤ 16384 from le_refl _)
      (s := fun i => if i = 0 then 2147483647 else 0)
      (fun i => by dsimp only; split <;> omega) rfl
  exact ⟨v, _, h, not_lt.2 h1⟩

/-! ## `generate` -/

/-- C6: on a supported platform, for a buffer `inp` of `n` samples and every
state of the generator, the first loop of `generate` returns a buffer of `n`
samples whose sample `i` is `(-0.5 + s (2 * i), -0.5 + s (2 * i + 1))`, where
`s 0, s 1, ...` are the results of the successive calls of `randld` from that
state. -/
theorem generateFill_samples (F : Format) (RAND_MAX : ℕ) (hS : Supported F RAND_MAX) (fuel : ℕ)
    (hfuel : F.emax + 1 ≤ fuel) (n : ℕ) (inp : List Sample) (hlen : inp.length = n)
    (s : RandState) (hs : ValidDraws RAND_MAX s) :
    ∃ (inp' : List Sample) (s' : RandState),
      generateFill F RAND_MAX fuel n 0 inp s = some (inp', s') ∧ inp'.length = n ∧
      ∀ i, i < n → ∃ a b : FP,
        randldNth F RAND_MAX fuel (2 * i) s = some a ∧
        randldNth F RAND_MAX fuel (2 * i + 1) s = some b ∧
        inp'[i]? = some (FP.add F (minusHalf F) a, FP.add F (minusHalf F) b) := by
  obtain ⟨inp', s', h, hl, _, _, hfill⟩ :=
    generateFill_spec hS hfuel n 0 inp s hs (by omega)
  refine ⟨inp', s', h, by omega, fun i hi => ?_⟩
  obtain ⟨a, b, ha, hb, hab⟩ := hfill i hi
  exact ⟨a, b, ha, hb, by simpa using hab⟩

theorem generateFill_samples_witness :
    Supported x87 2147483647 ∧ x87.emax + 1 ≤ 16384 ∧
    [(FP.nan, FP.nan), (FP.nan, FP.nan)].length = 2 ∧
    ValidDraws 2147483647 (fun i => 1000 * i % 2147483648) ∧
    ∃ (inp' : List Sample) (s' : RandState),
      generateFill x87 2147483647 16384 2 0 [(FP.nan, FP.nan), (FP.nan, FP.nan)]
        (fun i => 1000 * i % 2147483648) = some (inp', s') ∧ inp'.length = 2 ∧
      ∀ i, i < 2 → ∃ a b : FP,
        randldNth x87 2147483647 16384 (2 * i) (fun i => 1000 * i % 2147483648) = some a ∧
        randldNth x87 2147483647 16384 (2 * i + 1) (fun i => 1000 * i % 2147483648) = some b ∧
        inp'[i]? = some (FP.add x87 (minusHalf x87) a, FP.add x87 (minusHalf x87) b) :=
  ⟨supported_x87, le_refl _, rfl, fun i => Nat.le_of_lt_succ (Nat.mod_lt _ (by norm_num)),
    generateFill_samples x87 2147483647 supported_x87 16384 (le_refl _) 2
      [(FP.nan, FP.nan), (FP.nan, FP.nan)] rfl (fun i => 1000 * i % 2147483648)
      (fun i => Nat.le_of_lt_succ (Nat.mod_lt _ (by norm_num)))⟩

/-- C3 (as amended): on a supported platform, for a buffer of `n` samples and
every state of the generator, every real and every imaginary component that the
first loop of `generate` stores is finite and lies in
`[-0.5, 0.5 + 4 / RAND_MAX]`. -/
theorem generateFill_range (F : Format) (RAND_MAX : ℕ) (hS : Supported F RAND_MAX) (fuel : ℕ)
    (hfuel : F.emax + 1 ≤ fuel) (n : ℕ) (inp : List Sample) (hlen : inp.length = n)
    (s : RandState) (hs : ValidDraws RAND_MAX s) :
    ∃ (inp' : List Sample) (s' : RandState),
      generateFill F RAND_MAX fuel n 0 inp s = some (inp', s') ∧ inp'.length = n ∧
      ∀ i, i < n → ∃ re im : ℚ, inp'[i]? = some (FP.fin re, FP.fin im) ∧
        -1 / 2 ≤ re ∧ re ≤ 1 / 2 + 4 / RAND_MAX ∧ -1 / 2 ≤ im ∧ im ≤ 1 / 2 + 4 / RAND_MAX := by
  obtain ⟨inp', s', h, hl, _, _, hfill⟩ :=
    generateFill_spec hS hfuel n 0 inp s hs (by omega)
  refine ⟨inp', s', h, by omega, fun i hi => ?_⟩
  obtain ⟨a, b, ha, hb, hab⟩ := hfill i hi
  obtain ⟨va, ha', ha0, ha1⟩ := randldNth_spec hS hfuel (2 * i) s hs
  obtain ⟨vb, hb', hb0, hb1⟩ := randldNth_spec hS hfuel (2 * i + 1) s hs
  rw [ha'] at ha
  rw [hb'] at hb
  cases ha
  cases hb
  obtain ⟨re, hre, hre0, hre1, _⟩ := add_minusHalf hS ha0 ha1
  obtain ⟨im, him, him0, him1, _⟩ := add_minusHalf hS hb0 hb1
  refine ⟨re, im, ?_, hre0, hre1, him0, him1⟩
  rw [← hre, ← him]
  simpa using hab

theorem generateFill_range_witness :
    Supported x87 2147483647 ∧ x87.emax + 1 ≤ 16384 ∧
    [(FP.nan, FP.nan), (FP.nan, FP.nan)].length = 2 ∧
    ValidDraws 2147483647 (fun i => 1000 * i % 2147483648) ∧
    ∃ (inp' : List Sample) (s' : RandState),
      generateFill x87 2147483647 16384 2 0 [(FP.nan, FP.nan), (FP.nan, FP.nan)]
        (fun i => 1000 * i % 2147483648) = some (inp', s') ∧ inp'.length = 2 ∧
      ∀ i, i < 2 → ∃ re im : ℚ, inp'[i]? = some (FP.fin re, FP.fin im) ∧
        -1 / 2 ≤ re ∧ re ≤ 1 / 2 + 4 / (2147483647 : ℕ) ∧
        -1 / 2 ≤ im ∧ im ≤ 1 / 2 + 4 / (2147483647 : ℕ) :=
  ⟨supported_x87, le_refl _, rfl, fun i => Nat.le_of_lt_succ (Nat.mod_lt _ (by norm_num)),
    generateFill_range x87 2147483647 supported_x87 16384 (le_refl _) 2
      [(FP.nan, FP.nan), (FP.nan, FP.nan)] rfl (fun i => 1000 * i % 2147483648)
      (fun i => Nat.le_of_lt_succ (Nat.mod_lt _ (by norm_num)))⟩

/-- A single iteration of the first loop of `generate`. -/
theorem generateFill_one (F : Format) (RAND_MAX fuel : ℕ) (inp : List Sample) (s s1 s2 : RandState)
    (x y : FP) (h1 : randld F RAND_MAX fuel s = some (x, s1))
    (h2 : randld F RAND_MAX fuel s1 = some (y, s2)) (hi : 0 < inp.length) :
    generateFill F RAND_MAX fuel 1 0 inp s
      = some (inp.set 0 (FP.add F (minusHalf F) x, FP.add F (minusHalf F) y), s2) := by
  simp only [generateFill, h1, h2, if_pos hi]

/-- C3 (counterexample): with the x87 format and `RAND_MAX = 2147483647`, for
`n = 1`, when the first draw is `RAND_MAX` and the following ones are `0`, the
real component that `generate` stores is not below `0.5`. -/
theorem generateFill_not_lt_half :
    ∃ (inp' : List Sample) (s' : RandState) (re : ℚ) (im : FP),
      generateFill x87 2147483647 16384 1 0 [(FP.fin 0, FP.fin 0)]
        (fun i => if i = 0 then 2147483647 else 0) = some (inp', s') ∧
      inp'[0]? = some (FP.fin re, im) ∧ ¬ re < 1 / 2 := by
  have hs : ValidDraws 2147483647 (fun i => if i = 0 then 2147483647 else 0) :=
    fun i => by dsimp only; split <;> omega
  obtain ⟨v, m, h, _, h1, h2⟩ :=
    randld_ge_one supported_x87 (show x87.emax + 1 ≤ 16384 from le_refl _) hs rfl
  obtain ⟨v2, m2, h', _⟩ := randld_spec supported_x87 (show x87.emax + 1 ≤ 16384 from le_refl _) (hs.tail m)
  obtain ⟨c, hc, _, _, hc1⟩ := add_minusHalf supported_x87 (le_trans zero_le_one h1) h2
  have hg := generateFill_one x87 2147483647 16384 [(FP.fin 0, FP.fin 0)] _ _ _ _ _ h h'
    (by simp)
  rw [hc] at hg
  exact ⟨_, _, c, _, hg, rfl, not_lt.2 (hc1 h1)⟩

/-- For `n = 0` the first loop of `generate` does nothing and the outcome of
`generate` is the outcome of the call of the library on empty buffers. -/
theorem generate_zero (F : Format) (RAND_MAX fuel : ℕ) (fftw : Fftw) (inp : List Sample)
    (out : List Stored) (s : RandState) :
    generate F RAND_MAX fuel fftw 0 inp out s =
      (fftw 0 (inp.map store) out).map fun p => (p.1, p.2, s) := by
  unfold generate
  simp only [Int.toNat_zero, generateFill]
  cases fftw 0 (inp.map store) out <;> rfl

/-! ## One run of the program -/

theorem length_fftwl_malloc (mem : ℕ → Sample) (n : ℤ) : (fftwl_malloc mem n).length = n.toNat := by
  simp [fftwl_malloc]

theorem testCase_congr (F : Format) (RAND_MAX fuel : ℕ) (fftw : Fftw) (hf : fftw.IgnoresOutput)
    (m1 m2 m1' m2' : ℕ → Sample) (n : ℤ) (s : RandState) :
    testCase F RAND_MAX fuel fftw m1 m2 n s = testCase F RAND_MAX fuel fftw m1' m2' n s := by
  have hfill := generateFill_congr F RAND_MAX fuel n.toNat 0 (fftwl_malloc m1 n)
    (fftwl_malloc m1' n) s (by rw [length_fftwl_malloc, length_fftwl_malloc])
    (by rw [length_fftwl_malloc]; omega) (fun j hj => absurd hj (Nat.not_lt_zero j))
  have hgen : generate F RAND_MAX fuel fftw n (fftwl_malloc m1 n) ((fftwl_malloc m2 n).map store) s
      = generate F RAND_MAX fuel fftw n (fftwl_malloc m1' n) ((fftwl_malloc m2' n).map store)
          s := by
    unfold generate
    rw [hfill]
    cases generateFill F RAND_MAX fuel n.toNat 0 (fftwl_malloc m1' n) s with
    | none => rfl
    | some p =>
      simp only
      rw [hf n (p.1.map store) ((fftwl_malloc m2 n).map store) ((fftwl_malloc m2' n).map store)
        (by rw [List.length_map, List.length_map, length_fftwl_malloc, length_fftwl_malloc])]
  unfold testCase
  rw [hgen]

/-! ## The iterations of `randld` in closed form -/

theorem scaleFrom_mul (F : Format) (RAND_MAX : ℕ) (d : FP) (k : ℕ) :
    scaleFrom F RAND_MAX (FP.mul F d (FP.ofInt F (RAND_MAX : ℤ))) k
      = scaleFrom F RAND_MAX d (k + 1) := by
  induction k with
  | zero => rfl
  | succ k ih =>
    show FP.mul F (scaleFrom F RAND_MAX (FP.mul F d (FP.ofInt F (RAND_MAX : ℤ))) k) _ = _
    rw [ih]
    rfl

theorem accFrom_step (F : Format) (RAND_MAX : ℕ) (s : RandState) (r d : FP) (k : ℕ) :
    accFrom F RAND_MAX (rand s).2 (FP.add F r (FP.div F (FP.ofInt F ((rand s).1 : ℤ)) d))
        (FP.mul F d (FP.ofInt F (RAND_MAX : ℤ))) k
      = accFrom F RAND_MAX s r d (k + 1) := by
  induction k with
  | zero => rfl
  | succ k ih =>
    show FP.add F (accFrom F RAND_MAX (rand s).2 _ _ k) (FP.div F _ (scaleFrom F RAND_MAX _ k)) = _
    rw [ih, scaleFrom_mul]
    rfl

/-- The loop of `randld` returns in the first iteration in which its test
succeeds, with the accumulator of that iteration, having consumed one draw per
iteration. -/
theorem randldLoop_first (F : Format) (RAND_MAX : ℕ) :
    ∀ (fuel : ℕ) (s : RandState) (r d : FP) (res : FP × RandState),
      randldLoop F RAND_MAX fuel s r d = some res →
      ∃ m, 1 ≤ m ∧ m ≤ fuel ∧
        res = (accFrom F RAND_MAX s r d m, fun i => s (i + m)) ∧
        FP.eq (FP.add F (accFrom F RAND_MAX s r d m)
          (FP.div F (FP.ofInt F 1) (scaleFrom F RAND_MAX d (m - 1))))
          (accFrom F RAND_MAX s r d m) = true ∧
        ∀ j, 1 ≤ j → j < m →
          FP.eq (FP.add F (accFrom F RAND_MAX s r d j)
            (FP.div F (FP.ofInt F 1) (scaleFrom F RAND_MAX d (j - 1))))
            (accFrom F RAND_MAX s r d j) = false := by
  intro fuel
  induction fuel with
  | zero => intro s r d res h; simp [randldLoop] at h
  | succ fuel ih =>
    intro s r d res h
    unfold randldLoop at h
    simp only at h
    split at h
    · rename_i ht
      refine ⟨1, le_rfl, by omega, ?_, ht, fun j h1 h2 => by omega⟩
      cases h
      rfl
    · rename_i ht
      obtain ⟨m, hm1, hm2, hres, htest, hfirst⟩ := ih _ _ _ _ h
      refine ⟨m + 1, by omega, by omega, ?_, ?_, ?_⟩
      · rw [hres, accFrom_step]
        rfl
      · rw [accFrom_step, scaleFrom_mul] at htest
        rw [show m + 1 - 1 = (m - 1) + 1 by omega]
        exact htest
      · intro j hj1 hj2
        rcases Nat.eq_or_lt_of_le hj1 with h1 | h1
        · subst h1
          simpa using ht
        · have := hfirst (j - 1) (by omega) (by omega)
          rw [accFrom_step, scaleFrom_mul] at this
          rw [show j - 1 + 1 = j by omega] at this
          rw [show j - 1 = (j - 1 - 1) + 1 by omega]
          exact this

/-- C14: on a supported platform, for every stream of draws in `0 .. RAND_MAX`,
`randld` (which starts with `r = 0` and `d = RAND_MAX`) returns in the first
iteration `m` in which adding `1 / d` to `r` leaves `r` unchanged; it has then
consumed exactly `m` draws and it returns the sum
`a_1 / RAND_MAX + ... + a_m / RAND_MAX ^ m`, the quotients, the powers and the
additions being computed in the accumulating type. -/
theorem randld_first_convergence (F : Format) (RAND_MAX : ℕ) (hS : Supported F RAND_MAX)
    (s : RandState) (hs : ValidDraws RAND_MAX s) (fuel : ℕ) (hfuel : F.emax + 1 ≤ fuel) :
    ∃ m, 1 ≤ m ∧
      randld F RAND_MAX fuel s = some (randldSum F RAND_MAX s m, fun i => s (i + m)) ∧
      randldDone F RAND_MAX s m = true ∧
      ∀ j, 1 ≤ j → j < m → randldDone F RAND_MAX s j = false := by
  obtain ⟨v, m0, h, _⟩ := randld_spec hS hfuel hs
  obtain ⟨m, hm1, _, hres, htest, hfirst⟩ := randldLoop_first F RAND_MAX fuel s _ _ _ h
  refine ⟨m, hm1, ?_, htest, hfirst⟩
  rw [h, hres]
  rfl

theorem randld_first_convergence_witness :
    Supported x87 2147483647 ∧ ValidDraws 2147483647 (fun i => 7 * i % 2147483648) ∧
    x87.emax + 1 ≤ 16384 ∧
    ∃ m, 1 ≤ m ∧
      randld x87 2147483647 16384 (fun i => 7 * i % 2147483648)
        = some (randldSum x87 2147483647 (fun i => 7 * i % 2147483648) m,
            fun i => (fun i => 7 * i % 2147483648) (i + m)) ∧
      randldDone x87 2147483647 (fun i => 7 * i % 2147483648) m = true ∧
      ∀ j, 1 ≤ j → j < m → randldDone x87 2147483647 (fun i => 7 * i % 2147483648) j = false :=
  ⟨supported_x87, fun i => Nat.le_of_lt_succ (Nat.mod_lt _ (by norm_num)), le_refl _,
    randld_first_convergence x87 2147483647 supported_x87 (fun i => 7 * i % 2147483648)
      (fun i => Nat.le_of_lt_succ (Nat.mod_lt _ (by norm_num))) 16384 (le_refl _)⟩

/-! ## The generated samples as a list -/

theorem generateFill_eq_generated (F : Format) (RAND_MAX fuel : ℕ) :
    ∀ (k i : ℕ) (inp : List Sample) (s : RandState), i + k ≤ inp.length →
      generateFill F RAND_MAX fuel k i inp s
        = (generated F RAND_MAX fuel k s).map
            fun p => (inp.take i ++ p.1 ++ inp.drop (i + k), p.2) := by
  intro k
  induction k with
  | zero =>
    intro i inp s _
    simp [generateFill, generated]
  | succ k ih =>
    intro i inp s hlen
    have hi : i < inp.length := by omega
    simp only [generateFill, generated]
    cases h1 : randld F RAND_MAX fuel s with
    | none => rfl
    | some p1 =>
      obtain ⟨x, s1⟩ := p1
      simp only
      cases h2 : randld F RAND_MAX fuel s1 with
      | none => rfl
      | some p2 =>
        obtain ⟨y, s2⟩ := p2
        simp only [if_pos hi]
        rw [ih (i + 1) _ s2 (by rw [List.length_set]; omega)]
        cases generated F RAND_MAX fuel k s2 with
        | none => rfl
        | some p3 =>
          obtain ⟨ys, s3⟩ := p3
          simp only [Option.map_some']
          congr 2
          rw [List.set_eq_take_append_cons_drop, if_pos hi]
          have h3 : (List.take i inp).length = i := by rw [List.length_take]; omega
          rw [List.take_append_eq_append_take, List.drop_append_eq_append_drop, h3]
          simp [List.take_take, show i + 1 - i = 1 by omega, show i + 1 + k - i = k + 1 by omega,
            show i + (k + 1) = k + (i + 1) by omega, List.drop_drop,
            List.take_of_length_le (show (List.take i inp).length ≤ i + 1 by omega),
            List.drop_of_length_le (show (List.take i inp).length ≤ i + 1 + k by omega)]
          rw [Nat.add_comm k (i + 1)]



theorem generateFill_full (F : Format) (RAND_MAX fuel : ℕ) (k : ℕ) (inp : List Sample)
    (s : RandState) (hlen : inp.length = k) :
    generateFill F RAND_MAX fuel k 0 inp s = generated F RAND_MAX fuel k s := by
  rw [generateFill_eq_generated F RAND_MAX fuel k 0 inp s (by omega)]
  cases generated F RAND_MAX fuel k s with
  | none => rfl
  | some p =>
    simp only [Option.map_some', List.take_zero, List.nil_append, Nat.zero_add]
    rw [List.drop_of_length_le (by omega), List.append_nil]

theorem generated_append (F : Format) (RAND_MAX fuel : ℕ) (b : ℕ) :
    ∀ (a : ℕ) (s : RandState),
      generated F RAND_MAX fuel (a + b) s =
        match generated F RAND_MAX fuel a s with
        | none => none
        | some (ya, s1) => (generated F RAND_MAX fuel b s1).map fun p => (ya ++ p.1, p.2) := by
  intro a
  induction a with
  | zero =>
    intro s
    simp only [Nat.zero_add, generated, List.nil_append]
    cases generated F RAND_MAX fuel b s <;> rfl
  | succ a ih =>
    intro s
    rw [show a + 1 + b = (a + b) + 1 by omega]
    simp only [generated]
    cases randld F RAND_MAX fuel s with
    | none => rfl
    | some p1 =>
      obtain ⟨x, s1⟩ := p1
      simp only
      cases randld F RAND_MAX fuel s1 with
      | none => rfl
      | some p2 =>
        obtain ⟨y, s2⟩ := p2
        simp only
        rw [ih s2]
        cases generated F RAND_MAX fuel a s2 with
        | none => rfl
        | some p3 =>
          obtain ⟨ya, s3⟩ := p3
          simp only
          cases generated F RAND_MAX fuel b s3 <;> rfl

/-- C15: on a supported platform, for every state of the generator and all
sizes `a` and `b`, the input sequence of a case of size `a` followed by the
input sequence of a case of size `b`, generated from the state the first case
leaves, is the input sequence of one case of size `a + b` generated from the
starting state, and both ways leave the generator in the same state. -/
theorem generateFill_concat (F : Format) (RAND_MAX : ℕ) (hS : Supported F RAND_MAX) (fuel : ℕ)
    (hfuel : F.emax + 1 ≤ fuel) (a b : ℕ) (bufA bufB bufAB : List Sample)
    (hA : bufA.length = a) (hB : bufB.length = b) (hAB : bufAB.length = a + b)
    (s : RandState) (hs : ValidDraws RAND_MAX s) :
    ∃ (xa xb : List Sample) (s1 s2 : RandState),
      generateFill F RAND_MAX fuel a 0 bufA s = some (xa, s1) ∧
      generateFill F RAND_MAX fuel b 0 bufB s1 = some (xb, s2) ∧
      generateFill F RAND_MAX fuel (a + b) 0 bufAB s = some (xa ++ xb, s2) := by
  obtain ⟨xa, s1, h1, _, hs1, _, _⟩ := generateFill_spec hS hfuel a 0 bufA s hs (by omega)
  obtain ⟨xb, s2, h2, _, _, _, _⟩ := generateFill_spec hS hfuel b 0 bufB s1 hs1 (by omega)
  refine ⟨xa, xb, s1, s2, h1, h2, ?_⟩
  rw [generateFill_full F RAND_MAX fuel a bufA s hA] at h1
  rw [generateFill_full F RAND_MAX fuel b bufB s1 hB] at h2
  rw [generateFill_full F RAND_MAX fuel (a + b) bufAB s hAB, generated_append, h1]
  simp only [h2, Option.map_some']

theorem generateFill_concat_witness :
    Supported x87 2147483647 ∧ x87.emax + 1 ≤ 16384 ∧
    [(FP.nan, FP.nan)].length = 1 ∧ [(FP.nan, FP.nan), (FP.nan, FP.nan)].length = 2 ∧
    [(FP.nan, FP.nan), (FP.nan, FP.nan), (FP.nan, FP.nan)].length = 1 + 2 ∧
    ValidDraws 2147483647 (fun i => 7 * i % 2147483648) ∧
    ∃ (xa xb : List Sample) (s1 s2 : RandState),
      generateFill x87 2147483647 16384 1 0 [(FP.nan, FP.nan)]
        (fun i => 7 * i % 2147483648) = some (xa, s1) ∧
      generateFill x87 2147483647 16384 2 0 [(FP.nan, FP.nan), (FP.nan, FP.nan)] s1
        = some (xb, s2) ∧
      generateFill x87 2147483647 16384 (1 + 2) 0
        [(FP.nan, FP.nan), (FP.nan, FP.nan), (FP.nan, FP.nan)]
        (fun i => 7 * i % 2147483648) = some (xa ++ xb, s2) :=
  ⟨supported_x87, le_refl _, rfl, rfl, rfl,
    fun i => Nat.le_of_lt_succ (Nat.mod_lt _ (by norm_num)),
    generateFill_concat x87 2147483647 supported_x87 16384 (le_refl _) 1 2
      [(FP.nan, FP.nan)] [(FP.nan, FP.nan), (FP.nan, FP.nan)]
      [(FP.nan, FP.nan), (FP.nan, FP.nan), (FP.nan, FP.nan)] rfl rfl rfl
      (fun i => 7 * i % 2147483648) (fun i => Nat.le_of_lt_succ (Nat.mod_lt _ (by norm_num)))⟩

/-! ## Decimal digits: printing and reading back -/

theorem digitVal_digitChar {d : ℕ} (hd : d < 10) : digitVal (Nat.digitChar d) = some d := by
  interval_cases d <;> decide

theorem isspace_digitChar {d : ℕ} (hd : d < 10) : isspace (Nat.digitChar d) = false := by
  interval_cases d <;> decide

theorem digitChar_not_sign {d : ℕ} (hd : d < 10) :
    Nat.digitChar d ≠ '-' ∧ Nat.digitChar d ≠ '+' ∧ Nat.digitChar d ≠ '.' := by
  interval_cases d <;> decide

theorem digitChar_eq_zero {d : ℕ} (hd : d < 10) (h : Nat.digitChar d = '0') : d = 0 := by
  interval_cases d <;> first | rfl | (exact absurd h (by decide))

theorem digitChar_pos {d : ℕ} (hd : d < 10) (h0 : d ≠ 0) :
    '1' ≤ Nat.digitChar d ∧ Nat.digitChar d ≤ '9' := by
  interval_cases d <;> first | (exact absurd rfl h0) | decide

theorem digitVal_of_isspace {c : Char} (h : isspace c = true) : digitVal c = none := by
  simp only [isspace, decide_eq_true_eq] at h
  rcases h with h | h | h | h | h | h <;> subst h <;> decide

theorem not_x_of_isspace {c : Char} (h : isspace c = true) : ¬ (c = 'x' ∨ c = 'X') := by
  simp only [isspace, decide_eq_true_eq] at h
  rcases h with h | h | h | h | h | h <;> subst h <;> decide

theorem scanDigits_of_noDigitAhead {rest : List Char} (h : NoDigitAhead rest) (acc : ℕ) :
    scanDigits 10 rest acc = (acc, rest) := by
  cases rest with
  | nil => rfl
  | cons c t =>
    unfold scanDigits
    cases hv : digitVal c with
    | none => rfl
    | some v => simp only [if_neg (h c t rfl v hv)]

/-- The digits that `toDigitsCore` puts in front of `ds`: they are decimal
digits, reading them back continues the number read so far, and they start with
`0` only for the number `0`. -/
theorem toDigitsCore_spec :
    ∀ (fuel n : ℕ) (ds : List Char), n < fuel →
      ∃ l : List Char, Nat.toDigitsCore 10 fuel n ds = l ++ ds ∧ l ≠ [] ∧
        (∀ c ∈ l, ∃ d, d < 10 ∧ c = Nat.digitChar d) ∧
        (∀ (acc : ℕ) (rest : List Char),
          scanDigits 10 (l ++ rest) acc = scanDigits 10 rest (acc * 10 ^ l.length + n)) ∧
        (l.head? = some '0' → n = 0) := by
  intro fuel
  induction fuel with
  | zero => intro n ds h; omega
  | succ fuel ih =>
    intro n ds hn
    have hmod : n % 10 < 10 := Nat.mod_lt _ (by norm_num)
    unfold Nat.toDigitsCore
    simp only
    by_cases h0 : n / 10 = 0
    · rw [if_pos h0]
      have hlt : n < 10 := by omega
      have hmn : n % 10 = n := Nat.mod_eq_of_lt hlt
      refine ⟨[Nat.digitChar (n % 10)], rfl, by simp, ?_, ?_, ?_⟩
      · intro c hc
        simp only [List.mem_singleton] at hc
        exact ⟨n % 10, hmod, hc⟩
      · intro acc rest
        show scanDigits 10 (Nat.digitChar (n % 10) :: rest) acc = _
        rw [scanDigits, digitVal_digitChar hmod]
        simp only [if_pos hmod, List.length_singleton, pow_one]
        rw [hmn]
      · intro h
        simp only [List.head?_cons, Option.some.injEq] at h
        have := digitChar_eq_zero hmod h
        omega
    · rw [if_neg h0]
      obtain ⟨l, hl, hne, hdig, hscan, hhead⟩ :=
        ih (n / 10) (Nat.digitChar (n % 10) :: ds) (by omega)
      refine ⟨l ++ [Nat.digitChar (n % 10)], ?_, by simp, ?_, ?_, ?_⟩
      · rw [hl]; simp
      · intro c hc
        rcases List.mem_append.1 hc with hc | hc
        · exact hdig c hc
        · simp only [List.mem_singleton] at hc
          exact ⟨n % 10, hmod, hc⟩
      · intro acc rest
        rw [List.append_assoc, hscan]
        show scanDigits 10 (Nat.digitChar (n % 10) :: rest) _ = _
        rw [scanDigits, digitVal_digitChar hmod]
        simp only [if_pos hmod, List.length_append, List.length_singleton]
        congr 1
        have := Nat.div_add_mod n 10
        rw [pow_succ]
        nlinarith
      · intro h
        rw [List.head?_append_of_ne_nil _ hne] at h
        exact absurd (hhead h) h0

theorem toDigits_spec (n : ℕ) :
    Nat.toDigits 10 n ≠ [] ∧
      (∀ c ∈ Nat.toDigits 10 n, ∃ d, d < 10 ∧ c = Nat.digitChar d) ∧
      (∀ (acc : ℕ) (rest : List Char),
        scanDigits 10 (Nat.toDigits 10 n ++ rest) acc
          = scanDigits 10 rest (acc * 10 ^ (Nat.toDigits 10 n).length + n)) ∧
      ((Nat.toDigits 10 n).head? = some '0' → n = 0) := by
  obtain ⟨l, hl, hne, hdig, hscan, hhead⟩ := toDigitsCore_spec (n + 1) n [] (by omega)
  have : Nat.toDigits 10 n = l := by
    unfold Nat.toDigits
    rw [hl, List.append_nil]
  rw [this]
  exact ⟨hne, hdig, hscan, hhead⟩

/-- Reading back the decimal digits of `n` gives `n`. -/
theorem scanDigits_toDigits (n : ℕ) {rest : List Char} (h : NoDigitAhead rest) :
    scanDigits 10 (Nat.toDigits 10 n ++ rest) 0 = (n, rest) := by
  rw [(toDigits_spec n).2.2.1, scanDigits_of_noDigitAhead h]
  simp

theorem toDigits_injective {a b : ℕ} (h : Nat.toDigits 10 a = Nat.toDigits 10 b) : a = b := by
  have ha := scanDigits_toDigits a (show NoDigitAhead [] from fun c t h => by cases h)
  have hb := scanDigits_toDigits b (show NoDigitAhead [] from fun c t h => by cases h)
  rw [h, hb] at ha
  exact (Prod.mk.inj ha).1.symm

theorem toDigits_length_le (n : ℕ) (h : n ≤ 2147483648) : (Nat.toDigits 10 n).length ≤ 10 :=
  Nat.toDigitsCore_length 10 (by norm_num) (n + 1) n 10 (by omega) (by norm_num)

/-- The first character of the decimal digits of `n`. -/
theorem toDigits_head (n : ℕ) :
    ∃ (c : Char) (t : List Char) (d : ℕ), Nat.toDigits 10 n = c :: t ∧ d < 10 ∧
      c = Nat.digitChar d ∧ (c = '0' → n = 0) := by
  obtain ⟨hne, hdig, _, hhead⟩ := toDigits_spec n
  cases hl : Nat.toDigits 10 n with
  | nil => exact absurd hl hne
  | cons c t =>
    obtain ⟨d, hd, hc⟩ := hdig c (by rw [hl]; simp)
    refine ⟨c, t, d, rfl, hd, hc, fun h0 => hhead ?_⟩
    rw [hl, h0]
    rfl

/-! ## `fscanf` on a stream of decimal integers -/

theorem skipSpace_spaces {w : List Char} (hw : ∀ c ∈ w, isspace c = true) :
    skipSpace w = ⟨[], true⟩ := by
  induction w with
  | nil => rfl
  | cons c t ih =>
    unfold skipSpace
    rw [if_pos (hw c (by simp))]
    exact ih fun c hc => hw c (by simp [hc])

theorem skipSpace_append {w : List Char} (hw : ∀ c ∈ w, isspace c = true) {c : Char}
    (hc : isspace c = false) (t : List Char) : skipSpace (w ++ c :: t) = ⟨c :: t, false⟩ := by
  induction w with
  | nil =>
    show skipSpace (c :: t) = _
    unfold skipSpace
    rw [if_neg (by simp [hc])]
  | cons a u ih =>
    show skipSpace (a :: (u ++ c :: t)) = _
    unfold skipSpace
    rw [if_pos (hw a (by simp))]
    exact ih fun c hc => hw c (by simp [hc])

/-- The conversion `%i` reads the decimal digits of `n` as `n` when the end of
the input or white space follows them. -/
theorem scanInt_toDigits (n : ℕ) {rest : List Char}
    (hrest : rest = [] ∨ ∃ c t, rest = c :: t ∧ isspace c = true) :
    scanInt (Nat.toDigits 10 n ++ rest) = Scan.value (n : ℤ) rest := by
  have hno : NoDigitAhead rest := by
    intro c t h v hv
    rcases hrest with h0 | ⟨c', t', h1, hsp⟩
    · rw [h0] at h; cases h
    · rw [h1] at h
      cases h
      rw [digitVal_of_isspace hsp] at hv
      cases hv
  obtain ⟨c, t, d, hl, hd, hc, hzero⟩ := toDigits_head n
  obtain ⟨hm, hp, _⟩ := digitChar_not_sign hd
  have hscan := scanDigits_toDigits n hno
  rw [hl] at hscan ⊢
  show scanInt (c :: (t ++ rest)) = _
  unfold scanInt
  simp only [if_neg (hc ▸ hm), if_neg (hc ▸ hp)]
  unfold scanMagnitude
  simp only
  by_cases h0 : c = '0'
  · have hn0 := hzero h0
    subst hn0
    have ht : t = [] := by
      have : Nat.toDigits 10 0 = ['0'] := by decide
      rw [this] at hl
      exact (List.cons.inj hl).2.symm
    subst ht
    rw [if_pos h0]
    rcases hrest with h1 | ⟨x, u, h1, hsp⟩
    · subst h1
      rfl
    · subst h1
      simp only [List.nil_append, if_neg (not_x_of_isspace hsp)]
      have : scanDigits 8 (x :: u) 0 = (0, x :: u) := by
        unfold scanDigits
        rw [digitVal_of_isspace hsp]
      rw [this]
  · rw [if_neg h0]
    have hd0 : d ≠ 0 := by
      intro h
      subst h
      exact h0 hc
    have := digitChar_pos hd hd0
    rw [← hc] at this
    rw [if_pos this]
    show Scan.value (scanDigits 10 (c :: t ++ rest) 0).1 (scanDigits 10 (c :: t ++ rest) 0).2 = _
    rw [hscan]

/-- The call of `fscanf` on an input that starts with white space, the decimal
digits of `n` and white space: `n` is assigned and the white space after it is
skipped. -/
theorem fscanf_decimal (n : ℕ) (hn : n ≤ 2147483647) {w0 w more : List Char}
    (hw0 : ∀ c ∈ w0, isspace c = true) (hw : ∀ c ∈ w, isspace c = true)
    (hsep : w ≠ [] ∨ more = []) :
    fscanf ⟨w0 ++ (Nat.toDigits 10 n ++ (w ++ more)), false⟩
      = some (some (n : ℤ), skipSpace (w ++ more)) := by
  obtain ⟨c, t, d, hl, hd, hc, _⟩ := toDigits_head n
  have hrest : w ++ more = [] ∨ ∃ c t, w ++ more = c :: t ∧ isspace c = true := by
    cases w with
    | nil =>
      left
      rcases hsep with h | h
      · exact absurd rfl h
      · simp [h]
    | cons a u => exact Or.inr ⟨a, u ++ more, rfl, hw a (by simp)⟩
  have hskip : skipSpace (w0 ++ (Nat.toDigits 10 n ++ (w ++ more)))
      = ⟨Nat.toDigits 10 n ++ (w ++ more), false⟩ := by
    rw [hl]
    exact skipSpace_append hw0 (hc ▸ isspace_digitChar hd) _
  have hint := scanInt_toDigits n hrest
  unfold fscanf
  simp only [hskip]
  rw [hl] at hint ⊢
  rw [List.cons_append] at hint
  simp only [List.cons_append, hint]
  rw [if_pos ⟨by omega, by omega⟩]

theorem inputText_head (p : ℕ × List Char) (rest : List (ℕ × List Char)) :
    ∃ c t, inputText (p :: rest) = c :: t ∧ isspace c = false := by
  obtain ⟨c, t, d, hl, hd, hc, _⟩ := toDigits_head p.1
  refine ⟨c, t ++ p.2 ++ inputText rest, ?_, hc ▸ isspace_digitChar hd⟩
  show Nat.toDigits 10 p.1 ++ p.2 ++ inputText rest = _
  rw [hl]
  simp

/-! ## The loop of `main` -/

/-- On a stream of decimal integers the loop of `main` processes one test case
per integer, in order, and leaves. -/
theorem mainLoop_inputText (F : Format) (RAND_MAX fuel : ℕ) (fftw : Fftw)
    (mem : ℕ → ℕ → Sample) (junk : ℕ → ℤ) :
    ∀ (cases : List (ℕ × List Char)) (c iters : ℕ) (w0 : List Char) (s : RandState),
      cases ≠ [] → Separated cases → (∀ x ∈ w0, isspace x = true) →
      (∀ p ∈ cases, p.1 ≤ 2147483647) → cases.length < iters →
      mainLoop F RAND_MAX fuel fftw mem junk iters c ⟨w0 ++ inputText cases, false⟩ s
        = processCases F RAND_MAX fuel fftw mem c (cases.map fun p => (p.1 : ℤ)) s := by
  intro cases
  induction cases with
  | nil => intro c iters w0 s h; exact absurd rfl h
  | cons p rest ih =>
    intro c iters w0 s _ hsep hw0 hrange hiters
    obtain ⟨n, w⟩ := p
    obtain ⟨i, rfl⟩ : ∃ i, iters = i + 1 := ⟨iters - 1, by simp at hiters; omega⟩
    have hn : n ≤ 2147483647 := hrange (n, w) (by simp)
    have hw : ∀ x ∈ w, isspace x = true := by
      cases rest with
      | nil => exact hsep
      | cons q r => exact hsep.1
    have hsep' : w ≠ [] ∨ inputText rest = [] := by
      cases rest with
      | nil => right; rfl
      | cons q r => left; exact hsep.2.1
    have hscan := fscanf_decimal n hn hw0 hw hsep'
    have htext : w0 ++ inputText ((n, w) :: rest)
        = w0 ++ (Nat.toDigits 10 n ++ (w ++ inputText rest)) := by
      show w0 ++ (Nat.toDigits 10 n ++ w ++ inputText rest) = _
      rw [List.append_assoc]
    rw [htext]
    unfold mainLoop processCases
    simp only [Bool.false_eq_true, if_false, hscan, Option.getD_some, List.map_cons]
    cases testCase F RAND_MAX fuel fftw (mem (2 * c)) (mem (2 * c + 1)) (n : ℤ) s with
    | none => rfl
    | some q =>
      obtain ⟨fi, fo, s1⟩ := q
      simp only
      have hrec : mainLoop F RAND_MAX fuel fftw mem junk i (c + 1) (skipSpace (w ++ inputText rest)) s1
          = processCases F RAND_MAX fuel fftw mem (c + 1) (rest.map fun p => (p.1 : ℤ)) s1 := by
        cases rest with
        | nil =>
          have : skipSpace (w ++ inputText []) = ⟨[], true⟩ := by
            show skipSpace (w ++ []) = _
            rw [List.append_nil]
            exact skipSpace_spaces hw
          rw [this]
          obtain ⟨j, rfl⟩ : ∃ j, i = j + 1 := ⟨i - 1, by simp at hiters; omega⟩
          rfl
        | cons q r =>
          obtain ⟨x, t, hx, hxs⟩ := inputText_head q r
          have : skipSpace (w ++ inputText (q :: r)) = ⟨[] ++ inputText (q :: r), false⟩ := by
            rw [hx]
            exact skipSpace_append hw hxs t
          rw [this]
          exact ih (c + 1) i [] s1 (by simp) hsep.2.2 (by simp)
            (fun p hp => hrange p (by simp [hp])) (by simp at hiters ⊢; omega)
      rw [hrec]

/-! ## Test cases that succeed -/

theorem save_ok (n : ℤ) (ext : String) (cs : List Stored) (hlen : cs.length = n.toNat) :
    ∃ f : File, save n ext cs = some f ∧ f.name = fileName n ext := by
  have h := saveLoop_spec cs n.toNat 0 [] (by omega)
  unfold save
  rw [h]
  exact ⟨_, rfl, rfl⟩

/-- A test case succeeds when the library does; its two files are named after
its size. -/
theorem testCase_ok {F : Format} {RAND_MAX : ℕ} (hS : Supported F RAND_MAX) {fuel : ℕ}
    (hfuel : F.emax + 1 ≤ fuel) {fftw : Fftw} (hf : fftw.Succeeds) (mem1 mem2 : ℕ → Sample)
    (n : ℤ) {s : RandState} (hs : ValidDraws RAND_MAX s) :
    ∃ (fi fo : File) (s1 : RandState),
      testCase F RAND_MAX fuel fftw mem1 mem2 n s = some (fi, fo, s1) ∧
      fi.name = fileName n "in" ∧ fo.name = fileName n "out" ∧ ValidDraws RAND_MAX s1 := by
  obtain ⟨inp1, s1, hfill, hl1, hs1, _, _⟩ :=
    generateFill_spec hS hfuel n.toNat 0 (fftwl_malloc mem1 n) s hs
      (by rw [length_fftwl_malloc]; omega)
  obtain ⟨inp2, out2, hfftw, hl2, hl3⟩ := hf n (inp1.map store) ((fftwl_malloc mem2 n).map store)
  rw [List.length_map, hl1, length_fftwl_malloc] at hl2
  rw [List.length_map, length_fftwl_malloc] at hl3
  obtain ⟨fi, hfi, hni⟩ := save_ok n "in" inp2 hl2
  obtain ⟨fo, hfo, hno⟩ := save_ok n "out" out2 hl3
  refine ⟨fi, fo, s1, ?_, hni, hno, hs1⟩
  simp only [testCase, generate, hfill, hfftw, hfi, hfo]

/-- When the library succeeds, all the cases are processed: every size is
printed and two files named after it are written. -/
theorem processCases_ok {F : Format} {RAND_MAX : ℕ} (hS : Supported F RAND_MAX) {fuel : ℕ}
    (hfuel : F.emax + 1 ≤ fuel) {fftw : Fftw} (hf : fftw.Succeeds) (mem : ℕ → ℕ → Sample) :
    ∀ (ns : List ℤ) (c : ℕ) (s : RandState), ValidDraws RAND_MAX s →
      (processCases F RAND_MAX fuel fftw mem c ns s).status = Status.exited ∧
      (processCases F RAND_MAX fuel fftw mem c ns s).log = ns ∧
      (processCases F RAND_MAX fuel fftw mem c ns s).files.map File.name
        = (ns.map fun n => [fileName n "in", fileName n "out"]).flatten := by
  intro ns
  induction ns with
  | nil => intro c s _; exact ⟨rfl, rfl, rfl⟩
  | cons n ns ih =>
    intro c s hs
    obtain ⟨fi, fo, s1, ht, hni, hno, hs1⟩ :=
      testCase_ok hS hfuel hf (mem (2 * c)) (mem (2 * c + 1)) n hs
    obtain ⟨h1, h2, h3⟩ := ih (c + 1) s1 hs1
    unfold processCases
    simp only [ht]
    refine ⟨h1, by rw [h2], ?_⟩
    simp only [List.map_cons, List.flatten_cons, List.cons_append, List.nil_append, hni, hno, h3]

/-! ## `main` on three kinds of input -/

theorem succeeds_copy : Fftw.Succeeds (fun _ inp out => some (inp, out)) :=
  fun _ inp out => ⟨inp, out, rfl, rfl, rfl⟩

theorem validDraws_zero (RAND_MAX : ℕ) : ValidDraws RAND_MAX (fun _ => 0) :=
  fun _ => Nat.zero_le _

/-- When the input is empty the loop of `main` still runs once: it processes one
test case whose size is the indeterminate value of `n`, then leaves. -/
theorem main_empty_input (F : Format) (RAND_MAX fuel : ℕ) (fftw : Fftw) (srand : ℕ → RandState)
    (mem : ℕ → ℕ → Sample) (junk : ℕ → ℤ) (iters : ℕ) :
    main F RAND_MAX fuel fftw srand mem junk (iters + 2) []
      = processCases F RAND_MAX fuel fftw mem 0 [junk 0] (srand 1415926535) := by
  have hscan : fscanf ⟨[], false⟩ = some (none, ⟨[], true⟩) := by decide
  unfold main mainLoop processCases
  simp only [Bool.false_eq_true, if_false, hscan, Option.getD_none]
  cases testCase F RAND_MAX fuel fftw (mem (2 * 0)) (mem (2 * 0 + 1)) (junk 0) (srand 1415926535) with
  | none => rfl
  | some q =>
    obtain ⟨fi, fo, s1⟩ := q
    simp only
    unfold mainLoop processCases
    simp only [if_true]

/-- When the next item of the input is not an integer, `fscanf` assigns nothing
and reads nothing, so the loop of `main` goes on for ever: whatever the fuel, it
is still running, and it has processed one test case per iteration, each with
the indeterminate value of `n` as its size. -/
theorem mainLoop_non_integer {F : Format} {RAND_MAX : ℕ} (hS : Supported F RAND_MAX) {fuel : ℕ}
    (hfuel : F.emax + 1 ≤ fuel) {fftw : Fftw} (hf : fftw.Succeeds) (mem : ℕ → ℕ → Sample)
    (junk : ℕ → ℤ) :
    ∀ (iters c : ℕ) (s : RandState), ValidDraws RAND_MAX s →
      (mainLoop F RAND_MAX fuel fftw mem junk iters c ⟨['x'], false⟩ s).status = Status.running ∧
      (mainLoop F RAND_MAX fuel fftw mem junk iters c ⟨['x'], false⟩ s).log
        = (List.range iters).map fun k => junk (c + k) := by
  have hscan : fscanf ⟨['x'], false⟩ = some (none, ⟨['x'], false⟩) := by decide
  intro iters
  induction iters with
  | zero => intro c s _; exact ⟨rfl, rfl⟩
  | succ iters ih =>
    intro c s hs
    obtain ⟨fi, fo, s1, ht, _, _, hs1⟩ :=
      testCase_ok hS hfuel hf (mem (2 * c)) (mem (2 * c + 1)) (junk c) hs
    obtain ⟨h1, h2⟩ := ih (c + 1) s1 hs1
    unfold mainLoop
    simp only [Bool.false_eq_true, if_false, hscan, Option.getD_none, ht]
    refine ⟨h1, ?_⟩
    rw [h2, List.range_succ_eq_map, List.map_cons, List.map_map, Nat.add_zero]
    congr 1
    apply List.map_congr_left
    intro k _
    show junk (c + 1 + k) = junk (c + (k + 1))
    rw [Nat.add_assoc, Nat.add_comm 1 k]

/-- C12 (the code at the failing input): on the input `x`, with the x87 format, a
library that succeeds and `1` for the indeterminate value of `n`, the loop of
`main` never leaves: for every number of iterations it is still running and has
processed that many test cases of size `1`. -/
theorem main_non_integer_input (iters : ℕ) :
    (main x87 2147483647 16384 (fun _ inp out => some (inp, out)) (fun _ _ => 0)
        (fun _ _ => (FP.nan, FP.nan)) (fun _ => 1) iters ['x']).status = Status.running ∧
    (main x87 2147483647 16384 (fun _ inp out => some (inp, out)) (fun _ _ => 0)
        (fun _ _ => (FP.nan, FP.nan)) (fun _ => 1) iters ['x']).log = List.replicate iters 1 := by
  obtain ⟨h1, h2⟩ := mainLoop_non_integer supported_x87
    (show x87.emax + 1 ≤ 16384 from le_refl _) succeeds_copy (fun _ _ => (FP.nan, FP.nan))
    (fun _ => 1) iters 0 (fun _ => 0) (validDraws_zero 2147483647)
  refine ⟨h1, ?_⟩
  unfold main
  rw [h2]
  simp

/-! ## File names -/

theorem printInt_length_le (n : ℤ) (hn : -2147483648 ≤ n ∧ n ≤ 2147483647) :
    (printInt n).length ≤ 11 := by
  have h := toDigits_length_le n.natAbs (by omega)
  unfold printInt
  split
  · simp only [List.length_cons]; omega
  · omega

theorem printInt_no_dot (n : ℤ) : ∀ c ∈ printInt n, c ≠ '.' := by
  have hd : ∀ c ∈ Nat.toDigits 10 n.natAbs, c ≠ '.' := by
    intro c hc
    obtain ⟨d, hd, rfl⟩ := (toDigits_spec n.natAbs).2.1 c hc
    exact (digitChar_not_sign hd).2.2
  intro c hc
  unfold printInt at hc
  split at hc
  · rcases List.mem_cons.1 hc with h | h
    · rw [h]; decide
    · exact hd c h
  · exact hd c hc

theorem printInt_injective {a b : ℤ} (h : printInt a = printInt b) : a = b := by
  have hne : ∀ n : ℕ, ∀ t, Nat.toDigits 10 n ≠ '-' :: t := by
    intro n t h
    obtain ⟨c, t', d, hl, hd, hc, _⟩ := toDigits_head n
    rw [hl] at h
    have := (List.cons.inj h).1
    rw [hc] at this
    exact (digitChar_not_sign hd).1 this
  unfold printInt at h
  split at h <;> split at h
  · have := toDigits_injective (List.cons.inj h).2
    omega
  · exact absurd h.symm (hne _ _)
  · exact absurd h (hne _ _)
  · have := toDigits_injective h
    omega

/-- Two lists that agree after a dot that neither has before it. -/
theorem append_dot_inj :
    ∀ (p q r t : List Char), (∀ c ∈ p, c ≠ '.') → (∀ c ∈ q, c ≠ '.') →
      p ++ '.' :: r = q ++ '.' :: t → p = q ∧ r = t := by
  intro p
  induction p with
  | nil =>
    intro q r t _ hq h
    cases q with
    | nil => exact ⟨rfl, (List.cons.inj h).2⟩
    | cons c q =>
      have := (List.cons.inj h).1
      exact absurd this.symm (hq c (by simp))
  | cons a p ih =>
    intro q r t hp hq h
    cases q with
    | nil =>
      have := (List.cons.inj h).1
      exact absurd this (hp a (by simp))
    | cons c q =>
      obtain ⟨h1, h2⟩ := List.cons.inj h
      obtain ⟨h3, h4⟩ := ih q r t (fun x hx => hp x (by simp [hx])) (fun x hx => hq x (by simp [hx])) h2
      exact ⟨by rw [h1, h3], h4⟩

theorem fileName_toList (n : ℤ) (r : String) (hn : -2147483648 ≤ n ∧ n ≤ 2147483647)
    (hr : r = "in" ∨ r = "out") :
    (fileName n r).toList = "fftw.".toList ++ printInt n ++ '.' :: r.toList := by
  have hl := printInt_length_le n hn
  have hr' : r.toList.length ≤ 3 := by
    rcases hr with h | h <;> subst h <;> decide
  unfold fileName
  show List.take 99 _ = _
  apply List.take_of_length_le
  have h5 : "fftw.".toList.length = 5 := by decide
  simp only [List.length_append, List.length_cons, h5]
  omega

/-- C13 (as amended): for a 32-bit size `n` and the role `in` or `out`, the file
name that `save` builds is `fftw.<n>.<role>` with `n` in decimal, and two such
names are equal exactly when the sizes are equal and the roles are equal: the
artifacts of test cases of different sizes, and the two artifacts of one case,
have different names, while two test cases of the same size use the same two
names. -/
theorem fileName_eq_iff (n n' : ℤ) (r r' : String)
    (hn : -2147483648 ≤ n ∧ n ≤ 2147483647) (hn' : -2147483648 ≤ n' ∧ n' ≤ 2147483647)
    (hr : r = "in" ∨ r = "out") (hr' : r' = "in" ∨ r' = "out") :
    (fileName n r).toList = "fftw.".toList ++ printInt n ++ '.' :: r.toList ∧
      (fileName n r = fileName n' r' ↔ n = n' ∧ r = r') := by
  refine ⟨fileName_toList n r hn hr, ⟨fun h => ?_, fun h => by rw [h.1, h.2]⟩⟩
  have h1 : (fileName n r).toList = (fileName n' r').toList := by rw [h]
  rw [fileName_toList n r hn hr, fileName_toList n' r' hn' hr', List.append_assoc,
    List.append_assoc] at h1
  have h2 := List.append_cancel_left h1
  obtain ⟨h3, h4⟩ := append_dot_inj _ _ _ _ (printInt_no_dot n) (printInt_no_dot n') h2
  exact ⟨printInt_injective h3, String.ext h4⟩

theorem fileName_eq_iff_witness :
    (-2147483648 ≤ (3 : ℤ) ∧ (3 : ℤ) ≤ 2147483647) ∧
    (-2147483648 ≤ (100 : ℤ) ∧ (100 : ℤ) ≤ 2147483647) ∧
    ("in" = "in" ∨ "in" = "out") ∧ ("out" = "in" ∨ "out" = "out") ∧
    ((fileName 3 "in").toList = "fftw.".toList ++ printInt 3 ++ '.' :: "in".toList ∧
      (fileName 3 "in" = fileName 100 "out" ↔ (3 : ℤ) = 100 ∧ "in" = "out")) :=
  ⟨by norm_num, by norm_num, Or.inl rfl, Or.inr rfl,
    fileName_eq_iff 3 100 "in" "out" (by norm_num) (by norm_num) (Or.inl rfl) (Or.inr rfl)⟩

/-- C13 (counterexample): on the input `3 3` the loop of `main` processes two
test cases and leaves; the artifacts of the second case have the names of the
artifacts of the first. -/
theorem main_same_size_twice :
    (main x87 2147483647 16384 (fun _ inp out => some (inp, out)) (fun _ _ => 0)
        (fun _ _ => (FP.nan, FP.nan)) (fun _ => 1) 4 ['3', ' ', '3']).status = Status.exited ∧
    (main x87 2147483647 16384 (fun _ inp out => some (inp, out)) (fun _ _ => 0)
        (fun _ _ => (FP.nan, FP.nan)) (fun _ => 1) 4 ['3', ' ', '3']).log = [3, 3] ∧
    (main x87 2147483647 16384 (fun _ inp out => some (inp, out)) (fun _ _ => 0)
        (fun _ _ => (FP.nan, FP.nan)) (fun _ => 1) 4 ['3', ' ', '3']).files.map File.name
      = ["fftw.3.in", "fftw.3.out", "fftw.3.in", "fftw.3.out"] := by
  have htext : ['3', ' ', '3'] = [] ++ inputText [(3, [' ']), (3, [])] := by decide
  have hrun := mainLoop_inputText x87 2147483647 16384 (fun _ inp out => some (inp, out))
    (fun _ _ => (FP.nan, FP.nan)) (fun _ => 1) [(3, [' ']), (3, [])] 0 4 [] (fun _ => 0)
    (by decide) ⟨by decide, by decide, fun c hc => absurd hc (List.not_mem_nil c)⟩
    (fun c hc => absurd hc (List.not_mem_nil c)) (by decide) (by decide)
  obtain ⟨h1, h2, h3⟩ := processCases_ok supported_x87
    (show x87.emax + 1 ≤ 16384 from le_refl _) succeeds_copy (fun _ _ => (FP.nan, FP.nan))
    [3, 3] 0 (fun _ => 0) (validDraws_zero 2147483647)
  unfold main
  rw [htext, hrun]
  refine ⟨h1, h2, ?_⟩
  rw [show (List.map (fun p : ℕ × List Char => (p.1 : ℤ)) [(3, [' ']), (3, [])]) = [3, 3] from rfl, h3]
  decide

/-! ## What the two files of a test case hold -/

/-- The file `in` of a test case holds the input buffer as the calls of the
library leave it, and the file `out` the output buffer as they leave it. -/
theorem testCase_artifacts (F : Format) (RAND_MAX fuel : ℕ) (fftw : Fftw) (mem1 mem2 : ℕ → Sample)
    (n : ℤ) (s s1 : RandState) (fi fo : File)
    (h : testCase F RAND_MAX fuel fftw mem1 mem2 n s = some (fi, fo, s1)) :
    ∃ (x : List Sample) (inp2 out2 : List Stored),
      generateFill F RAND_MAX fuel n.toNat 0 (fftwl_malloc mem1 n) s = some (x, s1) ∧
      fftw n (x.map store) ((fftwl_malloc mem2 n).map store) = some (inp2, out2) ∧
      save n "in" inp2 = some fi ∧ save n "out" out2 = some fo := by
  unfold testCase generate at h
  cases hg : generateFill F RAND_MAX fuel n.toNat 0 (fftwl_malloc mem1 n) s with
  | none => simp [hg] at h
  | some p =>
    obtain ⟨x, s2⟩ := p
    cases hf : fftw n (x.map store) ((fftwl_malloc mem2 n).map store) with
    | none => simp [hg, hf] at h
    | some q =>
      obtain ⟨inp2, out2⟩ := q
      cases hi : save n "in" inp2 with
      | none => simp [hg, hf, hi] at h
      | some f1 =>
        cases ho : save n "out" out2 with
        | none => simp [hg, hf, hi, ho] at h
        | some f2 =>
          simp only [hg, hf, hi, ho, Option.some.injEq, Prod.mk.injEq] at h
          obtain ⟨h1, h2, h3⟩ := h
          subst h1 h2 h3
          exact ⟨x, inp2, out2, rfl, hf, hi, ho⟩

/-! ## The input of a case depends on the cases before it -/

theorem round_zero (F : Format) : F.round 0 = FP.fin 0 := by
  apply F.round_of_rep (rep_zero F)
  rw [abs_zero]
  exact two_zpow_pos _

theorem scaleFrom_inv {F : Format} {RAND_MAX : ℕ} (hS : Supported F RAND_MAX) (k : ℕ) :
    ScaleInv F RAND_MAX k (scaleFrom F RAND_MAX (FP.fin (RAND_MAX : ℚ)) k) := by
  induction k with
  | zero =>
    right
    refine ⟨_, rfl, by simp, ?_⟩
    have h1 : RAND_MAX < 2 ^ (F.emax + 1) :=
      lt_trans hS.2.2.2 (Nat.pow_lt_pow_right (by norm_num) (by omega))
    exact_mod_cast h1
  | succ k ih =>
    show ScaleInv F RAND_MAX (k + 1) (FP.mul F _ (FP.ofInt F (RAND_MAX : ℤ)))
    rw [ofInt_draw hS (le_refl RAND_MAX)]
    exact mul_scale hS ih

theorem accFrom_zero {F : Format} {RAND_MAX : ℕ} (hS : Supported F RAND_MAX) (k : ℕ) :
    accFrom F RAND_MAX (fun _ => 0) (FP.fin 0) (FP.fin (RAND_MAX : ℚ)) k = FP.fin 0 := by
  induction k with
  | zero => rfl
  | succ k ih =>
    show FP.add F (accFrom F RAND_MAX (fun _ => 0) (FP.fin 0) (FP.fin (RAND_MAX : ℚ)) k)
      (FP.div F (FP.ofInt F ((0 : ℕ) : ℤ)) (scaleFrom F RAND_MAX (FP.fin (RAND_MAX : ℚ)) k)) = _
    rw [ih, ofInt_draw hS (Nat.zero_le _)]
    have hdiv : FP.div F (FP.fin ((0 : ℕ) : ℚ)) (scaleFrom F RAND_MAX (FP.fin (RAND_MAX : ℚ)) k)
        = FP.fin 0 := by
      rcases scaleFrom_inv hS k with h | ⟨x, h, hx1, _⟩
      · rw [h]; rfl
      · rw [h]
        have hx0 : x ≠ 0 := by
          have hR : (0 : ℚ) < RAND_MAX := by
            have := hS.2.1
            exact_mod_cast (by omega : 0 < RAND_MAX)
          have : (0 : ℚ) < RAND_MAX * 2 ^ (RAND_MAX.log2 * k) := by positivity
          linarith
        simp only [FP.div, if_neg hx0, Nat.cast_zero, zero_div, round_zero F]
    rw [hdiv]
    simp only [FP.add, add_zero, round_zero F]

/-- When every draw is `0` the sampler returns `0`. -/
theorem randld_zero {F : Format} {RAND_MAX : ℕ} (hS : Supported F RAND_MAX) {fuel : ℕ}
    (hfuel : F.emax + 1 ≤ fuel) :
    randld F RAND_MAX fuel (fun _ => 0) = some (FP.fin 0, fun _ => 0) := by
  obtain ⟨v, m0, h, _⟩ := randld_spec hS hfuel (validDraws_zero RAND_MAX)
  obtain ⟨m, _, _, hres, _, _⟩ := randldLoop_first F RAND_MAX fuel _ _ _ _ h
  rw [ofInt_zero hS, ofInt_draw hS (le_refl RAND_MAX), accFrom_zero hS] at hres
  rw [h, hres]

/-- Two test cases of the same size do not get the same input: with a first
draw of `RAND_MAX` followed by zeros, a case of size `1` generated first and a
case of size `1` generated after it differ. -/
theorem generateFill_depends_on_history :
    ∃ (x1 x2 : List Sample) (s1 s2 : RandState),
      generateFill x87 2147483647 16384 1 0 [(FP.nan, FP.nan)]
        (fun i => if i = 0 then 2147483647 else 0) = some (x1, s1) ∧
      generateFill x87 2147483647 16384 1 0 [(FP.nan, FP.nan)] s1 = some (x2, s2) ∧
      x1 ≠ x2 := by
  have hs : ValidDraws 2147483647 (fun i => if i = 0 then 2147483647 else 0) :=
    fun i => by dsimp only; split <;> omega
  have hfuel : x87.emax + 1 ≤ 16384 := le_refl _
  obtain ⟨v, m, h, hm, h1, h2⟩ := randld_ge_one supported_x87 hfuel hs rfl
  have htail : (fun i => (fun i => if i = 0 then 2147483647 else 0) (i + m))
      = (fun _ : ℕ => (0 : ℕ)) := by
    funext i
    show (if i + m = 0 then 2147483647 else 0) = 0
    rw [if_neg (by omega)]
  rw [htail] at h
  have hz := randld_zero supported_x87 hfuel
  obtain ⟨c, hc, _, _, hc1⟩ := add_minusHalf supported_x87 (le_trans zero_le_one h1) h2
  obtain ⟨c0, hc0, _, hc0u, _⟩ :=
    add_minusHalf supported_x87 (le_refl (0 : ℚ))
      (le_trans zero_le_one (one_le_samplerMax 2147483647))
  have hc0' : c0 = -1 / 2 := by
    have h3 : FP.add x87 (minusHalf x87) (FP.fin 0) = FP.fin (-1 / 2) := by
      rw [minusHalf_eq supported_x87.1]
      show x87.round (-1 / 2 + 0) = _
      rw [add_zero]
      exact minusHalf_eq supported_x87.1
    rw [h3] at hc0
    exact (FP.fin.inj hc0).symm
  have hg1 := generateFill_one x87 2147483647 16384 [(FP.nan, FP.nan)] _ _ _ _ _ h hz (by simp)
  have hg2 := generateFill_one x87 2147483647 16384 [(FP.nan, FP.nan)] _ _ _ _ _ hz hz (by simp)
  rw [hc, hc0] at hg1
  rw [hc0] at hg2
  refine ⟨_, _, _, _, hg1, hg2, ?_⟩
  simp only [List.set_cons_zero, ne_eq, List.cons.injEq, Prod.mk.injEq, FP.fin.injEq, and_true,
    not_and]
  intro h4
  have := hc1 h1
  rw [h4, hc0'] at this
  norm_num at this

/-! ## Two runs of the program -/

/-- What the allocated memory held before does not show in a run, when the
library does not look at the previous contents of the output buffer. -/
theorem mainLoop_mem (F : Format) (RAND_MAX fuel : ℕ) (fftw : Fftw) (hf : fftw.IgnoresOutput)
    (mem mem' : ℕ → ℕ → Sample) (junk : ℕ → ℤ) :
    ∀ (iters c : ℕ) (st : Stdin) (s : RandState),
      mainLoop F RAND_MAX fuel fftw mem junk iters c st s
        = mainLoop F RAND_MAX fuel fftw mem' junk iters c st s := by
  intro iters
  induction iters with
  | zero => intro c st s; rfl
  | succ iters ih =>
    intro c st s
    unfold mainLoop
    by_cases he : st.eof = true
    · simp only [he, if_true]
    · simp only [he, Bool.false_eq_true, if_false]
      cases fscanf st with
      | none => rfl
      | some q =>
        obtain ⟨r, st1⟩ := q
        simp only
        rw [testCase_congr F RAND_MAX fuel fftw hf (mem (2 * c)) (mem (2 * c + 1))
          (mem' (2 * c)) (mem' (2 * c + 1)) (r.getD (junk c)) s]
        cases testCase F RAND_MAX fuel fftw (mem' (2 * c)) (mem' (2 * c + 1)) (r.getD (junk c))
            s with
        | none => rfl
        | some p =>
          obtain ⟨fi, fo, s1⟩ := p
          simp only
          rw [ih (c + 1) st1 s1]

theorem processCases_mem (F : Format) (RAND_MAX fuel : ℕ) (fftw : Fftw) (hf : fftw.IgnoresOutput)
    (mem mem' : ℕ → ℕ → Sample) :
    ∀ (ns : List ℤ) (c c' : ℕ) (s : RandState),
      processCases F RAND_MAX fuel fftw mem c ns s
        = processCases F RAND_MAX fuel fftw mem' c' ns s := by
  intro ns
  induction ns with
  | nil => intro c c' s; rfl
  | cons n ns ih =>
    intro c c' s
    unfold processCases
    rw [testCase_congr F RAND_MAX fuel fftw hf (mem (2 * c)) (mem (2 * c + 1))
      (mem' (2 * c')) (mem' (2 * c' + 1)) n s]
    cases testCase F RAND_MAX fuel fftw (mem' (2 * c')) (mem' (2 * c' + 1)) n s with
    | none => rfl
    | some p =>
      obtain ⟨fi, fo, s1⟩ := p
      simp only
      rw [ih (c + 1) (c' + 1) s1]

/-- On an input that gives every test case its size (decimal integers that fit
`int`, separated by white space), two runs of the program print the same sizes
and write the same files with the same bytes, whatever the allocated memory held
before and whatever value `n` had before it was assigned, when the library does
not look at the previous contents of the output buffer. -/
theorem main_deterministic (F : Format) (RAND_MAX fuel : ℕ) (fftw : Fftw)
    (hf : fftw.IgnoresOutput) (srand : ℕ → RandState) (mem mem' : ℕ → ℕ → Sample)
    (junk junk' : ℕ → ℤ) (cases : List (ℕ × List Char)) (w0 : List Char) (iters iters' : ℕ)
    (hne : cases ≠ []) (hsep : Separated cases) (hw0 : ∀ x ∈ w0, isspace x = true)
    (hrange : ∀ p ∈ cases, p.1 ≤ 2147483647) (hiters : cases.length < iters)
    (hiters' : cases.length < iters') :
    main F RAND_MAX fuel fftw srand mem junk iters (w0 ++ inputText cases)
      = main F RAND_MAX fuel fftw srand mem' junk' iters' (w0 ++ inputText cases) := by
  unfold main
  rw [mainLoop_inputText F RAND_MAX fuel fftw mem junk cases 0 iters w0 _ hne hsep hw0 hrange
      hiters,
    mainLoop_inputText F RAND_MAX fuel fftw mem' junk' cases 0 iters' w0 _ hne hsep hw0 hrange
      hiters']
  exact processCases_mem F RAND_MAX fuel fftw hf mem mem' _ 0 0 _

/-- C7 (the code at the failing input): on the empty input, with the same seed,
the same library and the same memory, two runs of `main` that differ only in
the indeterminate value that the uninitialised `n` holds, `1` in one run and `2`
in the other, do not write the same artifacts: one writes `fftw.1.in` and
`fftw.1.out`, the other `fftw.2.in` and `fftw.2.out`. -/
theorem main_empty_input_varies :
    (main x87 2147483647 16384 (fun _ inp out => some (inp, out)) (fun _ _ => 0)
        (fun _ _ => (FP.nan, FP.nan)) (fun _ => 1) 4 []).files.map File.name
      = ["fftw.1.in", "fftw.1.out"] ∧
    (main x87 2147483647 16384 (fun _ inp out => some (inp, out)) (fun _ _ => 0)
        (fun _ _ => (FP.nan, FP.nan)) (fun _ => 2) 4 []).files.map File.name
      = ["fftw.2.in", "fftw.2.out"] ∧
    (main x87 2147483647 16384 (fun _ inp out => some (inp, out)) (fun _ _ => 0)
        (fun _ _ => (FP.nan, FP.nan)) (fun _ => 1) 4 []).files
      ≠ (main x87 2147483647 16384 (fun _ inp out => some (inp, out)) (fun _ _ => 0)
        (fun _ _ => (FP.nan, FP.nan)) (fun _ => 2) 4 []).files := by
  have hrun : ∀ j : ℤ,
      (main x87 2147483647 16384 (fun _ inp out => some (inp, out)) (fun _ _ => 0)
        (fun _ _ => (FP.nan, FP.nan)) (fun _ => j) 4 []).files.map File.name
        = [fileName j "in", fileName j "out"] := by
    intro j
    rw [main_empty_input x87 2147483647 16384 _ _ _ _ 2]
    exact (processCases_ok supported_x87 (show x87.emax + 1 ≤ 16384 from le_refl _)
      succeeds_copy (fun _ _ => (FP.nan, FP.nan)) [j] 0 _ (validDraws_zero 2147483647)).2.2
  have h1 := hrun 1
  have h2 := hrun 2
  have e1 : [fileName 1 "in", fileName 1 "out"] = ["fftw.1.in", "fftw.1.out"] := by decide
  have e2 : [fileName 2 "in", fileName 2 "out"] = ["fftw.2.in", "fftw.2.out"] := by decide
  rw [e1] at h1
  rw [e2] at h2
  refine ⟨h1, h2, ?_⟩
  intro h
  rw [h, h2] at h1
  exact absurd h1 (by decide)

end Genref1d
